import Mathlib

/-! # Checked combinatorics of `numbers_calculations::math`

A shallow embedding of `combinatorics.hpp` (factorial, permutations,
combinations), `math/factorial.hpp` (the loop-only factorial) and
`integer_ops.hpp` (integer power and logarithms), of the lookup tables they
dispatch to and of the integer types their templates are
instantiated with, of `core/constexpr_literals.hpp` (the 128-bit literals) and
of `core/numeric_io.hpp` (the stream operators of `int128_t`), followed by the
theorems that relate the embedded code to the library's specification.

Machine integers are mathematical integers (`Int`); every C++ operation whose
result is stored back into a variable of type `T` goes through `IntType.wrap`,
the reduction modulo `2^bits` into the range of `T`.  Integer promotion of the
8 and 16 bit types computes an expression in `int` and reduces once on the
store; reducing after every operation gives the same stored value, since the
reduction is a ring homomorphism modulo `2^bits`.  Loops carry a fuel
argument; `none` means that the call has no result: the fuel ran out before
the loop returned, or a table was read outside its bounds.
-/

namespace numbers_calculations

/-! ## core: error codes and the result type -/

/-- The enumeration `core::MathError`. -/
inductive MathError where
  | NoError
  | Overflow
  | Underflow
  | DivisionByZero
  | DomainError
  deriving DecidableEq, Repr

/-- The type `core::Expected<T>`: either a value or an error code. -/
inductive Expected where
  | value (v : Int)
  | unexpected (e : MathError)
  deriving DecidableEq, Repr

/-! ## core: the integer types the templates are instantiated with -/

/-- Widths of the native fixed-width integer types.  The 128-bit pair
`__int128_t`, `__uint128_t` is a compiler extension and appears twice: `w128`
in a build whose `<type_traits>` recognises it (the GNU dialects of libstdc++),
`w128_iso` in a build whose `<type_traits>` does not (the ISO dialects, such as
`-std=c++17`, where `std::is_signed_v<__int128_t>` is false).  Representation,
`sizeof` and the `std::numeric_limits` specialisations of
`extended_type_traits.hpp` are the same in both. -/
inductive Width where
  | w8 | w16 | w32 | w64 | w128 | w128_iso
  deriving DecidableEq, Repr

/-- Number of bits of a width. -/
def Width.bits : Width → Nat
  | .w8 => 8
  | .w16 => 16
  | .w32 => 32
  | .w64 => 64
  | .w128 => 128
  | .w128_iso => 128

/-- A type accepted by `core::is_supported_integer_v`.
`native w s` is the native type of width `w`, signed (two's complement) when
`s` is true (`int8_t` .. `int64_t`, `int128_t` and their unsigned
counterparts); what `std::is_signed_v` reports for it is `is_signed`.
`bigint s m` is an arbitrary-precision backend type such as `cpp_int`; the
backend library, not this repository, decides what `std::is_signed_v` (`s`)
and `std::numeric_limits<T>::max()` (`m`) report for it, so both are
parameters. -/
inductive IntType where
  | native (w : Width) (sgn : Bool)
  | bigint (sgn : Bool) (limitsMax : Int)
  deriving DecidableEq, Repr

namespace IntType

/-- The trait `std::is_signed_v<T>`, by which the domain checks are compiled
in or out (`if constexpr`).  It is the signedness of a type that
`<type_traits>` recognises and false for both 128-bit types where it does not
recognise them. -/
def is_signed : IntType → Bool
  | native Width.w128_iso _ => false
  | native _ s => s
  | bigint s _ => s

/-- The compile-time condition `std::is_same_v<T, uint128_t>`. -/
def is_uint128 : IntType → Bool
  | native w false => decide (w.bits = 128)
  | _ => false

/-- The trait `std::numeric_limits<T>::is_bounded`. -/
def is_bounded : IntType → Bool
  | native _ _ => true
  | bigint _ _ => false

/-- The value `std::numeric_limits<T>::max()`. -/
def max : IntType → Int
  | native w true => 2 ^ (w.bits - 1) - 1
  | native w false => 2 ^ w.bits - 1
  | bigint _ m => m

/-- The value `std::numeric_limits<T>::min()`; an arbitrary-precision type has
no least value and `none` stands for that. -/
def min : IntType → Option Int
  | native w true => some (-(2 ^ (w.bits - 1)))
  | native _ false => some 0
  | bigint _ _ => none

/-- The compile-time condition
`std::numeric_limits<T>::is_bounded && sizeof(T) < sizeof(core::uint128_t)`. -/
def narrower_than_uint128 : IntType → Bool
  | native w _ => decide (w.bits < 128)
  | bigint _ _ => false

/-- The compile-time condition `sizeof(T) <= sizeof(unsigned long long)`. -/
def fits_unsigned_long_long : IntType → Bool
  | native w _ => decide (w.bits ≤ 64)
  | bigint _ _ => false

/-- Storing the mathematical integer `x` into a variable of type `T`:
reduction modulo `2^bits` into the range of `T` for a native type, the
identity for an arbitrary-precision type. -/
def wrap : IntType → Int → Int
  | native w true, x => (x + 2 ^ (w.bits - 1)) % 2 ^ w.bits - 2 ^ (w.bits - 1)
  | native w false, x => x % 2 ^ w.bits
  | bigint _ _, x => x

/-- The integer `x` is a value of type `T`. -/
def inRange (T : IntType) (x : Int) : Prop :=
  (match T.min with
   | some m => m ≤ x
   | none => True) ∧
  (T.is_bounded = true → x ≤ T.max)

end IntType

/-! ## math::internal: the factorial lookup table -/

namespace math
namespace internal

/-- Modulus of `core::uint128_t`, the element type of the lookup table. -/
def uint128_modulus : Nat := 2 ^ 128

/-- The generator `generate_factorial_lut<T, N>()` at `T = uint128_t`: a
zero-initialised array of `N` entries, `table[0] = 1`, then for `i` from `1`
to `N - 1`, `table[i] = table[i - 1] * i` in `uint128_t` arithmetic. -/
def generate_factorial_lut (N : Nat) : List Nat :=
  (List.range' 1 (N - 1)).foldl
    (fun table i => table.set i ((table.getD (i - 1) 0 * i) % uint128_modulus))
    ((List.replicate N 0).set 0 1)

/-- The table `FACTORIALS_LUT = generate_factorial_lut<core::uint128_t, 34>()`. -/
def FACTORIALS_LUT : List Nat := generate_factorial_lut 34

/-- The loop of `constexpr_factorial`, from the state `(result, i)`:
`while (i <= n) { if (i > 1 && result > max / i) return Overflow;
result *= i; ++i; } return result;`. -/
def constexpr_factorial_loop (T : IntType) : Nat → Int → Int → Int → Option Expected
  | 0, _, _, _ => none
  | fuel + 1, n, result, i =>
    if i ≤ n then
      if 1 < i ∧ result > Int.tdiv T.max i then
        some (Expected.unexpected MathError.Overflow)
      else
        constexpr_factorial_loop T fuel n (T.wrap (result * i)) (T.wrap (i + 1))
    else
      some (Expected.value result)

/-- The function `internal::constexpr_factorial<T>(n)`: the loop started at
`result = 1`, `i = 1`. -/
def constexpr_factorial (T : IntType) (fuel : Nat) (n : Int) : Option Expected :=
  constexpr_factorial_loop T fuel n (T.wrap 1) (T.wrap 1)

end internal

/-- The function `factorial<T>(n)`: the domain check, compiled in when
`std::is_signed_v<T>` holds, the lookup-table dispatch for `n < 34`, the
generic checked loop otherwise.  `FACTORIALS_LUT[n]` converts `n` to the
64-bit `std::size_t`; a read outside the 34 entries has no defined result
(`none`), which can happen only for a negative `n` that passed the domain
check. -/
def factorial (T : IntType) (fuel : Nat) (n : Int) : Option Expected :=
  if T.is_signed = true ∧ n < 0 then
    some (Expected.unexpected MathError.DomainError)
  else if n < (internal.FACTORIALS_LUT.length : Int) then
    let index : Nat := (n % 2 ^ 64).toNat
    if index < internal.FACTORIALS_LUT.length then
      let lut_value : Int := (internal.FACTORIALS_LUT.getD index 0 : Nat)
      if T.narrower_than_uint128 = true ∧ lut_value > T.max then
        some (Expected.unexpected MathError.Overflow)
      else
        some (Expected.value (T.wrap lut_value))
    else
      none
  else
    internal.constexpr_factorial T fuel (T.wrap n)

/-- The loop of `permutations`, from the state `(result, i)`:
`for (; i < k; ++i) { T term = n - i; if (result > max / term) return
Overflow; result *= term; } return result;`. -/
def permutations_loop (T : IntType) : Nat → Int → Int → Int → Int → Option Expected
  | 0, _, _, _, _ => none
  | fuel + 1, n, k, result, i =>
    if i < k then
      let term := T.wrap (n - i)
      if result > Int.tdiv T.max term then
        some (Expected.unexpected MathError.Overflow)
      else
        permutations_loop T fuel n k (T.wrap (result * term)) (T.wrap (i + 1))
    else
      some (Expected.value result)

/-- The function `permutations<T>(n, k)`. -/
def permutations (T : IntType) (fuel : Nat) (n k : Int) : Option Expected :=
  if T.is_signed = true ∧ (n < 0 ∨ k < 0) then
    some (Expected.unexpected MathError.DomainError)
  else if k > n then
    some (Expected.unexpected MathError.DomainError)
  else if k = 0 then
    some (Expected.value (T.wrap 1))
  else
    permutations_loop T fuel n k (T.wrap 1) (T.wrap 0)

/-- The loop of `combinations`, from the state `(result, i)`:
`for (; i <= k; ++i) { T term = n - i + 1; if (result > max / term) return
Overflow; result *= term; result /= i; } return result;`. -/
def combinations_loop (T : IntType) : Nat → Int → Int → Int → Int → Option Expected
  | 0, _, _, _, _ => none
  | fuel + 1, n, k, result, i =>
    if i ≤ k then
      let term := T.wrap (T.wrap (n - i) + 1)
      if result > Int.tdiv T.max term then
        some (Expected.unexpected MathError.Overflow)
      else
        combinations_loop T fuel n k
          (T.wrap (Int.tdiv (T.wrap (result * term)) i)) (T.wrap (i + 1))
    else
      some (Expected.value result)

/-- The function `combinations<T>(n, k)`. -/
def combinations (T : IntType) (fuel : Nat) (n k : Int) : Option Expected :=
  if T.is_signed = true ∧ (n < 0 ∨ k < 0) then
    some (Expected.unexpected MathError.DomainError)
  else if k > n then
    some (Expected.unexpected MathError.DomainError)
  else
    let k' := if k > Int.tdiv n 2 then T.wrap (n - k) else k
    if k' = 0 then
      some (Expected.value (T.wrap 1))
    else
      combinations_loop T fuel n k' (T.wrap 1) (T.wrap 1)

/-! ## math::internal: the power lookup tables and the generic fallbacks -/

namespace internal

/-- The loop of `generate_power_lut<uint128_t, N>(base)` with `count` indices
left, at index `i`: for `i > 0` it stops (`break`), leaving the rest of the
table zero, when `current_power > max / base`, else multiplies
`current_power` by `base`; then it stores `table[i] = current_power`. -/
def generate_power_lut_loop (base : Nat) : Nat → Nat → Nat → List Nat → List Nat
  | 0, _, _, table => table
  | count + 1, i, current_power, table =>
    if 0 < i then
      if current_power > (uint128_modulus - 1) / base then
        table
      else
        generate_power_lut_loop base count (i + 1)
          ((current_power * base) % uint128_modulus)
          (table.set i ((current_power * base) % uint128_modulus))
    else
      generate_power_lut_loop base count (i + 1) current_power (table.set i current_power)

/-- The generator `generate_power_lut<uint128_t, N>(base)`. -/
def generate_power_lut (N base : Nat) : List Nat :=
  generate_power_lut_loop base N 0 1 (List.replicate N 0)

/-- The table `POWERS_OF_2 = generate_power_lut<uint128_t, 128>(2)`. -/
def POWERS_OF_2 : List Nat := generate_power_lut 128 2

/-- The table `POWERS_OF_3 = generate_power_lut<uint128_t, 81>(3)`. -/
def POWERS_OF_3 : List Nat := generate_power_lut 81 3

/-- The table `POWERS_OF_5 = generate_power_lut<uint128_t, 56>(5)`. -/
def POWERS_OF_5 : List Nat := generate_power_lut 56 5

/-- The table `POWERS_OF_10 = generate_power_lut<uint128_t, 39>(10)`. -/
def POWERS_OF_10 : List Nat := generate_power_lut 39 10

/-- The loop of `generic_power`, from the state `(result, b, e)`; the exponent
`e` has an unsigned type and is a natural number:
`while (e > 0) { if (e % 2 == 1) { if (b != 0 && result > max / b) return
Overflow; result *= b; } if (e > 1) { if (b != 0 && b > max / b) return
Overflow; b *= b; } e /= 2; } return result;`. -/
def generic_power_loop (T : IntType) : Nat → Int → Int → Nat → Option Expected
  | 0, _, _, _ => none
  | fuel + 1, result, b, e =>
    if 0 < e then
      if e % 2 = 1 then
        if b ≠ 0 ∧ result > Int.tdiv T.max b then
          some (Expected.unexpected MathError.Overflow)
        else if 1 < e then
          if b ≠ 0 ∧ b > Int.tdiv T.max b then
            some (Expected.unexpected MathError.Overflow)
          else
            generic_power_loop T fuel (T.wrap (result * b)) (T.wrap (b * b)) (e / 2)
        else
          generic_power_loop T fuel (T.wrap (result * b)) b (e / 2)
      else if 1 < e then
        if b ≠ 0 ∧ b > Int.tdiv T.max b then
          some (Expected.unexpected MathError.Overflow)
        else
          generic_power_loop T fuel result (T.wrap (b * b)) (e / 2)
      else
        generic_power_loop T fuel result b (e / 2)
    else
      some (Expected.value result)

/-- The function `internal::generic_power<T_Base, T_Exp>(base, exp)`. -/
def generic_power (T : IntType) (fuel : Nat) (base : Int) (exp : Nat) : Option Expected :=
  if exp = 0 then
    some (Expected.value (T.wrap 1))
  else if base = 0 then
    some (Expected.value (T.wrap 0))
  else
    generic_power_loop T fuel (T.wrap 1) base exp

/-- Modulus of `unsigned int`, the type of the logarithm results and of the
binary-search indices. -/
def uint_modulus : Nat := 2 ^ 32

/-- The loop of `generic_log`, from the state `(current, log)`:
`while (current >= base) { current /= base; log++; } return log;`. -/
def generic_log_loop (T_Val : IntType) : Nat → Int → Int → Nat → Option Expected
  | 0, _, _, _ => none
  | fuel + 1, base, current, log =>
    if current ≥ base then
      generic_log_loop T_Val fuel base (T_Val.wrap (Int.tdiv current base))
        ((log + 1) % uint_modulus)
    else
      some (Expected.value (log : Int))

/-- The function `internal::generic_log<T_Base, T_Val>(base, n)`. -/
def generic_log (T_Val : IntType) (fuel : Nat) (base n : Int) : Option Expected :=
  if base ≤ 1 then
    some (Expected.unexpected MathError.DomainError)
  else if n ≤ 0 then
    some (Expected.unexpected MathError.DomainError)
  else if n = 1 then
    some (Expected.value 0)
  else
    generic_log_loop T_Val fuel base n 0

end internal

/-- The function `integer_power<T_Base, T_Exp>(base, exp)`: the dispatch to
the tables of the bases 2, 3, 5 and 10, the generic routine otherwise. -/
def integer_power (T : IntType) (fuel : Nat) (base : Int) (exp : Nat) : Option Expected :=
  if base = 2 then
    if exp < internal.POWERS_OF_2.length then
      some (Expected.value (T.wrap ((internal.POWERS_OF_2.getD exp 0 : Nat) : Int)))
    else
      some (Expected.unexpected MathError.Overflow)
  else if base = 3 then
    if exp < internal.POWERS_OF_3.length then
      if internal.POWERS_OF_3.getD exp 0 = 0 ∧ exp ≠ 0 then
        some (Expected.unexpected MathError.Overflow)
      else
        some (Expected.value (T.wrap ((internal.POWERS_OF_3.getD exp 0 : Nat) : Int)))
    else
      some (Expected.unexpected MathError.Overflow)
  else if base = 5 then
    if exp < internal.POWERS_OF_5.length then
      if internal.POWERS_OF_5.getD exp 0 = 0 ∧ exp ≠ 0 then
        some (Expected.unexpected MathError.Overflow)
      else
        some (Expected.value (T.wrap ((internal.POWERS_OF_5.getD exp 0 : Nat) : Int)))
    else
      some (Expected.unexpected MathError.Overflow)
  else if base = 10 then
    if exp < internal.POWERS_OF_10.length then
      if internal.POWERS_OF_10.getD exp 0 = 0 ∧ exp ≠ 0 then
        some (Expected.unexpected MathError.Overflow)
      else
        some (Expected.value (T.wrap ((internal.POWERS_OF_10.getD exp 0 : Nat) : Int)))
    else
      some (Expected.unexpected MathError.Overflow)
  else
    internal.generic_power T fuel base exp

/-- How `integer_log2` finds the highest set bit, fixed by the preprocessor:
`std::bit_width` under C++20, else `__builtin_clzll` (GCC, Clang), else
`_BitScanReverse64` (MSVC), else the generic division loop. -/
inductive BitScan where
  | cpp20_bit_width
  | builtin_clz
  | bit_scan_reverse
  | no_intrinsic
  deriving DecidableEq, Repr

/-- The standard function `std::bit_width(x)`: the number of bits needed to
represent `x`, zero for `x = 0`. -/
def bit_width (x : Nat) : Nat := Nat.size x

/-- The compiler builtin `__builtin_clzll(x)`: the number of leading zero
bits of the 64-bit value `x`, for `x ≠ 0`. -/
def builtin_clzll (x : Nat) : Nat := 64 - Nat.size x

/-- The compiler intrinsic `_BitScanReverse64(&index, x)`: the index of the
highest set bit of the 64-bit value `x`, for `x ≠ 0`. -/
def BitScanReverse64 (x : Nat) : Nat := Nat.size x - 1

/-- The call `internal::generic_log(2, n).value()`: the value of the result,
abnormal termination (`none`) when the result holds an error. -/
def generic_log_value (T : IntType) (fuel : Nat) (n : Int) : Option Expected :=
  match internal.generic_log T fuel 2 n with
  | some (Expected.value v) => some (Expected.value v)
  | _ => none

/-- The type `std::make_unsigned_t<T>` of a native type. -/
def make_unsigned : IntType → IntType
  | IntType.native w _ => IntType.native w false
  | IntType.bigint s m => IntType.bigint s m

/-- The function `integer_log2<T>(n)` for an unsigned type `T`. -/
def integer_log2 (scan : BitScan) (T : IntType) (fuel : Nat) (n : Int) : Option Expected :=
  if n = 0 then
    some (Expected.unexpected MathError.DomainError)
  else
    match scan with
    | BitScan.cpp20_bit_width => some (Expected.value ((bit_width n.toNat : Int) - 1))
    | _ =>
      if T.is_uint128 = true then
        let high : Nat := (n.toNat / 2 ^ 64) % 2 ^ 64
        if high ≠ 0 then
          match scan with
          | BitScan.builtin_clz => some (Expected.value (127 - (builtin_clzll high : Int)))
          | BitScan.bit_scan_reverse =>
            some (Expected.value (((BitScanReverse64 high + 64 : Nat)) : Int))
          | _ => generic_log_value T fuel n
        else
          let low : Nat := n.toNat % 2 ^ 64
          match scan with
          | BitScan.builtin_clz => some (Expected.value (63 - (builtin_clzll low : Int)))
          | BitScan.bit_scan_reverse => some (Expected.value ((BitScanReverse64 low : Nat) : Int))
          | _ => generic_log_value T fuel n
      else if T.fits_unsigned_long_long = true then
        let val : Nat := n.toNat % 2 ^ 64
        match scan with
        | BitScan.builtin_clz => some (Expected.value (63 - (builtin_clzll val : Int)))
        | BitScan.bit_scan_reverse => some (Expected.value ((BitScanReverse64 val : Nat) : Int))
        | _ => generic_log_value T fuel n
      else
        internal.generic_log T fuel 2 n

/-- The binary search of `integer_log10` over `POWERS_OF_10`, from the state
`(low, high, log)` of `unsigned int` variables, `n128` being
`static_cast<uint128_t>(n)`. -/
def integer_log10_loop : Nat → Nat → Nat → Nat → Nat → Option Expected
  | 0, _, _, _, _ => none
  | fuel + 1, n128, low, high, log =>
    if low ≤ high then
      let mid := (low + ((high + internal.uint_modulus - low) % internal.uint_modulus) / 2)
        % internal.uint_modulus
      if internal.POWERS_OF_10.getD mid 0 = 0 then
        integer_log10_loop fuel n128 low
          ((mid + internal.uint_modulus - 1) % internal.uint_modulus) log
      else if n128 ≥ internal.POWERS_OF_10.getD mid 0 then
        integer_log10_loop fuel n128 ((mid + 1) % internal.uint_modulus) high mid
      else
        integer_log10_loop fuel n128 low
          ((mid + internal.uint_modulus - 1) % internal.uint_modulus) log
    else
      some (Expected.value (log : Int))

/-- The function `integer_log10<T>(n)`. -/
def integer_log10 (fuel : Nat) (n : Int) : Option Expected :=
  if n ≤ 0 then
    some (Expected.unexpected MathError.DomainError)
  else
    integer_log10_loop fuel (n % (internal.uint128_modulus : Int)).toNat 0
      (internal.POWERS_OF_10.length - 1) 0

/-- The function `integer_log<T_Base, T_Val>(base, n)`: the domain checks, the
dispatch to `integer_log2` and `integer_log10`, the generic loop otherwise. -/
def integer_log (scan : BitScan) (T_Val : IntType) (fuel : Nat) (base n : Int) :
    Option Expected :=
  if base ≤ 1 then
    some (Expected.unexpected MathError.DomainError)
  else if n ≤ 0 then
    some (Expected.unexpected MathError.DomainError)
  else if base = 2 then
    if T_Val.is_signed = true then
      integer_log2 scan (make_unsigned T_Val) fuel ((make_unsigned T_Val).wrap n)
    else
      integer_log2 scan T_Val fuel n
  else if base = 10 then
    integer_log10 fuel n
  else
    internal.generic_log T_Val fuel base n

/-! ## Further definitions: the generic table generator, the loop-only factorial, loop states -/

namespace internal

/-- The loop of `generate_power_lut<T, N>(base)` for an unsigned element type
`T` of `w` bits, with `count` indices left, at index `i`; the type's maximum
is `2^w - 1` and products are reduced modulo `2^w`. -/
def generate_power_lut_T_loop (w base : Nat) : Nat → Nat → Nat → List Nat → List Nat
  | 0, _, _, table => table
  | count + 1, i, current_power, table =>
    if 0 < i then
      if current_power > (2 ^ w - 1) / base then
        table
      else
        generate_power_lut_T_loop w base count (i + 1)
          ((current_power * base) % 2 ^ w)
          (table.set i ((current_power * base) % 2 ^ w))
    else
      generate_power_lut_T_loop w base count (i + 1) current_power (table.set i current_power)

/-- The generator `generate_power_lut<T, N>(base)` for an unsigned element
type `T` of `w` bits: `table{}` is zero-initialised and `current_power` starts
at `T(1)`. -/
def generate_power_lut_T (w N base : Nat) : List Nat :=
  generate_power_lut_T_loop w base N 0 (1 % 2 ^ w) (List.replicate N 0)

end internal

/-- The arbitrary-precision type that reports the signedness and the maximum
of `T`: running a loop at this type is running it at `T` with every store
exact, that is, over the unbounded integers. -/
def unbounded_twin (T : IntType) : IntType := IntType.bigint T.is_signed T.max

/-- The state `(result, i)` of the loop of `combinations(n, k)` after `j`
iterations of its body, `none` once an iteration has returned Overflow.  The
body is `T term = n - i + 1; if (result > max / term) return Overflow;
result *= term; result /= i; ++i`, started at `result = 1`, `i = 1`. -/
def combinations_loop_state (T : IntType) (n : Int) : Nat → Option (Int × Int)
  | 0 => some (T.wrap 1, T.wrap 1)
  | j + 1 =>
    match combinations_loop_state T n j with
    | none => none
    | some (result, i) =>
      if result > Int.tdiv T.max (T.wrap (T.wrap (n - i) + 1)) then
        none
      else
        some (T.wrap (Int.tdiv (T.wrap (result * T.wrap (T.wrap (n - i) + 1))) i),
          T.wrap (i + 1))

namespace factorial_hpp

/-- The function `internal::constexpr_factorial<T>(n)` of `math/factorial.hpp`:
the domain check `n < 0`, then the same loop as in `combinatorics.hpp`. -/
def constexpr_factorial (T : IntType) (fuel : Nat) (n : Int) : Option Expected :=
  if n < 0 then
    some (Expected.unexpected MathError.DomainError)
  else
    internal.constexpr_factorial_loop T fuel n (T.wrap 1) (T.wrap 1)

/-- The function `factorial<T>(n)` of `math/factorial.hpp`: the domain check
for signed types, then the loop, with no lookup table. -/
def factorial (T : IntType) (fuel : Nat) (n : Int) : Option Expected :=
  if T.is_signed = true ∧ n < 0 then
    some (Expected.unexpected MathError.DomainError)
  else
    constexpr_factorial T fuel n

end factorial_hpp

/-! ## The operations the loops execute -/

/-- An operation executed by one of the loops, with the operand the safety
properties speak of: a division by `d` (`x / d` or `x /= d`), the increment of
a counter (`++i`, `log++`) from `before` to the stored value `after`, a read
`POWERS_OF_10[mid]`, the update `high = mid - 1`. -/
inductive LoopEvent where
  | divisor (d : Int)
  | increment (before after : Int)
  | table_index (mid : Nat)
  | decrement (mid : Nat)
  deriving DecidableEq, Repr

namespace internal

/-- The divisions executed when `i > 1 && result > max / i` is evaluated:
`&&` evaluates its right operand only when the left one holds. -/
def constexpr_factorial_check_divisors (i : Int) : List LoopEvent :=
  if 1 < i then [LoopEvent.divisor i] else []

/-- The loop of `constexpr_factorial` together with the operations it
executes, in the order of execution. -/
def constexpr_factorial_loop_trace (T : IntType) :
    Nat → Int → Int → Int → List LoopEvent × Option Expected
  | 0, _, _, _ => ([], none)
  | fuel + 1, n, result, i =>
    if i ≤ n then
      if 1 < i ∧ result > Int.tdiv T.max i then
        (constexpr_factorial_check_divisors i, some (Expected.unexpected MathError.Overflow))
      else
        let rest := constexpr_factorial_loop_trace T fuel n (T.wrap (result * i)) (T.wrap (i + 1))
        (constexpr_factorial_check_divisors i
          ++ LoopEvent.increment i (T.wrap (i + 1)) :: rest.1, rest.2)
    else
      ([], some (Expected.value result))

/-- The function `internal::constexpr_factorial<T>(n)` together with the
operations it executes. -/
def constexpr_factorial_trace (T : IntType) (fuel : Nat) (n : Int) :
    List LoopEvent × Option Expected :=
  constexpr_factorial_loop_trace T fuel n (T.wrap 1) (T.wrap 1)

/-- The divisions executed when `b != 0 && x > max / b` is evaluated. -/
def generic_power_check_divisors (b : Int) : List LoopEvent :=
  if b ≠ 0 then [LoopEvent.divisor b] else []

/-- The loop of `generic_power` together with the operations it executes. -/
def generic_power_loop_trace (T : IntType) :
    Nat → Int → Int → Nat → List LoopEvent × Option Expected
  | 0, _, _, _ => ([], none)
  | fuel + 1, result, b, e =>
    if 0 < e then
      if e % 2 = 1 then
        if b ≠ 0 ∧ result > Int.tdiv T.max b then
          (generic_power_check_divisors b, some (Expected.unexpected MathError.Overflow))
        else if 1 < e then
          if b ≠ 0 ∧ b > Int.tdiv T.max b then
            (generic_power_check_divisors b ++ generic_power_check_divisors b,
              some (Expected.unexpected MathError.Overflow))
          else
            let rest := generic_power_loop_trace T fuel (T.wrap (result * b)) (T.wrap (b * b))
              (e / 2)
            (generic_power_check_divisors b ++ generic_power_check_divisors b ++ rest.1, rest.2)
        else
          let rest := generic_power_loop_trace T fuel (T.wrap (result * b)) b (e / 2)
          (generic_power_check_divisors b ++ rest.1, rest.2)
      else if 1 < e then
        if b ≠ 0 ∧ b > Int.tdiv T.max b then
          (generic_power_check_divisors b, some (Expected.unexpected MathError.Overflow))
        else
          let rest := generic_power_loop_trace T fuel result (T.wrap (b * b)) (e / 2)
          (generic_power_check_divisors b ++ rest.1, rest.2)
      else
        generic_power_loop_trace T fuel result b (e / 2)
    else
      ([], some (Expected.value result))

/-- The function `internal::generic_power<T_Base, T_Exp>(base, exp)` together
with the operations it executes. -/
def generic_power_trace (T : IntType) (fuel : Nat) (base : Int) (exp : Nat) :
    List LoopEvent × Option Expected :=
  if exp = 0 then
    ([], some (Expected.value (T.wrap 1)))
  else if base = 0 then
    ([], some (Expected.value (T.wrap 0)))
  else
    generic_power_loop_trace T fuel (T.wrap 1) base exp

/-- The loop of `generic_log` together with the operations it executes:
`current /= base` divides by `base`, `log++` increments the `unsigned int`
counter. -/
def generic_log_loop_trace (T_Val : IntType) :
    Nat → Int → Int → Nat → List LoopEvent × Option Expected
  | 0, _, _, _ => ([], none)
  | fuel + 1, base, current, log =>
    if current ≥ base then
      let rest := generic_log_loop_trace T_Val fuel base (T_Val.wrap (Int.tdiv current base))
        ((log + 1) % uint_modulus)
      (LoopEvent.divisor base
        :: LoopEvent.increment (log : Int) (((log + 1) % uint_modulus : Nat) : Int) :: rest.1,
        rest.2)
    else
      ([], some (Expected.value (log : Int)))

/-- The function `internal::generic_log<T_Base, T_Val>(base, n)` together with
the operations it executes. -/
def generic_log_trace (T_Val : IntType) (fuel : Nat) (base n : Int) :
    List LoopEvent × Option Expected :=
  if base ≤ 1 then
    ([], some (Expected.unexpected MathError.DomainError))
  else if n ≤ 0 then
    ([], some (Expected.unexpected MathError.DomainError))
  else if n = 1 then
    ([], some (Expected.value 0))
  else
    generic_log_loop_trace T_Val fuel base n 0

end internal

/-- The loop of `permutations` together with the operations it executes:
`max / term` divides by `term`, `++i` increments the counter. -/
def permutations_loop_trace (T : IntType) :
    Nat → Int → Int → Int → Int → List LoopEvent × Option Expected
  | 0, _, _, _, _ => ([], none)
  | fuel + 1, n, k, result, i =>
    if i < k then
      let term := T.wrap (n - i)
      if result > Int.tdiv T.max term then
        ([LoopEvent.divisor term], some (Expected.unexpected MathError.Overflow))
      else
        let rest := permutations_loop_trace T fuel n k (T.wrap (result * term)) (T.wrap (i + 1))
        (LoopEvent.divisor term :: LoopEvent.increment i (T.wrap (i + 1)) :: rest.1, rest.2)
    else
      ([], some (Expected.value result))

/-- The function `permutations<T>(n, k)` together with the operations it
executes. -/
def permutations_trace (T : IntType) (fuel : Nat) (n k : Int) :
    List LoopEvent × Option Expected :=
  if T.is_signed = true ∧ (n < 0 ∨ k < 0) then
    ([], some (Expected.unexpected MathError.DomainError))
  else if k > n then
    ([], some (Expected.unexpected MathError.DomainError))
  else if k = 0 then
    ([], some (Expected.value (T.wrap 1)))
  else
    permutations_loop_trace T fuel n k (T.wrap 1) (T.wrap 0)

/-- The loop of `combinations` together with the operations it executes:
`max / term` divides by `term`, `result /= i` divides by `i`, `++i` increments
the counter. -/
def combinations_loop_trace (T : IntType) :
    Nat → Int → Int → Int → Int → List LoopEvent × Option Expected
  | 0, _, _, _, _ => ([], none)
  | fuel + 1, n, k, result, i =>
    if i ≤ k then
      let term := T.wrap (T.wrap (n - i) + 1)
      if result > Int.tdiv T.max term then
        ([LoopEvent.divisor term], some (Expected.unexpected MathError.Overflow))
      else
        let rest := combinations_loop_trace T fuel n k
          (T.wrap (Int.tdiv (T.wrap (result * term)) i)) (T.wrap (i + 1))
        (LoopEvent.divisor term :: LoopEvent.divisor i
          :: LoopEvent.increment i (T.wrap (i + 1)) :: rest.1, rest.2)
    else
      ([], some (Expected.value result))

/-- The function `combinations<T>(n, k)` together with the operations it
executes; `n / 2` of the symmetry step divides by the constant 2. -/
def combinations_trace (T : IntType) (fuel : Nat) (n k : Int) :
    List LoopEvent × Option Expected :=
  if T.is_signed = true ∧ (n < 0 ∨ k < 0) then
    ([], some (Expected.unexpected MathError.DomainError))
  else if k > n then
    ([], some (Expected.unexpected MathError.DomainError))
  else
    let k' := if k > Int.tdiv n 2 then T.wrap (n - k) else k
    if k' = 0 then
      ([LoopEvent.divisor 2], some (Expected.value (T.wrap 1)))
    else
      let rest := combinations_loop_trace T fuel n k' (T.wrap 1) (T.wrap 1)
      (LoopEvent.divisor 2 :: rest.1, rest.2)

end math

/-! ## core: literals and stream operators of the 128-bit types -/

namespace core

/-- The type `int128_t`; the literals and the stream operators use only its
range and its stores, which do not depend on what `<type_traits>` reports. -/
def int128_t : IntType := IntType.native Width.w128 true

/-- The type `uint128_t`; see `int128_t`. -/
def uint128_t : IntType := IntType.native Width.w128 false

/-- The outcome of a function that returns an integer or throws
`std::domain_error`. -/
inductive Thrown where
  | returned (v : Int)
  | domain_error
  deriving DecidableEq, Repr

namespace internal

/-- The loop of `constexpr_string_to_int<T>` from the position `p`, the text
being the characters at and after `p`; the text of a C string ends at its end
or at the first NUL:
`while (*p != 0) { if (*p >= '0' && *p <= '9') result = result * 10 +
(*p - '0'); else throw std::domain_error(...); ++p; }`. -/
def constexpr_string_to_int_loop (T : IntType) : List Char → Int → Thrown
  | [], result => Thrown.returned result
  | c :: p, result =>
    if c.toNat ≠ 0 then
      if c.toNat ≥ '0'.toNat ∧ c.toNat ≤ '9'.toNat then
        constexpr_string_to_int_loop T p
          (T.wrap (result * 10 + ((c.toNat : Int) - ('0'.toNat : Int))))
      else
        Thrown.domain_error
    else
      Thrown.returned result

/-- The function `internal::constexpr_string_to_int<T>(str)`: the test
`*p == '-'` of the first character (the NUL of an empty text is not `-`), the
loop from `result = 0`, then `return is_negative ? -result : result`. -/
def constexpr_string_to_int (T : IntType) (str : List Char) : Thrown :=
  match constexpr_string_to_int_loop T
      (if str.head? = some '-' then str.tail else str) (T.wrap 0) with
  | Thrown.returned result =>
    Thrown.returned (if str.head? = some '-' then T.wrap (-result) else result)
  | Thrown.domain_error => Thrown.domain_error

end internal

namespace literals

/-- The literal operator `_i128`. -/
def operator_i128 (str : List Char) : Thrown :=
  internal.constexpr_string_to_int int128_t str

/-- The literal operator `_ui128`. -/
def operator_ui128 (str : List Char) : Thrown :=
  internal.constexpr_string_to_int uint128_t str

/-- The literal operator `_pow2_i128(unsigned long long n)`:
`if (n >= 127) throw std::domain_error(...);
return static_cast<int128_t>(1) << n;`. -/
def operator_pow2_i128 (n : Nat) : Thrown :=
  if n ≥ 127 then
    Thrown.domain_error
  else
    Thrown.returned (int128_t.wrap (int128_t.wrap 1 * 2 ^ n))

/-- The literal operator `_pow2_ui128(unsigned long long n)`:
`if (n >= 128) throw std::domain_error(...);
return static_cast<uint128_t>(1) << n;`. -/
def operator_pow2_ui128 (n : Nat) : Thrown :=
  if n ≥ 128 then
    Thrown.domain_error
  else
    Thrown.returned (uint128_t.wrap (uint128_t.wrap 1 * 2 ^ n))

end literals

/-- The digit loop of `operator<<` for `int128_t`, from the state `(temp, s)`:
`while (temp > 0) { s += (temp % 10) + '0'; temp /= 10; }`. -/
def operator_insert_int128_loop : Nat → Int → List Char → Option (List Char)
  | 0, _, _ => none
  | fuel + 1, temp, s =>
    if temp > 0 then
      operator_insert_int128_loop fuel (int128_t.wrap (Int.tdiv temp 10))
        (s ++ [Char.ofNat (Int.tmod temp 10 + ('0'.toNat : Int)).toNat])
    else
      some s

/-- The text that `operator<<(std::ostream&, const int128_t&)` writes for
`val`: `0` for zero, the literal text of the least value, else an optional
`-` followed by the reversed output of the digit loop run on the magnitude. -/
def operator_insert_int128 (fuel : Nat) (val : Int) : Option (List Char) :=
  if val = 0 then
    some ['0']
  else if some val = int128_t.min then
    some "-170141183460469231731687303715884105728".toList
  else
    match operator_insert_int128_loop fuel (if val < 0 then int128_t.wrap (-val) else val) [] with
    | some s => some ((if val < 0 then ['-'] else []) ++ s.reverse)
    | none => none

/-- The digit loop of `operator>>` for `int128_t` over the characters from
index `i` on, `none` standing for `failbit`:
`if (s[i] < '0' || s[i] > '9') fail; int digit = s[i] - '0';
if (val > (max - digit) / 10) fail; val = val * 10 + digit;`. -/
def operator_extract_int128_loop : List Char → Int → Option Int
  | [], val => some val
  | c :: rest, val =>
    if c.toNat < '0'.toNat ∨ c.toNat > '9'.toNat then
      none
    else
      let digit : Int := (c.toNat : Int) - ('0'.toNat : Int)
      if val > Int.tdiv (int128_t.max - digit) 10 then
        none
      else
        operator_extract_int128_loop rest (int128_t.wrap (val * 10 + digit))

/-- The value that `operator>>(std::istream&, int128_t&)` stores for the token
`s` that `is >> s` has read, `none` standing for `failbit`: an empty token
fails, a leading `-` or `+` is skipped, a lone sign fails, then the digit
loop, then the negation when the sign was `-`. -/
def operator_extract_int128 (s : List Char) : Option Int :=
  match s with
  | [] => none
  | c :: rest =>
    let digits := if c = '-' ∨ c = '+' then rest else c :: rest
    if digits = [] then
      none
    else
      match operator_extract_int128_loop digits 0 with
      | some val => some (if c = '-' then int128_t.wrap (-val) else val)
      | none => none

end core

open math math.internal core core.internal core.literals

/-! ## Storing values that fit -/

theorem IntType.three_le_max_of_bounded (T : IntType) (h : T.is_bounded = true) :
    3 ≤ T.max := by
  cases T with
  | native w sgn => cases w <;> cases sgn <;> simp [IntType.max, Width.bits]
  | bigint s m => simp [IntType.is_bounded] at h

theorem IntType.wrap_eq_self (T : IntType) (x : Int) (h0 : 0 ≤ x)
    (h : T.is_bounded = true → x ≤ T.max) : T.wrap x = x := by
  cases T with
  | native w sgn =>
    have h1 := h rfl
    cases w <;> cases sgn <;>
      simp only [IntType.max, IntType.wrap, Width.bits] at h1 ⊢ <;>
      norm_num at h1 ⊢ <;> omega
  | bigint s m => rfl

theorem IntType.wrap_natCast (T : IntType) (x : Nat)
    (h : T.is_bounded = true → (x : Int) ≤ T.max) : T.wrap (x : Int) = (x : Int) :=
  T.wrap_eq_self x (Int.ofNat_nonneg x) h

theorem IntType.wrap_one (T : IntType) : T.wrap 1 = 1 :=
  T.wrap_eq_self 1 (by decide) (fun h => by have := T.three_le_max_of_bounded h; omega)

theorem IntType.wrap_zero (T : IntType) : T.wrap 0 = 0 :=
  T.wrap_eq_self 0 (by decide) (fun h => by have := T.three_le_max_of_bounded h; omega)

/-- The 128-bit types are those of the widths `w128` and `w128_iso`. -/
theorem Width.eq_of_bits_128 (w : Width) (h : w.bits = 128) :
    w = Width.w128 ∨ w = Width.w128_iso := by
  cases w <;> simp [Width.bits] at h ⊢

/-- No unsigned native type is reported signed. -/
theorem IntType.is_signed_unsigned (w : Width) : (IntType.native w false).is_signed = false := by
  cases w <;> rfl

/-- A signed native type is reported signed unless `<type_traits>` does not
recognise it. -/
theorem IntType.is_signed_signed (w : Width) (h : w ≠ Width.w128_iso) :
    (IntType.native w true).is_signed = true := by
  cases w <;> first | rfl | exact absurd rfl h

/-- The pre-multiplication test `result > max / term` decides
`max < result * term` for positive `result` and `term`. -/
theorem overflow_check_iff (M : Int) (a t : Nat) (ha : 0 < a) (ht : 0 < t) :
    (a : Int) > Int.tdiv M (t : Int) ↔ M < (a : Int) * (t : Int) := by
  have ht' : (0 : Int) < (t : Int) := by exact_mod_cast ht
  have ha' : (0 : Int) < (a : Int) := by exact_mod_cast ha
  rcases le_or_lt 0 M with hM | hM
  · rw [Int.tdiv_eq_ediv hM ht'.le]
    exact Int.ediv_lt_iff_lt_mul ht'
  · have h1 : Int.tdiv M (t : Int) ≤ 0 := by
      have h2 : 0 ≤ Int.tdiv (-M) (t : Int) := Int.tdiv_nonneg (by omega) ht'.le
      rw [Int.neg_tdiv] at h2
      omega
    have h3 : (0 : Int) < (a : Int) * (t : Int) := Int.mul_pos ha' ht'
    constructor
    · intro _; omega
    · intro _; omega

/-! ## The lookup table holds the factorials -/

theorem FACTORIALS_LUT_length : FACTORIALS_LUT.length = 34 := by decide

theorem FACTORIALS_LUT_getD (n : Nat) (h : n < 34) :
    FACTORIALS_LUT.getD n 0 = n.factorial := by
  interval_cases n <;> decide

/-! ## The generic checked factorial loop -/

/-- While it runs without overflow the loop is in the state `(j!, j + 1)`; when
`n!` fits the type it returns `n!`. -/
theorem constexpr_factorial_loop_value (T : IntType) (n : Nat)
    (hfit : ((n.factorial : Nat) : Int) ≤ T.max) :
    ∀ (d j fuel : Nat), j + d = n → d < fuel →
      constexpr_factorial_loop T fuel (n : Int) ((j.factorial : Nat) : Int)
        (((j + 1 : Nat)) : Int) = some (Expected.value ((n.factorial : Nat) : Int)) := by
  intro d
  induction d with
  | zero =>
    intro j fuel hj hf
    obtain ⟨f, rfl⟩ : ∃ f, fuel = f + 1 := ⟨fuel - 1, by omega⟩
    have hjn : j = n := by omega
    subst hjn
    have hnot : ¬ (((j + 1 : Nat) : Int) ≤ (j : Int)) := by push_cast; omega
    simp only [constexpr_factorial_loop, hnot, if_false]
  | succ d ih =>
    intro j fuel hj hf
    obtain ⟨f, rfl⟩ : ∃ f, fuel = f + 1 := ⟨fuel - 1, by omega⟩
    have hle : ((j + 1 : Nat) : Int) ≤ (n : Int) := by exact_mod_cast (by omega : j + 1 ≤ n)
    have hmono : (j + 1).factorial ≤ n.factorial := Nat.factorial_le (by omega)
    have hfit' : (((j + 1).factorial : Nat) : Int) ≤ T.max :=
      le_trans (by exact_mod_cast hmono) hfit
    have hmul : ((j.factorial : Nat) : Int) * ((j + 1 : Nat) : Int)
        = (((j + 1).factorial : Nat) : Int) := by
      rw [Nat.factorial_succ]; push_cast; ring
    have hcheck : ¬ (1 < ((j + 1 : Nat) : Int) ∧
        ((j.factorial : Nat) : Int) > Int.tdiv T.max ((j + 1 : Nat) : Int)) := by
      rintro ⟨_, h⟩
      rw [overflow_check_iff T.max _ _ (Nat.factorial_pos j) (Nat.succ_pos j), hmul] at h
      omega
    have hnext : T.wrap (((j + 1 : Nat) : Int) + 1) = ((j + 1 + 1 : Nat) : Int) := by
      have : (((j + 1 : Nat) : Int) + 1) = ((j + 1 + 1 : Nat) : Int) := by push_cast; ring
      rw [this]
      apply T.wrap_natCast
      intro hb
      have h3 := T.three_le_max_of_bounded hb
      rcases Nat.lt_or_ge (j + 1) 3 with hlt | hge
      · have : ((j + 1 + 1 : Nat) : Int) ≤ 3 := by exact_mod_cast (by omega : j + 1 + 1 ≤ 3)
        omega
      · have hlt : j + 1 < (j + 1).factorial := Nat.lt_factorial_self hge
        have : ((j + 1 + 1 : Nat) : Int) ≤ (((j + 1).factorial : Nat) : Int) := by
          exact_mod_cast hlt
        omega
    simp only [constexpr_factorial_loop, hle, if_true, hcheck, if_false, hmul, hnext,
      T.wrap_natCast _ (fun _ => hfit')]
    exact ih (j + 1) f (by omega) (by omega)

/-- When `n!` exceeds `numeric_limits<T>::max()` the loop, from a state
`(j!, j + 1)` with `1 ≤ j < n` whose running product still fits, returns
Overflow. -/
theorem constexpr_factorial_loop_overflow (T : IntType) (n : Nat)
    (hbig : T.max < ((n.factorial : Nat) : Int)) :
    ∀ (d j fuel : Nat), 1 ≤ j → j + 1 + d = n → d < fuel →
      (T.is_bounded = true → ((j.factorial : Nat) : Int) ≤ T.max) →
      constexpr_factorial_loop T fuel (n : Int) ((j.factorial : Nat) : Int)
        (((j + 1 : Nat)) : Int) = some (Expected.unexpected MathError.Overflow) := by
  intro d
  induction d with
  | zero =>
    intro j fuel h1 hj hf _
    obtain ⟨f, rfl⟩ : ∃ f, fuel = f + 1 := ⟨fuel - 1, by omega⟩
    have hjn : j + 1 = n := by omega
    subst hjn
    have hmul : ((j.factorial : Nat) : Int) * ((j + 1 : Nat) : Int)
        = (((j + 1).factorial : Nat) : Int) := by
      rw [Nat.factorial_succ]; push_cast; ring
    have hcheck : 1 < ((j + 1 : Nat) : Int) ∧
        ((j.factorial : Nat) : Int) > Int.tdiv T.max ((j + 1 : Nat) : Int) := by
      refine ⟨by push_cast; omega, ?_⟩
      rw [overflow_check_iff T.max _ _ (Nat.factorial_pos j) (Nat.succ_pos j), hmul]
      exact hbig
    simp only [constexpr_factorial_loop, le_refl, if_true, hcheck, and_self]
  | succ d ih =>
    intro j fuel h1 hj hf hfit
    obtain ⟨f, rfl⟩ : ∃ f, fuel = f + 1 := ⟨fuel - 1, by omega⟩
    have hle : ((j + 1 : Nat) : Int) ≤ (n : Int) := by exact_mod_cast (by omega : j + 1 ≤ n)
    have hmul : ((j.factorial : Nat) : Int) * ((j + 1 : Nat) : Int)
        = (((j + 1).factorial : Nat) : Int) := by
      rw [Nat.factorial_succ]; push_cast; ring
    by_cases hcheck : 1 < ((j + 1 : Nat) : Int) ∧
        ((j.factorial : Nat) : Int) > Int.tdiv T.max ((j + 1 : Nat) : Int)
    · simp only [constexpr_factorial_loop, hle, if_true, hcheck, and_self]
    · have hfit' : (((j + 1).factorial : Nat) : Int) ≤ T.max := by
        by_contra hc
        apply hcheck
        refine ⟨by push_cast; omega, ?_⟩
        rw [overflow_check_iff T.max _ _ (Nat.factorial_pos j) (Nat.succ_pos j), hmul]
        omega
      have hnext : T.wrap (((j + 1 : Nat) : Int) + 1) = ((j + 1 + 1 : Nat) : Int) := by
        have : (((j + 1 : Nat) : Int) + 1) = ((j + 1 + 1 : Nat) : Int) := by push_cast; ring
        rw [this]
        apply T.wrap_natCast
        intro hb
        have h3 := T.three_le_max_of_bounded hb
        rcases Nat.lt_or_ge (j + 1) 3 with hlt | hge
        · have : ((j + 1 + 1 : Nat) : Int) ≤ 3 := by
            exact_mod_cast (by omega : j + 1 + 1 ≤ 3)
          omega
        · have hlt : j + 1 < (j + 1).factorial := Nat.lt_factorial_self hge
          have : ((j + 1 + 1 : Nat) : Int) ≤ (((j + 1).factorial : Nat) : Int) := by
            exact_mod_cast hlt
          omega
      simp only [constexpr_factorial_loop, hle, if_true, hcheck, if_false, hmul, hnext,
        T.wrap_natCast _ (fun _ => hfit')]
      exact ih (j + 1) f (by omega) (by omega) (by omega) (fun _ => hfit')

/-- The function `constexpr_factorial` returns `n!` when it fits the type. -/
theorem constexpr_factorial_value (T : IntType) (n fuel : Nat)
    (hfit : ((n.factorial : Nat) : Int) ≤ T.max) (hfuel : n < fuel) :
    constexpr_factorial T fuel (n : Int) = some (Expected.value ((n.factorial : Nat) : Int)) := by
  have h := constexpr_factorial_loop_value T n hfit n 0 fuel (by omega) hfuel
  simpa [constexpr_factorial, T.wrap_one] using h

/-- The function `constexpr_factorial` returns Overflow when `n ≥ 2` and `n!`
exceeds `numeric_limits<T>::max()`. -/
theorem constexpr_factorial_overflow (T : IntType) (n fuel : Nat) (hn : 2 ≤ n)
    (hbig : T.max < ((n.factorial : Nat) : Int)) (hfuel : n < fuel) :
    constexpr_factorial T fuel (n : Int) = some (Expected.unexpected MathError.Overflow) := by
  obtain ⟨f, rfl⟩ : ∃ f, fuel = f + 1 := ⟨fuel - 1, by omega⟩
  have h := constexpr_factorial_loop_overflow T n hbig (n - 2) 1 f (le_refl 1) (by omega)
    (by omega) (fun hb => by
      have := T.three_le_max_of_bounded hb
      simp only [Nat.factorial_one, Nat.cast_one]; omega)
  have h1n : (1 : Int) ≤ (n : Int) := by exact_mod_cast (by omega : 1 ≤ n)
  have h2 : T.wrap (1 + 1) = ((1 + 1 : Nat) : Int) := by
    apply T.wrap_eq_self _ (by decide)
    intro hb
    have := T.three_le_max_of_bounded hb
    omega
  simp only [Nat.factorial_one, Nat.cast_one] at h
  simp only [constexpr_factorial, constexpr_factorial_loop, T.wrap_one, h1n, if_true,
    lt_irrefl, false_and, if_false, mul_one, h2]
  exact h

/-! ## factorial on the native types -/

theorem factorial_33_le_int128_max :
    ((Nat.factorial 33 : Nat) : Int) ≤ (IntType.native Width.w128 true).max := by
  norm_num [IntType.max, Width.bits, Nat.factorial]

/-- An index below 34 is unchanged by the conversion to `std::size_t`. -/
theorem size_t_index_of_lt (n : Nat) (h : n < 34) : ((n : Int) % 2 ^ 64).toNat = n := by
  have h1 : (n : Int) % 2 ^ 64 = (n : Int) := Int.emod_eq_of_lt (by omega) (by omega)
  rw [h1, Int.toNat_ofNat]

/-- Every factorial `n!`, `n ≤ 33`, fits both 128-bit types. -/
theorem factorial_le_max_128 (w : Width) (sgn : Bool) (hw : w.bits = 128) (n : Nat)
    (hn : n < 34) : ((n.factorial : Nat) : Int) ≤ (IntType.native w sgn).max := by
  have h33 : n.factorial ≤ Nat.factorial 33 := Nat.factorial_le (by omega)
  have h33' : ((n.factorial : Nat) : Int) ≤ ((Nat.factorial 33 : Nat) : Int) := by
    exact_mod_cast h33
  have hs := factorial_33_le_int128_max
  have hu : (IntType.native Width.w128 true).max ≤ (IntType.native w sgn).max := by
    cases w <;> simp only [Width.bits] at hw <;> first | omega | skip
    all_goals cases sgn <;> norm_num [IntType.max, Width.bits]
  omega

/-- On a native type and a non-negative argument within the type's range,
`factorial` returns `n!` when it fits and Overflow when it does not. -/
theorem factorial_native_nat (w : Width) (sgn : Bool) (n fuel : Nat)
    (hmax : (n : Int) ≤ (IntType.native w sgn).max) (hfuel : n < fuel) :
    factorial (IntType.native w sgn) fuel (n : Int) =
      some (if ((n.factorial : Nat) : Int) ≤ (IntType.native w sgn).max
        then Expected.value ((n.factorial : Nat) : Int)
        else Expected.unexpected MathError.Overflow) := by
  have hneg : ¬ ((IntType.native w sgn).is_signed = true ∧ (n : Int) < 0) := by
    rintro ⟨_, h⟩; omega
  rcases Nat.lt_or_ge n 34 with hlt | hge
  · have hlut : (n : Int) < ((FACTORIALS_LUT.length : Nat) : Int) := by
      rw [FACTORIALS_LUT_length]; exact_mod_cast hlt
    have hidx : ((n : Int) % 2 ^ 64).toNat < FACTORIALS_LUT.length := by
      rw [size_t_index_of_lt n hlt, FACTORIALS_LUT_length]; exact hlt
    have hget : FACTORIALS_LUT.getD ((n : Int) % 2 ^ 64).toNat 0 = n.factorial := by
      rw [size_t_index_of_lt n hlt]; exact FACTORIALS_LUT_getD n hlt
    simp only [factorial, hneg, if_false, hlut, if_true, hidx, hget]
    by_cases hfit : ((n.factorial : Nat) : Int) ≤ (IntType.native w sgn).max
    · have hw := (IntType.native w sgn).wrap_natCast n.factorial (fun _ => hfit)
      have hnot : ¬ ((IntType.native w sgn).narrower_than_uint128 = true ∧
          ((n.factorial : Nat) : Int) > (IntType.native w sgn).max) := by
        rintro ⟨_, h⟩; omega
      simp only [hnot, if_false, hfit, if_true, hw]
    · have hnarrow : (IntType.native w sgn).narrower_than_uint128 = true := by
        cases w with
        | w128 => exact absurd (factorial_le_max_128 Width.w128 sgn rfl n hlt) hfit
        | w128_iso => exact absurd (factorial_le_max_128 Width.w128_iso sgn rfl n hlt) hfit
        | w8 => rfl
        | w16 => rfl
        | w32 => rfl
        | w64 => rfl
      have hyes : (IntType.native w sgn).narrower_than_uint128 = true ∧
          ((n.factorial : Nat) : Int) > (IntType.native w sgn).max := ⟨hnarrow, by omega⟩
      simp only [hyes, and_self, if_true, hfit, if_false]
  · have hlut : ¬ ((n : Int) < ((FACTORIALS_LUT.length : Nat) : Int)) := by
      rw [FACTORIALS_LUT_length]; push_cast; omega
    have hwn := (IntType.native w sgn).wrap_natCast n (fun _ => hmax)
    simp only [factorial, hneg, if_false, hlut, hwn]
    by_cases hfit : ((n.factorial : Nat) : Int) ≤ (IntType.native w sgn).max
    · simp only [hfit, if_true]
      exact constexpr_factorial_value _ n fuel hfit hfuel
    · simp only [hfit, if_false]
      exact constexpr_factorial_overflow _ n fuel (by omega) (by omega) hfuel

/-! ## The checked permutation loop -/

theorem descFactorial_le_of_le (n : Nat) {a b : Nat} (hab : a ≤ b) (hb : b ≤ n) :
    n.descFactorial a ≤ n.descFactorial b := by
  induction b with
  | zero =>
    have : a = 0 := by omega
    subst this; exact le_refl _
  | succ b ih =>
    rcases Nat.eq_or_lt_of_le hab with h | h
    · subst h; exact le_refl _
    · have h1 := ih (by omega) (by omega)
      rw [Nat.descFactorial_succ]
      calc n.descFactorial a ≤ n.descFactorial b := h1
        _ = 1 * n.descFactorial b := (one_mul _).symm
        _ ≤ (n - b) * n.descFactorial b := Nat.mul_le_mul_right _ (by omega)

theorem descFactorial_pos_of_le (n j : Nat) (h : j ≤ n) : 0 < n.descFactorial j := by
  rcases Nat.eq_zero_or_pos (n.descFactorial j) with h0 | h0
  · rw [Nat.descFactorial_eq_zero_iff_lt] at h0; omega
  · exact h0

/-- While it runs without overflow the loop is in the state
`(n (n-1) ... (n-j+1), j)`; it returns the falling product of `k` factors when
that fits the type and Overflow when it does not. -/
theorem permutations_loop_spec (T : IntType) (n k : Nat) (hk : k ≤ n)
    (hn : T.is_bounded = true → (n : Int) ≤ T.max) :
    ∀ (d j fuel : Nat), j + d = k → d < fuel →
      ((n.descFactorial j : Nat) : Int) ≤ T.max →
      permutations_loop T fuel (n : Int) (k : Int) ((n.descFactorial j : Nat) : Int) (j : Int)
        = some (if ((n.descFactorial k : Nat) : Int) ≤ T.max
            then Expected.value ((n.descFactorial k : Nat) : Int)
            else Expected.unexpected MathError.Overflow) := by
  intro d
  induction d with
  | zero =>
    intro j fuel hj hf hinv
    obtain ⟨f, rfl⟩ : ∃ f, fuel = f + 1 := ⟨fuel - 1, by omega⟩
    have hjk : j = k := by omega
    subst hjk
    simp only [permutations_loop, lt_irrefl, if_false, hinv, if_true]
  | succ d ih =>
    intro j fuel hj hf hinv
    obtain ⟨f, rfl⟩ : ∃ f, fuel = f + 1 := ⟨fuel - 1, by omega⟩
    have hlt : (j : Int) < (k : Int) := by exact_mod_cast (by omega : j < k)
    have hsub : (n : Int) - (j : Int) = ((n - j : Nat) : Int) := by
      rw [Nat.cast_sub (by omega)]
    have hterm : T.wrap ((n : Int) - (j : Int)) = ((n - j : Nat) : Int) := by
      rw [hsub]
      apply T.wrap_natCast
      intro hb
      have := hn hb
      have h2 : ((n - j : Nat) : Int) ≤ (n : Int) := by exact_mod_cast Nat.sub_le n j
      omega
    have hmul : ((n.descFactorial j : Nat) : Int) * ((n - j : Nat) : Int)
        = ((n.descFactorial (j + 1) : Nat) : Int) := by
      rw [Nat.descFactorial_succ]; push_cast; ring
    have hiff := overflow_check_iff T.max (n.descFactorial j) (n - j)
      (descFactorial_pos_of_le n j (by omega)) (by omega)
    rw [hmul] at hiff
    have hnext : T.wrap ((j : Int) + 1) = ((j + 1 : Nat) : Int) := by
      have : ((j : Int) + 1) = ((j + 1 : Nat) : Int) := by push_cast; ring
      rw [this]
      apply T.wrap_natCast
      intro hb
      have := hn hb
      have h2 : ((j + 1 : Nat) : Int) ≤ (n : Int) := by exact_mod_cast (by omega : j + 1 ≤ n)
      omega
    by_cases hcheck : ((n.descFactorial j : Nat) : Int) > Int.tdiv T.max ((n - j : Nat) : Int)
    · have hbig : T.max < ((n.descFactorial (j + 1) : Nat) : Int) := hiff.mp hcheck
      have hmono : n.descFactorial (j + 1) ≤ n.descFactorial k :=
        descFactorial_le_of_le n (by omega) hk
      have hmono' : ((n.descFactorial (j + 1) : Nat) : Int) ≤ ((n.descFactorial k : Nat) : Int) := by
        exact_mod_cast hmono
      have hnot : ¬ (((n.descFactorial k : Nat) : Int) ≤ T.max) := by omega
      simp only [permutations_loop, hlt, if_true, hterm, hcheck, hnot, if_false]
    · have hfit : ((n.descFactorial (j + 1) : Nat) : Int) ≤ T.max := by
        by_contra hc
        exact hcheck (hiff.mpr (by omega))
      simp only [permutations_loop, hlt, if_true, hterm, hcheck, if_false, hmul, hnext,
        T.wrap_natCast _ (fun _ => hfit)]
      exact ih (j + 1) f (by omega) (by omega) hfit

/-- On a native type and arguments `0 ≤ k ≤ n` within the type's range,
`permutations` returns the falling product of `k` factors when it fits and
Overflow when it does not. -/
theorem permutations_native_nat (w : Width) (sgn : Bool) (n k fuel : Nat) (hk : k ≤ n)
    (hmax : (n : Int) ≤ (IntType.native w sgn).max) (hfuel : k < fuel) :
    permutations (IntType.native w sgn) fuel (n : Int) (k : Int) =
      some (if ((n.descFactorial k : Nat) : Int) ≤ (IntType.native w sgn).max
        then Expected.value ((n.descFactorial k : Nat) : Int)
        else Expected.unexpected MathError.Overflow) := by
  have h3 := (IntType.native w sgn).three_le_max_of_bounded rfl
  have hneg : ¬ ((IntType.native w sgn).is_signed = true ∧ ((n : Int) < 0 ∨ (k : Int) < 0)) := by
    rintro ⟨_, h | h⟩ <;> omega
  have hgt : ¬ ((k : Int) > (n : Int)) := by
    have : (k : Int) ≤ (n : Int) := by exact_mod_cast hk
    omega
  rcases Nat.eq_zero_or_pos k with h0 | hpos
  · subst h0
    have h1 : ((1 : Int)) ≤ (IntType.native w sgn).max := by omega
    unfold permutations
    rw [if_neg hneg, if_neg hgt, if_pos Nat.cast_zero, IntType.wrap_one]
    simp only [Nat.descFactorial_zero, Nat.cast_one, h1, if_true]
  · have hk0 : ¬ ((k : Int) = 0) := by
      have : (0 : Int) < (k : Int) := by exact_mod_cast hpos
      omega
    have h := permutations_loop_spec (IntType.native w sgn) n k hk (fun _ => hmax) k 0 fuel
      (by omega) hfuel (by simp only [Nat.descFactorial_zero, Nat.cast_one]; omega)
    simp only [Nat.descFactorial_zero, Nat.cast_one, Nat.cast_zero] at h
    simp only [permutations, hneg, if_false, hgt, hk0, IntType.wrap_one, IntType.wrap_zero]
    exact h

/-! ## The checked combination loop -/

theorem choose_le_of_le_half (n : Nat) {a b : Nat} (hab : a ≤ b) (hb : 2 * b ≤ n) :
    n.choose a ≤ n.choose b := by
  induction b with
  | zero =>
    have : a = 0 := by omega
    subst this; exact le_refl _
  | succ b ih =>
    rcases Nat.eq_or_lt_of_le hab with h | h
    · subst h; exact le_refl _
    · exact le_trans (ih (by omega) (by omega))
        (Nat.choose_le_succ_of_lt_half_left (by omega))

/-- While it runs without overflow the loop is in the state `(C(n,j), j + 1)`;
with `2 k ≤ n` it returns `C(n,k)` when the last product formed before a
division, `C(n,k) k`, fits the type, and Overflow when it does not. -/
theorem combinations_loop_spec (T : IntType) (n k : Nat) (h2k : 2 * k ≤ n)
    (hn : T.is_bounded = true → (n : Int) ≤ T.max) :
    ∀ (d j fuel : Nat), j + d = k → d < fuel →
      ((n.choose j : Nat) : Int) ≤ T.max →
      ((n.choose j * j : Nat) : Int) ≤ T.max →
      combinations_loop T fuel (n : Int) (k : Int) ((n.choose j : Nat) : Int)
          ((j + 1 : Nat) : Int)
        = some (if ((n.choose k * k : Nat) : Int) ≤ T.max
            then Expected.value ((n.choose k : Nat) : Int)
            else Expected.unexpected MathError.Overflow) := by
  intro d
  induction d with
  | zero =>
    intro j fuel hj hf _ hinv
    obtain ⟨f, rfl⟩ : ∃ f, fuel = f + 1 := ⟨fuel - 1, by omega⟩
    have hjk : j = k := by omega
    subst hjk
    have hnot : ¬ (((j + 1 : Nat) : Int) ≤ (j : Int)) := by push_cast; omega
    simp only [combinations_loop, hnot, if_false, hinv, if_true]
  | succ d ih =>
    intro j fuel hj hf hres hinv
    obtain ⟨f, rfl⟩ : ∃ f, fuel = f + 1 := ⟨fuel - 1, by omega⟩
    have hle : ((j + 1 : Nat) : Int) ≤ (k : Int) := by exact_mod_cast (by omega : j + 1 ≤ k)
    have hsub : (n : Int) - ((j + 1 : Nat) : Int) = ((n - (j + 1) : Nat) : Int) := by
      rw [Nat.cast_sub (by omega)]
    have hterm1 : T.wrap ((n : Int) - ((j + 1 : Nat) : Int)) = ((n - (j + 1) : Nat) : Int) := by
      rw [hsub]
      apply T.wrap_natCast
      intro hb
      have := hn hb
      have h2 : ((n - (j + 1) : Nat) : Int) ≤ (n : Int) := by
        exact_mod_cast Nat.sub_le n (j + 1)
      omega
    have hadd : ((n - (j + 1) : Nat) : Int) + 1 = ((n - j : Nat) : Int) := by
      have : n - (j + 1) + 1 = n - j := by omega
      rw [← this]; push_cast; ring
    have hterm : T.wrap (T.wrap ((n : Int) - ((j + 1 : Nat) : Int)) + 1)
        = ((n - j : Nat) : Int) := by
      rw [hterm1, hadd]
      apply T.wrap_natCast
      intro hb
      have := hn hb
      have h2 : ((n - j : Nat) : Int) ≤ (n : Int) := by exact_mod_cast Nat.sub_le n j
      omega
    have hmul : ((n.choose j : Nat) : Int) * ((n - j : Nat) : Int)
        = ((n.choose (j + 1) * (j + 1) : Nat) : Int) := by
      rw [Nat.choose_succ_right_eq]; push_cast; ring
    have hiff := overflow_check_iff T.max (n.choose j) (n - j)
      (Nat.choose_pos (by omega)) (by omega)
    rw [hmul] at hiff
    have hnext : T.wrap (((j + 1 : Nat) : Int) + 1) = ((j + 1 + 1 : Nat) : Int) := by
      have : (((j + 1 : Nat) : Int) + 1) = ((j + 1 + 1 : Nat) : Int) := by push_cast; ring
      rw [this]
      apply T.wrap_natCast
      intro hb
      have := hn hb
      have h2 : ((j + 1 + 1 : Nat) : Int) ≤ (n : Int) := by
        exact_mod_cast (by omega : j + 1 + 1 ≤ n)
      omega
    by_cases hcheck : ((n.choose j : Nat) : Int) > Int.tdiv T.max ((n - j : Nat) : Int)
    · have hbig : T.max < ((n.choose (j + 1) * (j + 1) : Nat) : Int) := hiff.mp hcheck
      have hmono : n.choose (j + 1) * (j + 1) ≤ n.choose k * k :=
        Nat.mul_le_mul (choose_le_of_le_half n (by omega) h2k) (by omega)
      have hmono' : ((n.choose (j + 1) * (j + 1) : Nat) : Int)
          ≤ ((n.choose k * k : Nat) : Int) := by exact_mod_cast hmono
      have hnot : ¬ (((n.choose k * k : Nat) : Int) ≤ T.max) := by omega
      simp only [combinations_loop, hle, if_true, hterm, hcheck, hnot, if_false]
    · have hfit : ((n.choose (j + 1) * (j + 1) : Nat) : Int) ≤ T.max := by
        by_contra hc
        exact hcheck (hiff.mpr (by omega))
      have hres' : ((n.choose (j + 1) : Nat) : Int) ≤ T.max := by
        have : n.choose (j + 1) ≤ n.choose (j + 1) * (j + 1) :=
          Nat.le_mul_of_pos_right _ (Nat.succ_pos j)
        have : ((n.choose (j + 1) : Nat) : Int) ≤ ((n.choose (j + 1) * (j + 1) : Nat) : Int) := by
          exact_mod_cast this
        omega
      have hdiv : Int.tdiv ((n.choose (j + 1) * (j + 1) : Nat) : Int) ((j + 1 : Nat) : Int)
          = ((n.choose (j + 1) : Nat) : Int) := by
        rw [Nat.cast_mul]
        exact Int.mul_tdiv_cancel _ (by exact_mod_cast Nat.succ_ne_zero j)
      simp only [combinations_loop, hle, if_true, hterm, hcheck, if_false, hmul, hnext,
        T.wrap_natCast _ (fun _ => hfit), hdiv, T.wrap_natCast _ (fun _ => hres')]
      exact ih (j + 1) f (by omega) (by omega) hres' hfit

/-- The part of `combinations` after the symmetry reduction, on a native type
with `2 k ≤ n`. -/
theorem combinations_reduced_native (w : Width) (sgn : Bool) (n k fuel : Nat)
    (h2k : 2 * k ≤ n) (hmax : (n : Int) ≤ (IntType.native w sgn).max) (hfuel : k < fuel) :
    (if (k : Int) = 0 then some (Expected.value ((IntType.native w sgn).wrap 1))
      else combinations_loop (IntType.native w sgn) fuel (n : Int) (k : Int)
        ((IntType.native w sgn).wrap 1) ((IntType.native w sgn).wrap 1)) =
      some (if ((n.choose k * k : Nat) : Int) ≤ (IntType.native w sgn).max
        then Expected.value ((n.choose k : Nat) : Int)
        else Expected.unexpected MathError.Overflow) := by
  have h3 := (IntType.native w sgn).three_le_max_of_bounded rfl
  rcases Nat.eq_zero_or_pos k with h0 | hpos
  · subst h0
    have h1 : ((0 : Int)) ≤ (IntType.native w sgn).max := by omega
    rw [if_pos Nat.cast_zero, IntType.wrap_one]
    simp only [Nat.choose_zero_right, Nat.cast_one, mul_zero, Nat.cast_zero, h1, if_true]
  · have hk0 : ¬ ((k : Int) = 0) := by
      have : (0 : Int) < (k : Int) := by exact_mod_cast hpos
      omega
    have h := combinations_loop_spec (IntType.native w sgn) n k h2k (fun _ => hmax) k 0 fuel
      (by omega) hfuel (by simp only [Nat.choose_zero_right, Nat.cast_one]; omega)
      (by simp only [Nat.choose_zero_right, mul_zero, Nat.cast_zero]; omega)
    simp only [Nat.choose_zero_right, Nat.cast_one, zero_add] at h
    rw [if_neg hk0, IntType.wrap_one]
    exact h

/-- On a native type and arguments `0 ≤ k ≤ n` within the type's range,
`combinations` returns `C(n,k)` when `C(n,k) min(k, n-k)` fits the type and
Overflow when it does not. -/
theorem combinations_native_nat (w : Width) (sgn : Bool) (n k fuel : Nat) (hk : k ≤ n)
    (hmax : (n : Int) ≤ (IntType.native w sgn).max) (hfuel : k < fuel) :
    combinations (IntType.native w sgn) fuel (n : Int) (k : Int) =
      some (if ((n.choose k * min k (n - k) : Nat) : Int) ≤ (IntType.native w sgn).max
        then Expected.value ((n.choose k : Nat) : Int)
        else Expected.unexpected MathError.Overflow) := by
  have hneg : ¬ ((IntType.native w sgn).is_signed = true ∧ ((n : Int) < 0 ∨ (k : Int) < 0)) := by
    rintro ⟨_, h | h⟩ <;> omega
  have hgt : ¬ ((k : Int) > (n : Int)) := by
    have : (k : Int) ≤ (n : Int) := by exact_mod_cast hk
    omega
  have hhalf : Int.tdiv (n : Int) 2 = ((n / 2 : Nat) : Int) := by
    rw [Int.ofNat_tdiv]; rfl
  unfold combinations
  rw [if_neg hneg, if_neg hgt, hhalf]
  by_cases hc : (k : Int) > ((n / 2 : Nat) : Int)
  · have hc' : n / 2 < k := by exact_mod_cast hc
    have hsub : (n : Int) - (k : Int) = ((n - k : Nat) : Int) := by
      rw [Nat.cast_sub hk]
    have hw : (IntType.native w sgn).wrap ((n : Int) - (k : Int)) = ((n - k : Nat) : Int) := by
      rw [hsub]
      apply IntType.wrap_natCast
      intro _
      have h2 : ((n - k : Nat) : Int) ≤ (n : Int) := by exact_mod_cast Nat.sub_le n k
      omega
    have hmin : min k (n - k) = n - k := min_eq_right (by omega)
    simp only [hc, if_true, hw]
    rw [combinations_reduced_native w sgn n (n - k) fuel (by omega) hmax (by omega),
      Nat.choose_symm hk, hmin]
  · have hc' : k ≤ n / 2 := by
      have : ¬ (n / 2 < k) := fun h => hc (by exact_mod_cast h)
      omega
    have hmin : min k (n - k) = k := min_eq_left (by omega)
    simp only [hc, if_false]
    rw [combinations_reduced_native w sgn n k fuel (by omega) hmax hfuel, hmin]

/-! ## Specification theorems: factorial -/

/-- C1: on every native fixed-width type (8 to 128 bits, signed or unsigned)
and every `n ≥ 0` of that type, `factorial(n)` returns `n!` when `n! ≤ max(T)`
and Overflow when `n! > max(T)`; over both 64-bit types `factorial(20)` is
`2432902008176640000` and `factorial(21)` is Overflow. -/
theorem factorial_native_exact_or_overflow (w : Width) (sgn : Bool) (n : Int) (fuel : Nat)
    (h0 : 0 ≤ n) (hmax : n ≤ (IntType.native w sgn).max) (hfuel : n.toNat < fuel) :
    ((((n.toNat.factorial : Nat) : Int) ≤ (IntType.native w sgn).max →
        factorial (IntType.native w sgn) fuel n
          = some (Expected.value ((n.toNat.factorial : Nat) : Int))) ∧
      ((IntType.native w sgn).max < ((n.toNat.factorial : Nat) : Int) →
        factorial (IntType.native w sgn) fuel n
          = some (Expected.unexpected MathError.Overflow))) ∧
    (∀ (s : Bool) (f : Nat), 21 < f →
      factorial (IntType.native Width.w64 s) f 20 = some (Expected.value 2432902008176640000) ∧
      factorial (IntType.native Width.w64 s) f 21
        = some (Expected.unexpected MathError.Overflow)) := by
  obtain ⟨m, rfl⟩ := Int.eq_ofNat_of_zero_le h0
  rw [Int.toNat_ofNat] at hfuel ⊢
  have h := factorial_native_nat w sgn m fuel hmax hfuel
  refine ⟨⟨fun hfit => ?_, fun hbig => ?_⟩, fun s f hf => ⟨?_, ?_⟩⟩
  · rw [h, if_pos hfit]
  · rw [h, if_neg (by omega)]
  · have h20 := factorial_native_nat Width.w64 s 20 f
      (by cases s <;> norm_num [IntType.max, Width.bits]) (by omega)
    rw [if_pos (by cases s <;> norm_num [IntType.max, Width.bits, Nat.factorial])] at h20
    rw [show (20 : Int) = ((20 : Nat) : Int) from rfl, h20]
    norm_num [Nat.factorial]
  · have h21 := factorial_native_nat Width.w64 s 21 f
      (by cases s <;> norm_num [IntType.max, Width.bits]) (by omega)
    rw [if_neg (by cases s <;> norm_num [IntType.max, Width.bits, Nat.factorial])] at h21
    rw [show (21 : Int) = ((21 : Nat) : Int) from rfl, h21]

theorem factorial_native_exact_or_overflow_witness :
    (0 : Int) ≤ 20 ∧ (20 : Int) ≤ (IntType.native Width.w64 false).max ∧
    (20 : Int).toNat < 21 ∧
    factorial (IntType.native Width.w64 false) 21 20
      = some (Expected.value (((20 : Int).toNat.factorial : Nat) : Int)) :=
  ⟨by decide, by norm_num [IntType.max, Width.bits], by decide,
    (factorial_native_exact_or_overflow Width.w64 false 20 21 (by decide)
      (by norm_num [IntType.max, Width.bits]) (by decide)).1.1
      (by norm_num [IntType.max, Width.bits, Nat.factorial])⟩

/-- With the sign check compiled out, `factorial<int128_t>(-10)` passes
`n < 34` and reads the table at the index `2^64 - 10`, outside its bounds. -/
theorem factorial_int128_iso_minus_ten (fuel : Nat) :
    factorial (IntType.native Width.w128_iso true) fuel (-10) = none := by
  unfold factorial
  rw [if_neg (by simp [IntType.is_signed]),
    if_pos (by rw [FACTORIALS_LUT_length]; norm_num)]
  dsimp only
  rw [if_neg (by rw [FACTORIALS_LUT_length]; norm_num)]

/-- With the sign check compiled out, `factorial<int128_t>(-2^64 + 5)` passes
`n < 34`, reads the table at the index 5 and returns `5! = 120`. -/
theorem factorial_int128_iso_wrapped_index (fuel : Nat) :
    factorial (IntType.native Width.w128_iso true) fuel (-(2 ^ 64) + 5)
      = some (Expected.value 120) := by
  have hidx : ((-(2 : Int) ^ 64 + 5) % 2 ^ 64).toNat = 5 := by
    have h1 : (-(2 : Int) ^ 64 + 5) % 2 ^ 64 = 5 := by norm_num
    rw [h1]
    rfl
  unfold factorial
  rw [if_neg (by simp [IntType.is_signed]),
    if_pos (by rw [FACTORIALS_LUT_length]; norm_num)]
  dsimp only
  rw [hidx, if_pos (by rw [FACTORIALS_LUT_length]; norm_num),
    if_neg (by simp [IntType.narrower_than_uint128, Width.bits]),
    FACTORIALS_LUT_getD 5 (by norm_num)]
  norm_num [IntType.wrap, Width.bits, Nat.factorial]

/-- C2: `factorial(n)` at `n < 0` returns DomainError, whatever the fuel, on
every signed native type that `std::is_signed_v` reports signed (`int8_t` ..
`int64_t`, and `int128_t` where `<type_traits>` recognises it).  For
`int128_t` in a build where `std::is_signed_v<int128_t>` is false the check is
compiled out: `factorial(-10)` passes `n < 34` and reads `FACTORIALS_LUT` at
the index `2^64 - 10`, outside the table, and `factorial(-2^64 + 5)` reads
entry 5 and returns the value 120. -/
theorem factorial_negative_passes_without_signed_trait :
    (∀ (w : Width) (n : Int) (fuel : Nat), w ≠ Width.w128_iso → n < 0 →
      factorial (IntType.native w true) fuel n
        = some (Expected.unexpected MathError.DomainError)) ∧
    (IntType.native Width.w128_iso true).is_signed = false ∧
    (IntType.native Width.w128_iso true).inRange (-10) ∧
    (IntType.native Width.w128_iso true).inRange (-(2 ^ 64) + 5) ∧
    (∀ fuel : Nat, factorial (IntType.native Width.w128_iso true) fuel (-10) = none) ∧
    (∀ fuel : Nat, factorial (IntType.native Width.w128_iso true) fuel (-(2 ^ 64) + 5)
      = some (Expected.value 120)) := by
  refine ⟨fun w n fuel hw hn => ?_, rfl, ?_, ?_, fun fuel => ?_, fun fuel => ?_⟩
  · have h : (IntType.native w true).is_signed = true ∧ n < 0 :=
      ⟨IntType.is_signed_signed w hw, hn⟩
    simp only [factorial, h, and_self, if_true]
  · constructor <;> norm_num [IntType.min, IntType.max, IntType.is_bounded, Width.bits]
  · constructor <;> norm_num [IntType.min, IntType.max, IntType.is_bounded, Width.bits]
  · exact factorial_int128_iso_minus_ten fuel
  · exact factorial_int128_iso_wrapped_index fuel

/-- C3: over the signed 128-bit type, whether or not `<type_traits>`
recognises it, `factorial(33)` returns `8683317618811886495518194401280000000`
and `factorial(34)` returns Overflow. -/
theorem factorial_int128_33_and_34 (w : Width) (fuel : Nat) (hw : w.bits = 128)
    (hfuel : 34 < fuel) :
    factorial (IntType.native w true) fuel 33
      = some (Expected.value 8683317618811886495518194401280000000) ∧
    factorial (IntType.native w true) fuel 34
      = some (Expected.unexpected MathError.Overflow) := by
  rcases Width.eq_of_bits_128 w hw with rfl | rfl
  · constructor
    · have h := factorial_native_nat Width.w128 true 33 fuel
        (by norm_num [IntType.max, Width.bits]) (by omega)
      rw [if_pos (by norm_num [IntType.max, Width.bits, Nat.factorial])] at h
      rw [show (33 : Int) = ((33 : Nat) : Int) from rfl, h]
      norm_num [Nat.factorial]
    · have h := factorial_native_nat Width.w128 true 34 fuel
        (by norm_num [IntType.max, Width.bits]) (by omega)
      rw [if_neg (by norm_num [IntType.max, Width.bits, Nat.factorial])] at h
      rw [show (34 : Int) = ((34 : Nat) : Int) from rfl, h]
  · constructor
    · have h := factorial_native_nat Width.w128_iso true 33 fuel
        (by norm_num [IntType.max, Width.bits]) (by omega)
      rw [if_pos (by norm_num [IntType.max, Width.bits, Nat.factorial])] at h
      rw [show (33 : Int) = ((33 : Nat) : Int) from rfl, h]
      norm_num [Nat.factorial]
    · have h := factorial_native_nat Width.w128_iso true 34 fuel
        (by norm_num [IntType.max, Width.bits]) (by omega)
      rw [if_neg (by norm_num [IntType.max, Width.bits, Nat.factorial])] at h
      rw [show (34 : Int) = ((34 : Nat) : Int) from rfl, h]

theorem factorial_int128_33_and_34_witness :
    34 < 35 ∧
    factorial (IntType.native Width.w128 true) 35 33
      = some (Expected.value 8683317618811886495518194401280000000) ∧
    factorial (IntType.native Width.w128 true) 35 34
      = some (Expected.unexpected MathError.Overflow) :=
  ⟨by decide, factorial_int128_33_and_34 Width.w128 35 rfl (by decide)⟩

/-- C4, as stated, fails: `34!` does not exceed `2^128 - 1`, and over the
unsigned 128-bit type `factorial(34)` returns `34!` through the generic loop,
not Overflow. -/
theorem factorial_uint128_34_is_a_value :
    ¬ ((IntType.native Width.w128 false).max < ((Nat.factorial 34 : Nat) : Int)) ∧
    factorial (IntType.native Width.w128 false) 35 34
      = some (Expected.value 295232799039604140847618609643520000000) ∧
    factorial (IntType.native Width.w128 false) 35 34
      ≠ some (Expected.unexpected MathError.Overflow) := by
  have h := factorial_native_nat Width.w128 false 34 35
    (by norm_num [IntType.max, Width.bits]) (by omega)
  rw [if_pos (by norm_num [IntType.max, Width.bits, Nat.factorial])] at h
  have h34 : factorial (IntType.native Width.w128 false) 35 34
      = some (Expected.value 295232799039604140847618609643520000000) := by
    rw [show (34 : Int) = ((34 : Nat) : Int) from rfl, h]
    norm_num [Nat.factorial]
  refine ⟨by norm_num [IntType.max, Width.bits, Nat.factorial], h34, ?_⟩
  rw [h34]
  simp

/-- C4, amended: over the unsigned 128-bit type, whether or not `<type_traits>`
recognises it, `35!` is the first factorial that overflows: `34! ≤ 2^128 - 1 < 35!`, `factorial(33)` returns `33!`,
`factorial(34)` returns `34!` and `factorial(35)` returns Overflow. -/
theorem factorial_uint128_first_overflow_at_35 (w : Width) (fuel : Nat) (hw : w.bits = 128)
    (hfuel : 35 < fuel) :
    ((Nat.factorial 34 : Nat) : Int) ≤ (IntType.native w false).max ∧
    (IntType.native w false).max < ((Nat.factorial 35 : Nat) : Int) ∧
    factorial (IntType.native w false) fuel 33
      = some (Expected.value ((Nat.factorial 33 : Nat) : Int)) ∧
    factorial (IntType.native w false) fuel 34
      = some (Expected.value ((Nat.factorial 34 : Nat) : Int)) ∧
    factorial (IntType.native w false) fuel 35
      = some (Expected.unexpected MathError.Overflow) := by
  rcases Width.eq_of_bits_128 w hw with rfl | rfl
  · refine ⟨by norm_num [IntType.max, Width.bits, Nat.factorial],
      by norm_num [IntType.max, Width.bits, Nat.factorial], ?_, ?_, ?_⟩
    · have h := factorial_native_nat Width.w128 false 33 fuel
        (by norm_num [IntType.max, Width.bits]) (by omega)
      rw [if_pos (by norm_num [IntType.max, Width.bits, Nat.factorial])] at h
      rw [show (33 : Int) = ((33 : Nat) : Int) from rfl, h]
    · have h := factorial_native_nat Width.w128 false 34 fuel
        (by norm_num [IntType.max, Width.bits]) (by omega)
      rw [if_pos (by norm_num [IntType.max, Width.bits, Nat.factorial])] at h
      rw [show (34 : Int) = ((34 : Nat) : Int) from rfl, h]
    · have h := factorial_native_nat Width.w128 false 35 fuel
        (by norm_num [IntType.max, Width.bits]) (by omega)
      rw [if_neg (by norm_num [IntType.max, Width.bits, Nat.factorial])] at h
      rw [show (35 : Int) = ((35 : Nat) : Int) from rfl, h]
  · refine ⟨by norm_num [IntType.max, Width.bits, Nat.factorial],
      by norm_num [IntType.max, Width.bits, Nat.factorial], ?_, ?_, ?_⟩
    · have h := factorial_native_nat Width.w128_iso false 33 fuel
        (by norm_num [IntType.max, Width.bits]) (by omega)
      rw [if_pos (by norm_num [IntType.max, Width.bits, Nat.factorial])] at h
      rw [show (33 : Int) = ((33 : Nat) : Int) from rfl, h]
    · have h := factorial_native_nat Width.w128_iso false 34 fuel
        (by norm_num [IntType.max, Width.bits]) (by omega)
      rw [if_pos (by norm_num [IntType.max, Width.bits, Nat.factorial])] at h
      rw [show (34 : Int) = ((34 : Nat) : Int) from rfl, h]
    · have h := factorial_native_nat Width.w128_iso false 35 fuel
        (by norm_num [IntType.max, Width.bits]) (by omega)
      rw [if_neg (by norm_num [IntType.max, Width.bits, Nat.factorial])] at h
      rw [show (35 : Int) = ((35 : Nat) : Int) from rfl, h]

theorem factorial_uint128_first_overflow_at_35_witness :
    35 < 36 ∧
    factorial (IntType.native Width.w128 false) 36 34
      = some (Expected.value ((Nat.factorial 34 : Nat) : Int)) ∧
    factorial (IntType.native Width.w128 false) 36 35
      = some (Expected.unexpected MathError.Overflow) :=
  ⟨by decide, (factorial_uint128_first_overflow_at_35 Width.w128 36 rfl (by decide)).2.2.2⟩

/-- On an arbitrary-precision type and `n ≥ 34`, `factorial` runs the generic
checked loop against `numeric_limits<T>::max()` and returns Overflow as soon
as `n!` exceeds that value. -/
theorem factorial_bigint_overflow_of_lt (sgn : Bool) (limitsMax : Int) (n fuel : Nat)
    (hn : 34 ≤ n) (hbig : limitsMax < ((n.factorial : Nat) : Int)) (hfuel : n < fuel) :
    factorial (IntType.bigint sgn limitsMax) fuel (n : Int)
      = some (Expected.unexpected MathError.Overflow) := by
  have hneg : ¬ ((IntType.bigint sgn limitsMax).is_signed = true ∧ (n : Int) < 0) := by
    rintro ⟨_, h⟩; omega
  have hlut : ¬ ((n : Int) < ((FACTORIALS_LUT.length : Nat) : Int)) := by
    rw [FACTORIALS_LUT_length]; push_cast; omega
  simp only [factorial, hneg, if_false, hlut, IntType.wrap]
  exact constexpr_factorial_overflow _ n fuel (by omega) hbig hfuel

/-- C5 fails on the code: the generic loop tests `result > max / i` for every
type, the unbounded ones included.  With the value `0` that the
arbitrary-precision backend reports as `numeric_limits<T>::max()`,
`factorial(34)` and `factorial(40)` return Overflow; and whatever value the
backend reports, some `n ≥ 34` makes `factorial(n)` return Overflow. -/
theorem factorial_bigint_returns_overflow :
    (∀ (sgn : Bool) (fuel : Nat), 40 < fuel →
      factorial (IntType.bigint sgn 0) fuel 34
        = some (Expected.unexpected MathError.Overflow) ∧
      factorial (IntType.bigint sgn 0) fuel 40
        = some (Expected.unexpected MathError.Overflow)) ∧
    (∀ (sgn : Bool) (limitsMax : Int), ∃ n : Nat, 34 ≤ n ∧ ∀ fuel : Nat, n < fuel →
      factorial (IntType.bigint sgn limitsMax) fuel (n : Int)
        = some (Expected.unexpected MathError.Overflow)) := by
  constructor
  · intro sgn fuel hfuel
    constructor
    · exact factorial_bigint_overflow_of_lt sgn 0 34 fuel (le_refl _)
        (by exact_mod_cast Nat.factorial_pos 34) (by omega)
    · exact factorial_bigint_overflow_of_lt sgn 0 40 fuel (by decide)
        (by exact_mod_cast Nat.factorial_pos 40) (by omega)
  · intro sgn limitsMax
    obtain ⟨N, hN34, hNM⟩ : ∃ N : Nat, 34 ≤ N ∧ limitsMax.toNat + 1 ≤ N :=
      ⟨Nat.max 34 (limitsMax.toNat + 1), Nat.le_max_left _ _, Nat.le_max_right _ _⟩
    refine ⟨N, hN34, fun fuel hfuel => ?_⟩
    apply factorial_bigint_overflow_of_lt sgn limitsMax N fuel hN34 _ hfuel
    have h2 : N ≤ N.factorial := Nat.self_le_factorial N
    have h3 : limitsMax ≤ (limitsMax.toNat : Int) := Int.self_le_toNat limitsMax
    have h4 : ((limitsMax.toNat + 1 : Nat) : Int) ≤ ((N.factorial : Nat) : Int) := by
      exact_mod_cast le_trans hNM h2
    push_cast at h4
    omega

/-! ## Specification theorems: permutations and combinations -/

/-- C6: on every native type and every `0 ≤ k ≤ n` of that type,
`permutations(n,k)` returns `n!/(n-k)!` when that is at most `max(T)` and
Overflow when it exceeds `max(T)`; `permutations(5,2) = 20` (64-bit signed),
`permutations(10,3) = 720` (32-bit signed) and `permutations(34,33)` over the
signed 128-bit type is Overflow. -/
theorem permutations_native_exact_or_overflow (w : Width) (sgn : Bool) (n k : Int)
    (fuel : Nat) (hk0 : 0 ≤ k) (hkn : k ≤ n) (hmax : n ≤ (IntType.native w sgn).max)
    (hfuel : k.toNat < fuel) :
    ((((n.toNat.factorial / (n.toNat - k.toNat).factorial : Nat) : Int)
          ≤ (IntType.native w sgn).max →
        permutations (IntType.native w sgn) fuel n k
          = some (Expected.value
              ((n.toNat.factorial / (n.toNat - k.toNat).factorial : Nat) : Int))) ∧
      ((IntType.native w sgn).max
          < ((n.toNat.factorial / (n.toNat - k.toNat).factorial : Nat) : Int) →
        permutations (IntType.native w sgn) fuel n k
          = some (Expected.unexpected MathError.Overflow))) ∧
    (∀ f : Nat, 33 < f →
      permutations (IntType.native Width.w64 true) f 5 2 = some (Expected.value 20) ∧
      permutations (IntType.native Width.w32 true) f 10 3 = some (Expected.value 720) ∧
      permutations (IntType.native Width.w128 true) f 34 33
        = some (Expected.unexpected MathError.Overflow)) := by
  obtain ⟨k', rfl⟩ := Int.eq_ofNat_of_zero_le hk0
  obtain ⟨n', rfl⟩ := Int.eq_ofNat_of_zero_le (le_trans hk0 hkn)
  have hk : k' ≤ n' := by exact_mod_cast hkn
  rw [Int.toNat_ofNat] at hfuel
  simp only [Int.toNat_ofNat]
  have h := permutations_native_nat w sgn n' k' fuel hk hmax hfuel
  rw [Nat.descFactorial_eq_div hk] at h
  refine ⟨⟨fun hfit => ?_, fun hbig => ?_⟩, fun f hf => ⟨?_, ?_, ?_⟩⟩
  · rw [h, if_pos hfit]
  · rw [h, if_neg (by omega)]
  · have h1 := permutations_native_nat Width.w64 true 5 2 f (by decide)
      (by norm_num [IntType.max, Width.bits]) (by omega)
    rw [if_pos (by norm_num [IntType.max, Width.bits, Nat.descFactorial])] at h1
    rw [show (5 : Int) = ((5 : Nat) : Int) from rfl, show (2 : Int) = ((2 : Nat) : Int) from rfl,
      h1]
    norm_num [Nat.descFactorial]
  · have h1 := permutations_native_nat Width.w32 true 10 3 f (by decide)
      (by norm_num [IntType.max, Width.bits]) (by omega)
    rw [if_pos (by norm_num [IntType.max, Width.bits, Nat.descFactorial])] at h1
    rw [show (10 : Int) = ((10 : Nat) : Int) from rfl,
      show (3 : Int) = ((3 : Nat) : Int) from rfl, h1]
    norm_num [Nat.descFactorial]
  · have h1 := permutations_native_nat Width.w128 true 34 33 f (by decide)
      (by norm_num [IntType.max, Width.bits]) (by omega)
    rw [if_neg (by norm_num [IntType.max, Width.bits, Nat.descFactorial])] at h1
    rw [show (34 : Int) = ((34 : Nat) : Int) from rfl,
      show (33 : Int) = ((33 : Nat) : Int) from rfl, h1]

theorem permutations_native_exact_or_overflow_witness :
    (0 : Int) ≤ 3 ∧ (3 : Int) ≤ 10 ∧ (10 : Int) ≤ (IntType.native Width.w32 true).max ∧
    (3 : Int).toNat < 4 ∧
    permutations (IntType.native Width.w32 true) 4 10 3
      = some (Expected.value
          ((((10 : Int).toNat.factorial / ((10 : Int).toNat - (3 : Int).toNat).factorial : Nat))
            : Int)) :=
  ⟨by decide, by decide, by norm_num [IntType.max, Width.bits], by decide,
    (permutations_native_exact_or_overflow Width.w32 true 10 3 4 (by decide) (by decide)
      (by norm_num [IntType.max, Width.bits]) (by decide)).1.1
      (by norm_num [IntType.max, Width.bits, Nat.factorial])⟩

/-- A value of a native type is at most the type's maximum and, for an
unsigned type, non-negative. -/
theorem inRange_native (w : Width) (sgn : Bool) (x : Int)
    (h : (IntType.native w sgn).inRange x) :
    x ≤ (IntType.native w sgn).max ∧ (sgn = false → 0 ≤ x) := by
  refine ⟨h.2 rfl, fun hs => ?_⟩
  subst hs
  exact h.1

theorem permutations_domain_error (w : Width) (sgn : Bool) (n k : Int) (fuel : Nat)
    (hs : (IntType.native w sgn).is_signed = sgn)
    (hn : (IntType.native w sgn).inRange n) (hk : (IntType.native w sgn).inRange k)
    (hdom : n < 0 ∨ k < 0 ∨ k > n) :
    permutations (IntType.native w sgn) fuel n k
      = some (Expected.unexpected MathError.DomainError) := by
  have hn' := (inRange_native w sgn n hn).2
  have hk' := (inRange_native w sgn k hk).2
  unfold permutations
  by_cases h1 : (IntType.native w sgn).is_signed = true ∧ (n < 0 ∨ k < 0)
  · rw [if_pos h1]
  · rw [if_neg h1]
    have hgt : k > n := by
      rcases hdom with h | h | h
      · cases sgn
        · have := hn' rfl; omega
        · exact absurd ⟨hs, Or.inl h⟩ h1
      · cases sgn
        · have := hk' rfl; omega
        · exact absurd ⟨hs, Or.inr h⟩ h1
      · exact h
    rw [if_pos hgt]

theorem combinations_domain_error (w : Width) (sgn : Bool) (n k : Int) (fuel : Nat)
    (hs : (IntType.native w sgn).is_signed = sgn)
    (hn : (IntType.native w sgn).inRange n) (hk : (IntType.native w sgn).inRange k)
    (hdom : n < 0 ∨ k < 0 ∨ k > n) :
    combinations (IntType.native w sgn) fuel n k
      = some (Expected.unexpected MathError.DomainError) := by
  have hn' := (inRange_native w sgn n hn).2
  have hk' := (inRange_native w sgn k hk).2
  unfold combinations
  by_cases h1 : (IntType.native w sgn).is_signed = true ∧ (n < 0 ∨ k < 0)
  · rw [if_pos h1]
  · rw [if_neg h1]
    have hgt : k > n := by
      rcases hdom with h | h | h
      · cases sgn
        · have := hn' rfl; omega
        · exact absurd ⟨hs, Or.inl h⟩ h1
      · cases sgn
        · have := hk' rfl; omega
        · exact absurd ⟨hs, Or.inr h⟩ h1
      · exact h
    rw [if_pos hgt]

/-- C7: on every native type for which `std::is_signed_v` reports the type's
signedness and every `n`, `k` of that type, `permutations(n,k)` and
`combinations(n,k)` return DomainError if and only if `n < 0`, `k < 0` or
`k > n`, and on every other input each returns a value or Overflow.  For
`int128_t` in a build where `std::is_signed_v<int128_t>` is false the sign
check is compiled out: `permutations(5,-1)` and `combinations(5,-1)` pass
`k > n`, run no iteration and return the value 1. -/
theorem negative_arguments_pass_without_signed_trait :
    (∀ (w : Width) (sgn : Bool) (n k : Int) (fuel : Nat),
      (IntType.native w sgn).is_signed = sgn →
      (IntType.native w sgn).inRange n → (IntType.native w sgn).inRange k →
      k.toNat < fuel →
      (permutations (IntType.native w sgn) fuel n k
          = some (Expected.unexpected MathError.DomainError) ↔ (n < 0 ∨ k < 0 ∨ k > n)) ∧
      (combinations (IntType.native w sgn) fuel n k
          = some (Expected.unexpected MathError.DomainError) ↔ (n < 0 ∨ k < 0 ∨ k > n)) ∧
      (¬ (n < 0 ∨ k < 0 ∨ k > n) →
        ((∃ v, permutations (IntType.native w sgn) fuel n k = some (Expected.value v)) ∨
          permutations (IntType.native w sgn) fuel n k
            = some (Expected.unexpected MathError.Overflow)) ∧
        ((∃ v, combinations (IntType.native w sgn) fuel n k = some (Expected.value v)) ∨
          combinations (IntType.native w sgn) fuel n k
            = some (Expected.unexpected MathError.Overflow)))) ∧
    (IntType.native Width.w128_iso true).is_signed = false ∧
    (IntType.native Width.w128_iso true).inRange 5 ∧
    (IntType.native Width.w128_iso true).inRange (-1) ∧
    (∀ fuel : Nat, permutations (IntType.native Width.w128_iso true) (fuel + 1) 5 (-1)
      = some (Expected.value 1)) ∧
    (∀ fuel : Nat, combinations (IntType.native Width.w128_iso true) (fuel + 1) 5 (-1)
      = some (Expected.value 1)) := by
  refine ⟨fun w sgn n k fuel hs hn hk hfuel => ?_, rfl, ?_, ?_, fun fuel => ?_, fun fuel => ?_⟩
  · by_cases hdom : n < 0 ∨ k < 0 ∨ k > n
    · refine ⟨⟨fun _ => hdom, fun _ => permutations_domain_error w sgn n k fuel hs hn hk hdom⟩,
        ⟨fun _ => hdom, fun _ => combinations_domain_error w sgn n k fuel hs hn hk hdom⟩,
        fun h => absurd hdom h⟩
    · have hk0 : 0 ≤ k := by omega
      have hkn : k ≤ n := by omega
      have hmax := (inRange_native w sgn n hn).1
      obtain ⟨k', rfl⟩ := Int.eq_ofNat_of_zero_le hk0
      obtain ⟨n', rfl⟩ := Int.eq_ofNat_of_zero_le (le_trans hk0 hkn)
      have hk' : k' ≤ n' := by exact_mod_cast hkn
      rw [Int.toNat_ofNat] at hfuel
      have hp := permutations_native_nat w sgn n' k' fuel hk' hmax hfuel
      have hc := combinations_native_nat w sgn n' k' fuel hk' hmax hfuel
      refine ⟨⟨fun h => ?_, fun h => absurd h hdom⟩, ⟨fun h => ?_, fun h => absurd h hdom⟩,
        fun _ => ⟨?_, ?_⟩⟩
      · rw [hp] at h
        split_ifs at h <;> simp at h
      · rw [hc] at h
        split_ifs at h <;> simp at h
      · rw [hp]
        split_ifs
        · exact Or.inl ⟨_, rfl⟩
        · exact Or.inr rfl
      · rw [hc]
        split_ifs
        · exact Or.inl ⟨_, rfl⟩
        · exact Or.inr rfl
  · constructor <;> norm_num [IntType.min, IntType.max, IntType.is_bounded, Width.bits]
  · constructor <;> norm_num [IntType.min, IntType.max, IntType.is_bounded, Width.bits]
  · unfold permutations
    rw [if_neg (by simp [IntType.is_signed]), if_neg (by norm_num), if_neg (by norm_num),
      IntType.wrap_one, IntType.wrap_zero, permutations_loop, if_neg (by norm_num)]
  · have hhalf : ¬ ((-1 : Int) > Int.tdiv 5 2) := by decide
    unfold combinations
    rw [if_neg (by simp [IntType.is_signed]), if_neg (by norm_num)]
    dsimp only
    rw [if_neg hhalf, if_neg (by norm_num), IntType.wrap_one, combinations_loop,
      if_neg (by norm_num)]

/-- C8: on every native type and every `n ≥ 0` of that type,
`permutations(n,n)` and `factorial(n)` give the same result, so whenever both
succeed they return the same value. -/
theorem permutations_self_eq_factorial (w : Width) (sgn : Bool) (n : Int) (fuel : Nat)
    (h0 : 0 ≤ n) (hmax : n ≤ (IntType.native w sgn).max) (hfuel : n.toNat < fuel) :
    permutations (IntType.native w sgn) fuel n n = factorial (IntType.native w sgn) fuel n ∧
    ∀ a b : Int,
      permutations (IntType.native w sgn) fuel n n = some (Expected.value a) →
      factorial (IntType.native w sgn) fuel n = some (Expected.value b) → a = b := by
  obtain ⟨m, rfl⟩ := Int.eq_ofNat_of_zero_le h0
  rw [Int.toNat_ofNat] at hfuel
  have hp := permutations_native_nat w sgn m m fuel (le_refl m) hmax hfuel
  have hf := factorial_native_nat w sgn m fuel hmax hfuel
  rw [Nat.descFactorial_self] at hp
  have heq : permutations (IntType.native w sgn) fuel (m : Int) (m : Int)
      = factorial (IntType.native w sgn) fuel (m : Int) := by rw [hp, hf]
  refine ⟨heq, fun a b ha hb => ?_⟩
  rw [heq, hb] at ha
  have h1 : Expected.value b = Expected.value a := Option.some.inj ha
  exact (Expected.value.inj h1).symm

theorem permutations_self_eq_factorial_witness :
    (0 : Int) ≤ 5 ∧ (5 : Int) ≤ (IntType.native Width.w64 true).max ∧ (5 : Int).toNat < 6 ∧
    permutations (IntType.native Width.w64 true) 6 5 5 = some (Expected.value 120) ∧
    factorial (IntType.native Width.w64 true) 6 5 = some (Expected.value 120) ∧
    permutations (IntType.native Width.w64 true) 6 5 5
      = factorial (IntType.native Width.w64 true) 6 5 :=
  ⟨by decide, by norm_num [IntType.max, Width.bits], by decide, by decide, by decide,
    (permutations_self_eq_factorial Width.w64 true 5 6 (by decide)
      (by norm_num [IntType.max, Width.bits]) (by decide)).1⟩

/-- C9: on every native type and every `0 ≤ k ≤ n` of that type, whenever
`combinations(n,k)` returns a value, the value is the binomial coefficient
`n!/(k!(n-k)!)`; `combinations(5,2) = 10`, `combinations(5,3) = 10` (64-bit
signed) and `combinations(10,3) = 120` (32-bit signed). -/
theorem combinations_value_is_binomial (w : Width) (sgn : Bool) (n k : Int) (fuel : Nat)
    (hk0 : 0 ≤ k) (hkn : k ≤ n) (hmax : n ≤ (IntType.native w sgn).max)
    (hfuel : k.toNat < fuel) (v : Int)
    (hv : combinations (IntType.native w sgn) fuel n k = some (Expected.value v)) :
    v = ((n.toNat.factorial / (k.toNat.factorial * (n.toNat - k.toNat).factorial) : Nat) : Int) ∧
    (∀ f : Nat, 3 < f →
      combinations (IntType.native Width.w64 true) f 5 2 = some (Expected.value 10) ∧
      combinations (IntType.native Width.w64 true) f 5 3 = some (Expected.value 10) ∧
      combinations (IntType.native Width.w32 true) f 10 3 = some (Expected.value 120)) := by
  obtain ⟨k', rfl⟩ := Int.eq_ofNat_of_zero_le hk0
  obtain ⟨n', rfl⟩ := Int.eq_ofNat_of_zero_le (le_trans hk0 hkn)
  have hk : k' ≤ n' := by exact_mod_cast hkn
  rw [Int.toNat_ofNat] at hfuel
  simp only [Int.toNat_ofNat]
  have h := combinations_native_nat w sgn n' k' fuel hk hmax hfuel
  refine ⟨?_, fun f hf => ⟨?_, ?_, ?_⟩⟩
  · rw [h] at hv
    split_ifs at hv
    · have h1 : Expected.value ((n'.choose k' : Nat) : Int) = Expected.value v :=
        Option.some.inj hv
      rw [← Expected.value.inj h1, Nat.choose_eq_factorial_div_factorial hk]
    · simp at hv
  · have h1 := combinations_native_nat Width.w64 true 5 2 f (by decide)
      (by norm_num [IntType.max, Width.bits]) (by omega)
    rw [if_pos (by norm_num [IntType.max, Width.bits, Nat.choose])] at h1
    rw [show (5 : Int) = ((5 : Nat) : Int) from rfl, show (2 : Int) = ((2 : Nat) : Int) from rfl,
      h1]
    norm_num [Nat.choose]
  · have h1 := combinations_native_nat Width.w64 true 5 3 f (by decide)
      (by norm_num [IntType.max, Width.bits]) (by omega)
    rw [if_pos (by norm_num [IntType.max, Width.bits, Nat.choose])] at h1
    rw [show (5 : Int) = ((5 : Nat) : Int) from rfl, show (3 : Int) = ((3 : Nat) : Int) from rfl,
      h1]
    norm_num [Nat.choose]
  · have h1 := combinations_native_nat Width.w32 true 10 3 f (by decide)
      (by norm_num [IntType.max, Width.bits]) (by omega)
    rw [if_pos (by norm_num [IntType.max, Width.bits, Nat.choose])] at h1
    rw [show (10 : Int) = ((10 : Nat) : Int) from rfl,
      show (3 : Int) = ((3 : Nat) : Int) from rfl, h1]
    norm_num [Nat.choose]

theorem combinations_value_is_binomial_witness :
    (0 : Int) ≤ 3 ∧ (3 : Int) ≤ 5 ∧ (5 : Int) ≤ (IntType.native Width.w64 true).max ∧
    (3 : Int).toNat < 4 ∧
    combinations (IntType.native Width.w64 true) 4 5 3 = some (Expected.value 10) ∧
    (10 : Int) = ((((5 : Int).toNat.factorial /
      ((3 : Int).toNat.factorial * ((5 : Int).toNat - (3 : Int).toNat).factorial) : Nat)) : Int) :=
  ⟨by decide, by decide, by norm_num [IntType.max, Width.bits], by decide, by decide,
    (combinations_value_is_binomial Width.w64 true 5 3 4 (by decide) (by decide)
      (by norm_num [IntType.max, Width.bits]) (by decide) 10 (by decide)).1⟩

theorem choose_62_31 : Nat.choose 62 31 = 465428353255261088 := by
  rw [Nat.choose_eq_descFactorial_div_factorial]
  norm_num [Nat.descFactorial, Nat.factorial]

theorem choose_9_4 : Nat.choose 9 4 = 126 := by
  rw [Nat.choose_eq_descFactorial_div_factorial]
  norm_num [Nat.descFactorial, Nat.factorial]

/-- C10, as stated, fails: over the signed 64-bit type `combinations(62,31)`
returns Overflow although `C(62,31) = 465428353255261088` is below the type's
maximum, and over the signed 8-bit type `combinations(9,4)` returns Overflow
although `C(9,4) = 126 ≤ 127`. -/
theorem combinations_overflow_although_result_fits :
    (combinations (IntType.native Width.w64 true) 32 62 31
        = some (Expected.unexpected MathError.Overflow) ∧
      ((Nat.choose 62 31 : Nat) : Int) ≤ (IntType.native Width.w64 true).max) ∧
    (combinations (IntType.native Width.w8 true) 5 9 4
        = some (Expected.unexpected MathError.Overflow) ∧
      ((Nat.choose 9 4 : Nat) : Int) ≤ (IntType.native Width.w8 true).max) := by
  refine ⟨⟨?_, ?_⟩, ⟨?_, ?_⟩⟩
  · have h1 := combinations_native_nat Width.w64 true 62 31 32 (by decide)
      (by norm_num [IntType.max, Width.bits]) (by omega)
    rw [choose_62_31, if_neg (by norm_num [IntType.max, Width.bits])] at h1
    rw [show (62 : Int) = ((62 : Nat) : Int) from rfl,
      show (31 : Int) = ((31 : Nat) : Int) from rfl, h1]
  · rw [choose_62_31]; norm_num [IntType.max, Width.bits]
  · have h1 := combinations_native_nat Width.w8 true 9 4 5 (by decide)
      (by norm_num [IntType.max, Width.bits]) (by omega)
    rw [choose_9_4, if_neg (by norm_num [IntType.max, Width.bits])] at h1
    rw [show (9 : Int) = ((9 : Nat) : Int) from rfl,
      show (4 : Int) = ((4 : Nat) : Int) from rfl, h1]
  · rw [choose_9_4]; norm_num [IntType.max, Width.bits]

/-- C10, amended: on every native type and every `0 ≤ k ≤ n` of that type,
`combinations(n,k)` returns Overflow exactly when `C(n,k) * min(k, n-k)`, the
largest product the loop forms before dividing, exceeds `max(T)`, which
includes every case where `C(n,k)` itself exceeds `max(T)`; whenever
`C(n,k) * min(k, n-k) ≤ max(T)` it returns `C(n,k)`. -/
theorem combinations_overflow_iff_last_product_exceeds (w : Width) (sgn : Bool) (n k : Int)
    (fuel : Nat) (hk0 : 0 ≤ k) (hkn : k ≤ n) (hmax : n ≤ (IntType.native w sgn).max)
    (hfuel : k.toNat < fuel) :
    (combinations (IntType.native w sgn) fuel n k
        = some (Expected.unexpected MathError.Overflow) ↔
      (IntType.native w sgn).max
        < ((n.toNat.choose k.toNat * min k.toNat (n.toNat - k.toNat) : Nat) : Int)) ∧
    (((n.toNat.choose k.toNat * min k.toNat (n.toNat - k.toNat) : Nat) : Int)
        ≤ (IntType.native w sgn).max →
      combinations (IntType.native w sgn) fuel n k
        = some (Expected.value ((n.toNat.choose k.toNat : Nat) : Int))) ∧
    ((IntType.native w sgn).max < ((n.toNat.choose k.toNat : Nat) : Int) →
      combinations (IntType.native w sgn) fuel n k
        = some (Expected.unexpected MathError.Overflow)) := by
  obtain ⟨k', rfl⟩ := Int.eq_ofNat_of_zero_le hk0
  obtain ⟨n', rfl⟩ := Int.eq_ofNat_of_zero_le (le_trans hk0 hkn)
  have hk : k' ≤ n' := by exact_mod_cast hkn
  rw [Int.toNat_ofNat] at hfuel
  simp only [Int.toNat_ofNat]
  have h := combinations_native_nat w sgn n' k' fuel hk hmax hfuel
  have h3 := (IntType.native w sgn).three_le_max_of_bounded rfl
  refine ⟨⟨fun ho => ?_, fun hbig => ?_⟩, fun hfit => ?_, fun hbig => ?_⟩
  · rw [h] at ho
    split_ifs at ho with hc
    · simp at ho
    · omega
  · rw [h, if_neg (by omega)]
  · rw [h, if_pos hfit]
  · rw [h, if_neg]
    intro hfit
    rcases Nat.eq_zero_or_pos (min k' (n' - k')) with hz | hpos
    · have hk'' : k' = 0 ∨ k' = n' := by
        rcases Nat.le_total k' (n' - k') with hle | hle
        · rw [min_eq_left hle] at hz; exact Or.inl hz
        · rw [min_eq_right hle] at hz; exact Or.inr (by omega)
      rcases hk'' with hz' | hz'
      · rw [hz', Nat.choose_zero_right] at hbig
        simp only [Nat.cast_one] at hbig; omega
      · rw [hz', Nat.choose_self] at hbig
        simp only [Nat.cast_one] at hbig; omega
    · have hle : n'.choose k' ≤ n'.choose k' * min k' (n' - k') :=
        Nat.le_mul_of_pos_right _ hpos
      have hle' : ((n'.choose k' : Nat) : Int)
          ≤ ((n'.choose k' * min k' (n' - k') : Nat) : Int) := by exact_mod_cast hle
      omega

theorem combinations_overflow_iff_last_product_exceeds_witness :
    (0 : Int) ≤ 4 ∧ (4 : Int) ≤ 9 ∧ (9 : Int) ≤ (IntType.native Width.w8 true).max ∧
    (4 : Int).toNat < 5 ∧
    (combinations (IntType.native Width.w8 true) 5 9 4
        = some (Expected.unexpected MathError.Overflow) ↔
      (IntType.native Width.w8 true).max
        < (((9 : Int).toNat.choose (4 : Int).toNat *
            min (4 : Int).toNat ((9 : Int).toNat - (4 : Int).toNat) : Nat) : Int)) :=
  ⟨by decide, by decide, by norm_num [IntType.max, Width.bits], by decide,
    (combinations_overflow_iff_last_product_exceeds Width.w8 true 9 4 5 (by decide) (by decide)
      (by norm_num [IntType.max, Width.bits]) (by decide)).1⟩

/-! ## Specification theorems: symmetry and the 128-bit boundary of combinations -/

/-- C11: on every native type and every `0 ≤ k ≤ n` of that type,
`combinations(n,k)` and `combinations(n,n-k)` return the identical result, the
same value or the same error. -/
theorem combinations_symmetric (w : Width) (sgn : Bool) (n k : Int) (fuel : Nat)
    (hk0 : 0 ≤ k) (hkn : k ≤ n) (hmax : n ≤ (IntType.native w sgn).max)
    (hfuel : n.toNat < fuel) :
    combinations (IntType.native w sgn) fuel n k
      = combinations (IntType.native w sgn) fuel n (n - k) ∧
    ∃ r, combinations (IntType.native w sgn) fuel n k = some r := by
  obtain ⟨k', rfl⟩ := Int.eq_ofNat_of_zero_le hk0
  obtain ⟨n', rfl⟩ := Int.eq_ofNat_of_zero_le (le_trans hk0 hkn)
  have hk : k' ≤ n' := by exact_mod_cast hkn
  rw [Int.toNat_ofNat] at hfuel
  have h1 := combinations_native_nat w sgn n' k' fuel hk hmax (by omega)
  have h2 := combinations_native_nat w sgn n' (n' - k') fuel (Nat.sub_le _ _) hmax (by omega)
  have hsub : (n' : Int) - (k' : Int) = ((n' - k' : Nat) : Int) := by
    rw [Nat.cast_sub hk]
  have hback : n' - (n' - k') = k' := by omega
  rw [Nat.choose_symm hk, hback, min_comm] at h2
  refine ⟨?_, ⟨_, h1⟩⟩
  rw [hsub, h1, h2]

theorem combinations_symmetric_witness :
    (0 : Int) ≤ 3 ∧ (3 : Int) ≤ 5 ∧ (5 : Int) ≤ (IntType.native Width.w64 true).max ∧
    (5 : Int).toNat < 6 ∧
    combinations (IntType.native Width.w64 true) 6 5 3 = some (Expected.value 10) ∧
    combinations (IntType.native Width.w64 true) 6 5 3
      = combinations (IntType.native Width.w64 true) 6 5 (5 - 3) :=
  ⟨by decide, by decide, by norm_num [IntType.max, Width.bits], by decide, by decide,
    (combinations_symmetric Width.w64 true 5 3 6 (by decide) (by decide)
      (by norm_num [IntType.max, Width.bits]) (by decide)).1⟩

set_option maxRecDepth 8000 in
theorem POWERS_OF_2_length : POWERS_OF_2.length = 128 := by decide

theorem POWERS_OF_3_length : POWERS_OF_3.length = 81 := by decide

theorem POWERS_OF_5_length : POWERS_OF_5.length = 56 := by decide

theorem POWERS_OF_10_length : POWERS_OF_10.length = 39 := by decide

set_option maxRecDepth 8000 in
theorem POWERS_OF_2_getD (e : Nat) (h : e < 128) : POWERS_OF_2.getD e 0 = 2 ^ e := by
  interval_cases e <;> decide

theorem POWERS_OF_3_getD (e : Nat) (h : e < 81) : POWERS_OF_3.getD e 0 = 3 ^ e := by
  interval_cases e <;> decide

theorem POWERS_OF_5_getD (e : Nat) (h : e < 56) : POWERS_OF_5.getD e 0 = 5 ^ e := by
  interval_cases e <;> decide

theorem POWERS_OF_10_getD (e : Nat) (h : e < 39) : POWERS_OF_10.getD e 0 = 10 ^ e := by
  interval_cases e <;> decide

/-! ## The generic binary exponentiation -/

theorem generic_power_loop_exit (T : IntType) (fuel : Nat) (result b : Int) :
    generic_power_loop T (fuel + 1) result b 0 = some (Expected.value result) := by
  simp only [generic_power_loop, lt_irrefl, if_false]

theorem pow_split_odd (r b e : Nat) (h : e % 2 = 1) :
    r * b * (b * b) ^ (e / 2) = r * b ^ e := by
  have he : e = 2 * (e / 2) + 1 := by omega
  rw [← pow_two, ← pow_mul]
  conv_rhs => rw [he, pow_succ]
  ring

theorem pow_split_even (r b e : Nat) (h : ¬ e % 2 = 1) :
    r * (b * b) ^ (e / 2) = r * b ^ e := by
  have he : e = 2 * (e / 2) := by omega
  rw [← pow_two, ← pow_mul]
  conv_rhs => rw [he]

/-- With positive `result` and `b` that fit the type, the loop returns
`result * b ^ e` when that fits and Overflow when it does not. -/
theorem generic_power_loop_spec (T : IntType) :
    ∀ (fuel e result b : Nat), e < fuel → 1 ≤ e → 1 ≤ result → 1 ≤ b →
      ((result : Nat) : Int) ≤ T.max → ((b : Nat) : Int) ≤ T.max →
      generic_power_loop T fuel (result : Int) (b : Int) e
        = some (if ((result * b ^ e : Nat) : Int) ≤ T.max
            then Expected.value ((result * b ^ e : Nat) : Int)
            else Expected.unexpected MathError.Overflow) := by
  intro fuel
  induction fuel with
  | zero => intro e result b hf; omega
  | succ f ih =>
    intro e result b hf he hr hb hrM hbM
    have hpos : 0 < e := by omega
    have hbne : ((b : Nat) : Int) ≠ 0 := by
      have : (0 : Int) < (b : Int) := by exact_mod_cast hb
      omega
    have hiffr := overflow_check_iff T.max result b hr hb
    have hiffb := overflow_check_iff T.max b b hb hb
    have hrb : ((result : Nat) : Int) * ((b : Nat) : Int) = ((result * b : Nat) : Int) := by
      push_cast; ring
    have hbb : ((b : Nat) : Int) * ((b : Nat) : Int) = ((b * b : Nat) : Int) := by
      push_cast; ring
    rw [hrb] at hiffr
    rw [hbb] at hiffb
    have hble : b ≤ b ^ e := Nat.le_self_pow (by omega) b
    have hrble : result * b ≤ result * b ^ e := Nat.mul_le_mul_left _ hble
    have hbbpos : 1 ≤ b * b := Nat.mul_pos hb hb
    have hrbpos : 1 ≤ result * b := Nat.mul_pos hr hb
    have hhalf : e / 2 < f := by omega
    by_cases hodd : e % 2 = 1
    · by_cases hc1 : ((result : Nat) : Int) > Int.tdiv T.max ((b : Nat) : Int)
      · have hbig : ¬ (((result * b ^ e : Nat) : Int) ≤ T.max) := by
          have h1 := hiffr.mp hc1
          have h2 : ((result * b : Nat) : Int) ≤ ((result * b ^ e : Nat) : Int) := by
            exact_mod_cast hrble
          omega
        have hcond : ((b : Nat) : Int) ≠ 0 ∧
            ((result : Nat) : Int) > Int.tdiv T.max ((b : Nat) : Int) := ⟨hbne, hc1⟩
        rw [generic_power_loop, if_pos hpos, if_pos hodd, if_pos hcond, if_neg hbig]
      · have hfitr : ((result * b : Nat) : Int) ≤ T.max := by
          by_contra hc
          exact hc1 (hiffr.mpr (by omega))
        have hcond : ¬ (((b : Nat) : Int) ≠ 0 ∧
            ((result : Nat) : Int) > Int.tdiv T.max ((b : Nat) : Int)) := fun h => hc1 h.2
        have hwr := T.wrap_natCast (result * b) (fun _ => hfitr)
        by_cases h1e : 1 < e
        · by_cases hc2 : ((b : Nat) : Int) > Int.tdiv T.max ((b : Nat) : Int)
          · have hbig : ¬ (((result * b ^ e : Nat) : Int) ≤ T.max) := by
              have h1 := hiffb.mp hc2
              have h3 : b * b ≤ result * b ^ e := by
                calc b * b = b ^ 2 := (pow_two b).symm
                  _ ≤ b ^ e := Nat.pow_le_pow_right hb (by omega)
                  _ = 1 * b ^ e := (one_mul _).symm
                  _ ≤ result * b ^ e := Nat.mul_le_mul_right _ hr
              have h2 : ((b * b : Nat) : Int) ≤ ((result * b ^ e : Nat) : Int) := by
                exact_mod_cast h3
              omega
            have hcond2 : ((b : Nat) : Int) ≠ 0 ∧
                ((b : Nat) : Int) > Int.tdiv T.max ((b : Nat) : Int) := ⟨hbne, hc2⟩
            rw [generic_power_loop, if_pos hpos, if_pos hodd, if_neg hcond, if_pos h1e,
              if_pos hcond2, if_neg hbig]
          · have hfitb : ((b * b : Nat) : Int) ≤ T.max := by
              by_contra hc
              exact hc2 (hiffb.mpr (by omega))
            have hcond2 : ¬ (((b : Nat) : Int) ≠ 0 ∧
                ((b : Nat) : Int) > Int.tdiv T.max ((b : Nat) : Int)) := fun h => hc2 h.2
            have hwb := T.wrap_natCast (b * b) (fun _ => hfitb)
            rw [generic_power_loop, if_pos hpos, if_pos hodd, if_neg hcond, if_pos h1e,
              if_neg hcond2, hrb, hbb, hwr, hwb]
            rw [ih (e / 2) (result * b) (b * b) hhalf (by omega) hrbpos hbbpos hfitr hfitb,
              pow_split_odd result b e hodd]
        · have he1 : e = 1 := by omega
          have he2 : e / 2 = 0 := by omega
          obtain ⟨f', rfl⟩ : ∃ f', f = f' + 1 := ⟨f - 1, by omega⟩
          rw [generic_power_loop, if_pos hpos, if_pos hodd, if_neg hcond, if_neg h1e, hrb, hwr,
            he2, generic_power_loop_exit, he1, pow_one, if_pos hfitr]
    · have h1e : 1 < e := by omega
      by_cases hc2 : ((b : Nat) : Int) > Int.tdiv T.max ((b : Nat) : Int)
      · have hbig : ¬ (((result * b ^ e : Nat) : Int) ≤ T.max) := by
          have h1 := hiffb.mp hc2
          have h3 : b * b ≤ result * b ^ e := by
            calc b * b = b ^ 2 := (pow_two b).symm
              _ ≤ b ^ e := Nat.pow_le_pow_right hb (by omega)
              _ = 1 * b ^ e := (one_mul _).symm
              _ ≤ result * b ^ e := Nat.mul_le_mul_right _ hr
          have h2 : ((b * b : Nat) : Int) ≤ ((result * b ^ e : Nat) : Int) := by
            exact_mod_cast h3
          omega
        have hcond2 : ((b : Nat) : Int) ≠ 0 ∧
            ((b : Nat) : Int) > Int.tdiv T.max ((b : Nat) : Int) := ⟨hbne, hc2⟩
        rw [generic_power_loop, if_pos hpos, if_neg hodd, if_pos h1e, if_pos hcond2,
          if_neg hbig]
      · have hfitb : ((b * b : Nat) : Int) ≤ T.max := by
          by_contra hc
          exact hc2 (hiffb.mpr (by omega))
        have hcond2 : ¬ (((b : Nat) : Int) ≠ 0 ∧
            ((b : Nat) : Int) > Int.tdiv T.max ((b : Nat) : Int)) := fun h => hc2 h.2
        have hwb := T.wrap_natCast (b * b) (fun _ => hfitb)
        rw [generic_power_loop, if_pos hpos, if_neg hodd, if_pos h1e, if_neg hcond2, hbb, hwb]
        rw [ih (e / 2) result (b * b) hhalf (by omega) hr hbbpos hrM hfitb,
          pow_split_even result b e hodd]

/-- On a native type and a base `0 ≤ base ≤ max(T)`, `generic_power` returns
`base ^ exp` when that fits the type and Overflow when it does not. -/
theorem generic_power_native_nat (w : Width) (sgn : Bool) (base exp fuel : Nat)
    (hmax : (base : Int) ≤ (IntType.native w sgn).max) (hfuel : exp < fuel) :
    generic_power (IntType.native w sgn) fuel (base : Int) exp =
      some (if ((base ^ exp : Nat) : Int) ≤ (IntType.native w sgn).max
        then Expected.value ((base ^ exp : Nat) : Int)
        else Expected.unexpected MathError.Overflow) := by
  have h3 := (IntType.native w sgn).three_le_max_of_bounded rfl
  unfold generic_power
  rcases Nat.eq_zero_or_pos exp with h0 | hpos
  · subst h0
    have h1 : ((1 : Int)) ≤ (IntType.native w sgn).max := by omega
    rw [if_pos rfl, IntType.wrap_one]
    simp only [pow_zero, Nat.cast_one, h1, if_true]
  · rw [if_neg (by omega)]
    rcases Nat.eq_zero_or_pos base with hb0 | hbpos
    · subst hb0
      have h1 : ((0 : Int)) ≤ (IntType.native w sgn).max := by omega
      rw [if_pos Nat.cast_zero, IntType.wrap_zero, zero_pow (by omega)]
      simp only [Nat.cast_zero, h1, if_true]
    · have hbne : ¬ ((base : Int) = 0) := by
        have : (0 : Int) < (base : Int) := by exact_mod_cast hbpos
        omega
      rw [if_neg hbne, IntType.wrap_one]
      have h := generic_power_loop_spec (IntType.native w sgn) fuel exp 1 base hfuel hpos
        (le_refl 1) hbpos (by simp only [Nat.cast_one]; omega) hmax
      simp only [Nat.cast_one, one_mul] at h
      exact h

/-! ## The table dispatch of integer_power -/

theorem integer_power_base_2 (T : IntType) (fuel exp : Nat) :
    integer_power T fuel 2 exp =
      some (if exp < 128 then Expected.value (T.wrap ((2 ^ exp : Nat) : Int))
        else Expected.unexpected MathError.Overflow) := by
  unfold integer_power
  rw [if_pos rfl, POWERS_OF_2_length]
  by_cases h : exp < 128
  · rw [if_pos h, if_pos h, POWERS_OF_2_getD exp h]
  · rw [if_neg h, if_neg h]

theorem integer_power_base_3 (T : IntType) (fuel exp : Nat) :
    integer_power T fuel 3 exp =
      some (if exp < 81 then Expected.value (T.wrap ((3 ^ exp : Nat) : Int))
        else Expected.unexpected MathError.Overflow) := by
  unfold integer_power
  rw [if_neg (by decide), if_pos rfl, POWERS_OF_3_length]
  by_cases h : exp < 81
  · have hne : ¬ ((3 : Nat) ^ exp = 0 ∧ exp ≠ 0) := fun hc => absurd hc.1 (by positivity)
    rw [if_pos h, if_pos h, POWERS_OF_3_getD exp h, if_neg hne]
  · rw [if_neg h, if_neg h]

theorem integer_power_base_5 (T : IntType) (fuel exp : Nat) :
    integer_power T fuel 5 exp =
      some (if exp < 56 then Expected.value (T.wrap ((5 ^ exp : Nat) : Int))
        else Expected.unexpected MathError.Overflow) := by
  unfold integer_power
  rw [if_neg (by decide), if_neg (by decide), if_pos rfl, POWERS_OF_5_length]
  by_cases h : exp < 56
  · have hne : ¬ ((5 : Nat) ^ exp = 0 ∧ exp ≠ 0) := fun hc => absurd hc.1 (by positivity)
    rw [if_pos h, if_pos h, POWERS_OF_5_getD exp h, if_neg hne]
  · rw [if_neg h, if_neg h]

theorem integer_power_base_10 (T : IntType) (fuel exp : Nat) :
    integer_power T fuel 10 exp =
      some (if exp < 39 then Expected.value (T.wrap ((10 ^ exp : Nat) : Int))
        else Expected.unexpected MathError.Overflow) := by
  unfold integer_power
  rw [if_neg (by decide), if_neg (by decide), if_neg (by decide), if_pos rfl,
    POWERS_OF_10_length]
  by_cases h : exp < 39
  · have hne : ¬ ((10 : Nat) ^ exp = 0 ∧ exp ≠ 0) := fun hc => absurd hc.1 (by positivity)
    rw [if_pos h, if_pos h, POWERS_OF_10_getD exp h, if_neg hne]
  · rw [if_neg h, if_neg h]

theorem integer_power_other_base (T : IntType) (fuel : Nat) (base : Int) (exp : Nat)
    (h2 : base ≠ 2) (h3 : base ≠ 3) (h5 : base ≠ 5) (h10 : base ≠ 10) :
    integer_power T fuel base exp = generic_power T fuel base exp := by
  unfold integer_power
  rw [if_neg h2, if_neg h3, if_neg h5, if_neg h10]

/-! ## Specification theorems: integer_power -/

/-- C13: on every native type, every base `0 ≤ base ≤ max(T)` and every
unsigned exponent, `generic_power(base,exp)`, and with it
`integer_power(base,exp)` for a base outside `{2,3,5,10}`, returns
`base ^ exp` when `base ^ exp ≤ max(T)` and Overflow when
`base ^ exp > max(T)`; `integer_power(7,5) = 16807`. -/
theorem generic_power_exact_or_overflow (w : Width) (sgn : Bool) (base : Int) (exp fuel : Nat)
    (h0 : 0 ≤ base) (hmax : base ≤ (IntType.native w sgn).max) (hfuel : exp < fuel) :
    ((((base.toNat ^ exp : Nat) : Int) ≤ (IntType.native w sgn).max →
        generic_power (IntType.native w sgn) fuel base exp
          = some (Expected.value ((base.toNat ^ exp : Nat) : Int))) ∧
      ((IntType.native w sgn).max < ((base.toNat ^ exp : Nat) : Int) →
        generic_power (IntType.native w sgn) fuel base exp
          = some (Expected.unexpected MathError.Overflow))) ∧
    (base ≠ 2 → base ≠ 3 → base ≠ 5 → base ≠ 10 →
      integer_power (IntType.native w sgn) fuel base exp
        = generic_power (IntType.native w sgn) fuel base exp) ∧
    (∀ (s : Bool) (f : Nat), 5 < f →
      integer_power (IntType.native Width.w128 s) f 7 5 = some (Expected.value 16807) ∧
      integer_power (IntType.native Width.w32 s) f 7 5 = some (Expected.value 16807)) := by
  obtain ⟨b, rfl⟩ := Int.eq_ofNat_of_zero_le h0
  simp only [Int.toNat_ofNat]
  have h := generic_power_native_nat w sgn b exp fuel hmax hfuel
  refine ⟨⟨fun hfit => ?_, fun hbig => ?_⟩,
    fun h2 h3 h5 h10 => integer_power_other_base _ fuel _ exp h2 h3 h5 h10,
    fun s f hf => ⟨?_, ?_⟩⟩
  · rw [h, if_pos hfit]
  · rw [h, if_neg (by omega)]
  · have h1 := generic_power_native_nat Width.w128 s 7 5 f
      (by cases s <;> norm_num [IntType.max, Width.bits]) hf
    rw [if_pos (by cases s <;> norm_num [IntType.max, Width.bits])] at h1
    rw [integer_power_other_base _ f 7 5 (by decide) (by decide) (by decide) (by decide),
      show (7 : Int) = ((7 : Nat) : Int) from rfl, h1]
    norm_num
  · have h1 := generic_power_native_nat Width.w32 s 7 5 f
      (by cases s <;> norm_num [IntType.max, Width.bits]) hf
    rw [if_pos (by cases s <;> norm_num [IntType.max, Width.bits])] at h1
    rw [integer_power_other_base _ f 7 5 (by decide) (by decide) (by decide) (by decide),
      show (7 : Int) = ((7 : Nat) : Int) from rfl, h1]
    norm_num

theorem generic_power_exact_or_overflow_witness :
    (0 : Int) ≤ 7 ∧ (7 : Int) ≤ (IntType.native Width.w32 true).max ∧ 5 < 6 ∧
    generic_power (IntType.native Width.w32 true) 6 7 5
      = some (Expected.value ((((7 : Int).toNat ^ 5 : Nat)) : Int)) :=
  ⟨by decide, by norm_num [IntType.max, Width.bits], by decide,
    (generic_power_exact_or_overflow Width.w32 true 7 5 6 (by decide)
      (by norm_num [IntType.max, Width.bits]) (by decide)).1.1
      (by norm_num [IntType.max, Width.bits])⟩

/-- C14 fails on the code: for a base in `{2,3,5,10}` and an exponent inside
the table, `integer_power` returns the table value stored into `T` with no
test against `max(T)`, so a table value that does not fit comes back wrapped:
over the signed 32-bit type `integer_power(10,10)` is the value `1410065408`
and over the unsigned 8-bit type `integer_power(2,8)` is the value `0`. -/
theorem integer_power_table_value_wraps :
    (∀ (T : IntType) (fuel exp : Nat),
      (exp < 128 → integer_power T fuel 2 exp
        = some (Expected.value (T.wrap ((2 ^ exp : Nat) : Int)))) ∧
      (exp < 81 → integer_power T fuel 3 exp
        = some (Expected.value (T.wrap ((3 ^ exp : Nat) : Int)))) ∧
      (exp < 56 → integer_power T fuel 5 exp
        = some (Expected.value (T.wrap ((5 ^ exp : Nat) : Int)))) ∧
      (exp < 39 → integer_power T fuel 10 exp
        = some (Expected.value (T.wrap ((10 ^ exp : Nat) : Int))))) ∧
    (∀ fuel : Nat,
      integer_power (IntType.native Width.w32 true) fuel 10 10
        = some (Expected.value 1410065408) ∧
      integer_power (IntType.native Width.w8 false) fuel 2 8 = some (Expected.value 0)) ∧
    (IntType.native Width.w32 true).max < (((10 : Nat) ^ 10 : Nat) : Int) ∧
    (IntType.native Width.w8 false).max < (((2 : Nat) ^ 8 : Nat) : Int) := by
  refine ⟨fun T fuel exp => ⟨fun h => ?_, fun h => ?_, fun h => ?_, fun h => ?_⟩,
    fun fuel => ⟨?_, ?_⟩, by norm_num [IntType.max, Width.bits],
    by norm_num [IntType.max, Width.bits]⟩
  · rw [integer_power_base_2, if_pos h]
  · rw [integer_power_base_3, if_pos h]
  · rw [integer_power_base_5, if_pos h]
  · rw [integer_power_base_10, if_pos h]
  · rw [integer_power_base_10, if_pos (by decide)]
    norm_num [IntType.wrap, Width.bits]
  · rw [integer_power_base_2, if_pos (by decide)]
    norm_num [IntType.wrap, Width.bits]

theorem lt_table_size_iff (b N exp : Nat) (hb : 1 ≤ b) (hN : 1 ≤ N)
    (hlo : b ^ (N - 1) < 2 ^ 128) (hhi : 2 ^ 128 ≤ b ^ N) :
    exp < N ↔ b ^ exp < 2 ^ 128 := by
  constructor
  · intro h
    exact lt_of_le_of_lt (Nat.pow_le_pow_right hb (by omega)) hlo
  · intro h
    by_contra hc
    have h1 : b ^ N ≤ b ^ exp := Nat.pow_le_pow_right hb (by omega)
    exact absurd (lt_of_le_of_lt (le_trans hhi h1) h) (lt_irrefl _)

theorem uint128_max_eq (w : Width) (hw : w.bits = 128) :
    (IntType.native w false).max = 2 ^ 128 - 1 := by
  rcases Width.eq_of_bits_128 w hw with rfl | rfl <;> rfl

theorem uint128_wrap_of_lt (w : Width) (hw : w.bits = 128) (x : Nat) (h : x < 2 ^ 128) :
    (IntType.native w false).wrap (x : Int) = (x : Int) := by
  apply IntType.wrap_natCast
  intro _
  rw [uint128_max_eq w hw]
  have : ((x : Nat) : Int) < 2 ^ 128 := by exact_mod_cast h
  omega

/-- C15: over the unsigned 128-bit type, whether or not `<type_traits>`
recognises it, for every base in `{2,3,5,10}` and
every unsigned exponent, `integer_power(base,exp)` returns `base ^ exp` when
`base ^ exp < 2^128` and Overflow otherwise; `integer_power(2,10) = 1024`,
`integer_power(10,38) = 10^38`, `integer_power(10,39)` and
`integer_power(2,128)` are Overflow. -/
theorem integer_power_uint128_tables (w : Width) (base : Int) (exp fuel : Nat)
    (hw : w.bits = 128) (hbase : base = 2 ∨ base = 3 ∨ base = 5 ∨ base = 10) :
    ((base.toNat ^ exp < 2 ^ 128 →
        integer_power (IntType.native w false) fuel base exp
          = some (Expected.value ((base.toNat ^ exp : Nat) : Int))) ∧
      (2 ^ 128 ≤ base.toNat ^ exp →
        integer_power (IntType.native w false) fuel base exp
          = some (Expected.unexpected MathError.Overflow))) ∧
    (integer_power (IntType.native w false) fuel 2 10 = some (Expected.value 1024) ∧
      integer_power (IntType.native w false) fuel 10 38
        = some (Expected.value 100000000000000000000000000000000000000) ∧
      integer_power (IntType.native w false) fuel 10 39
        = some (Expected.unexpected MathError.Overflow) ∧
      integer_power (IntType.native w false) fuel 2 128
        = some (Expected.unexpected MathError.Overflow)) := by
  have i2 := lt_table_size_iff 2 128 exp (by decide) (by decide) (by norm_num) (by norm_num)
  have i3 := lt_table_size_iff 3 81 exp (by decide) (by decide) (by norm_num) (by norm_num)
  have i5 := lt_table_size_iff 5 56 exp (by decide) (by decide) (by norm_num) (by norm_num)
  have i10 := lt_table_size_iff 10 39 exp (by decide) (by decide) (by norm_num) (by norm_num)
  refine ⟨?_, ?_, ?_, ?_, ?_⟩
  · rcases hbase with h | h | h | h <;> subst h
    · rw [show (2 : Int).toNat = 2 from rfl]
      refine ⟨fun hlt => ?_, fun hge => ?_⟩
      · rw [integer_power_base_2, if_pos (i2.mpr hlt), uint128_wrap_of_lt w hw _ hlt]
      · rw [integer_power_base_2, if_neg (fun hc => absurd (i2.mp hc) (not_lt.mpr hge))]
    · rw [show (3 : Int).toNat = 3 from rfl]
      refine ⟨fun hlt => ?_, fun hge => ?_⟩
      · rw [integer_power_base_3, if_pos (i3.mpr hlt), uint128_wrap_of_lt w hw _ hlt]
      · rw [integer_power_base_3, if_neg (fun hc => absurd (i3.mp hc) (not_lt.mpr hge))]
    · rw [show (5 : Int).toNat = 5 from rfl]
      refine ⟨fun hlt => ?_, fun hge => ?_⟩
      · rw [integer_power_base_5, if_pos (i5.mpr hlt), uint128_wrap_of_lt w hw _ hlt]
      · rw [integer_power_base_5, if_neg (fun hc => absurd (i5.mp hc) (not_lt.mpr hge))]
    · rw [show (10 : Int).toNat = 10 from rfl]
      refine ⟨fun hlt => ?_, fun hge => ?_⟩
      · rw [integer_power_base_10, if_pos (i10.mpr hlt), uint128_wrap_of_lt w hw _ hlt]
      · rw [integer_power_base_10, if_neg (fun hc => absurd (i10.mp hc) (not_lt.mpr hge))]
  · rw [integer_power_base_2, if_pos (by decide), uint128_wrap_of_lt w hw _ (by norm_num)]
    norm_num
  · rw [integer_power_base_10, if_pos (by decide), uint128_wrap_of_lt w hw _ (by norm_num)]
    norm_num
  · rw [integer_power_base_10, if_neg (by decide)]
  · rw [integer_power_base_2, if_neg (by decide)]

theorem integer_power_uint128_tables_witness :
    ((3 : Int) = 2 ∨ (3 : Int) = 3 ∨ (3 : Int) = 5 ∨ (3 : Int) = 10) ∧
    (3 : Int).toNat ^ 80 < 2 ^ 128 ∧
    integer_power (IntType.native Width.w128 false) 0 3 80
      = some (Expected.value ((((3 : Int).toNat ^ 80 : Nat)) : Int)) :=
  ⟨by decide, by norm_num [show (3 : Int).toNat = 3 from rfl],
    (integer_power_uint128_tables Width.w128 3 80 0 rfl (by decide)).1.1
      (by norm_num [show (3 : Int).toNat = 3 from rfl])⟩

/-- C16 fails on the code, by the defect of C14: the table path stores the
table value into `T` without a test against `max(T)` while the generic path
tests before every multiplication.  Over the signed 32-bit type
`integer_power(10,10)` is the value `1410065408` and `generic_power(10,10)`
is Overflow; over the signed 128-bit type `integer_power(2,127)` is the value
`-2^127` and `generic_power(2,127)` is Overflow. -/
theorem integer_power_table_and_generic_disagree :
    (∀ fuel : Nat,
      integer_power (IntType.native Width.w32 true) fuel 10 10
          = some (Expected.value 1410065408) ∧
      integer_power (IntType.native Width.w128 true) fuel 2 127
          = some (Expected.value (-170141183460469231731687303715884105728))) ∧
    (∀ fuel : Nat,
      (10 < fuel → generic_power (IntType.native Width.w32 true) fuel 10 10
          = some (Expected.unexpected MathError.Overflow)) ∧
      (127 < fuel → generic_power (IntType.native Width.w128 true) fuel 2 127
          = some (Expected.unexpected MathError.Overflow))) := by
  refine ⟨fun fuel => ⟨?_, ?_⟩, fun fuel => ⟨fun hf => ?_, fun hf => ?_⟩⟩
  · rw [integer_power_base_10, if_pos (by decide)]
    norm_num [IntType.wrap, Width.bits]
  · rw [integer_power_base_2, if_pos (by decide)]
    norm_num [IntType.wrap, Width.bits]
  · have h := generic_power_native_nat Width.w32 true 10 10 fuel
      (by norm_num [IntType.max, Width.bits]) hf
    rw [if_neg (by norm_num [IntType.max, Width.bits])] at h
    rw [show (10 : Int) = ((10 : Nat) : Int) from rfl, h]
  · have h := generic_power_native_nat Width.w128 true 2 127 fuel
      (by norm_num [IntType.max, Width.bits]) hf
    rw [if_neg (by norm_num [IntType.max, Width.bits])] at h
    rw [show (2 : Int) = ((2 : Nat) : Int) from rfl, h]

/-- C17 fails on the code: the tests `result > max / b` and `b > max / b` of
`generic_power` are written for a positive `b`.  For every signed native type
and every negative base, `integer_power(base,1)` returns Overflow although
`base ^ 1 = base` lies within the type's range; and over the signed 8-bit
type `integer_power(-100,2)` returns the wrapped value `16` although
`(-100)^2 = 10000` lies outside the range. -/
theorem integer_power_negative_base_misbehaves :
    (∀ (w : Width) (base : Int) (fuel : Nat), base < 0 → 0 < fuel →
      integer_power (IntType.native w true) fuel base 1
        = some (Expected.unexpected MathError.Overflow)) ∧
    integer_power (IntType.native Width.w8 true) 3 (-100) 2 = some (Expected.value 16) ∧
    (IntType.native Width.w8 true).max < (-100 : Int) ^ 2 := by
  refine ⟨fun w base fuel hneg hfuel => ?_, by decide, by norm_num [IntType.max, Width.bits]⟩
  obtain ⟨f, rfl⟩ : ∃ f, fuel = f + 1 := ⟨fuel - 1, by omega⟩
  have h3 := (IntType.native w true).three_le_max_of_bounded rfl
  have hdiv : Int.tdiv (IntType.native w true).max base ≤ 0 :=
    Int.tdiv_nonpos (by omega) (by omega)
  have hcond : base ≠ 0 ∧ (1 : Int) > Int.tdiv (IntType.native w true).max base :=
    ⟨by omega, by omega⟩
  rw [integer_power_other_base _ _ _ _ (by omega) (by omega) (by omega) (by omega)]
  unfold generic_power
  rw [if_neg (by decide), if_neg (by omega), IntType.wrap_one, generic_power_loop,
    if_pos (by decide), if_pos (by decide), if_pos hcond]

/-! ## The generic logarithm loop -/

/-- With `base ≥ 2` and `current ≥ 1` the loop adds `floor(log_base current)`
to the counter. -/
theorem generic_log_loop_spec (T : IntType) (base : Nat) (hbase : 2 ≤ base) :
    ∀ (fuel current log : Nat), current < fuel → 1 ≤ current →
      (T.is_bounded = true → (current : Int) ≤ T.max) →
      log + Nat.log base current < uint_modulus →
      generic_log_loop T fuel (base : Int) (current : Int) log
        = some (Expected.value ((log + Nat.log base current : Nat) : Int)) := by
  intro fuel
  induction fuel with
  | zero => intro current log hf; omega
  | succ f ih =>
    intro current log hf h1 hmax hlog
    by_cases hge : base ≤ current
    · have hge' : (current : Int) ≥ (base : Int) := by exact_mod_cast hge
      have hstep : Nat.log base current = Nat.log base (current / base) + 1 :=
        Nat.log_of_one_lt_of_le (by omega) hge
      have hdivpos : 1 ≤ current / base := Nat.div_pos hge (by omega)
      have hdivlt : current / base < current := Nat.div_lt_self (by omega) (by omega)
      have hdiv : Int.tdiv (current : Int) (base : Int) = ((current / base : Nat) : Int) :=
        (Int.ofNat_tdiv current base).symm
      have hw : T.wrap ((current / base : Nat) : Int) = ((current / base : Nat) : Int) := by
        apply T.wrap_natCast
        intro hb
        have h2 := hmax hb
        have h3 : ((current / base : Nat) : Int) ≤ (current : Int) := by
          exact_mod_cast hdivlt.le
        omega
      have hlog1 : (log + 1) % uint_modulus = log + 1 := Nat.mod_eq_of_lt (by omega)
      rw [generic_log_loop, if_pos hge', hdiv, hw, hlog1,
        ih (current / base) (log + 1) (by omega) hdivpos
          (fun hb => by
            have h2 := hmax hb
            have h3 : ((current / base : Nat) : Int) ≤ (current : Int) := by
              exact_mod_cast hdivlt.le
            omega)
          (by omega), hstep]
      congr 3
      omega
    · have hlt : ¬ ((current : Int) ≥ (base : Int)) := by
        intro h
        exact hge (by exact_mod_cast h)
      rw [generic_log_loop, if_neg hlt, Nat.log_of_lt (by omega), Nat.add_zero]

theorem log_lt_128 (base n : Nat) (hbase : 2 ≤ base) (hn : 1 ≤ n) (h : n < 2 ^ 128) :
    Nat.log base n < 128 := by
  apply Nat.log_lt_of_lt_pow (by omega)
  exact lt_of_lt_of_le h (Nat.pow_le_pow_left hbase 128)

theorem native_max_lt_two_pow_128 (w : Width) (sgn : Bool) :
    (IntType.native w sgn).max < 2 ^ 128 := by
  cases w <;> cases sgn <;> norm_num [IntType.max, Width.bits]

/-- On a native type, a base `≥ 2` and `1 ≤ n ≤ max(T)`, `generic_log` returns
`floor(log_base n)`. -/
theorem generic_log_native_nat (w : Width) (sgn : Bool) (base n fuel : Nat) (hbase : 2 ≤ base)
    (hn : 1 ≤ n) (hmax : (n : Int) ≤ (IntType.native w sgn).max) (hfuel : n < fuel) :
    generic_log (IntType.native w sgn) fuel (base : Int) (n : Int)
      = some (Expected.value ((Nat.log base n : Nat) : Int)) := by
  have hb1 : ¬ ((base : Int) ≤ 1) := by
    have : (2 : Int) ≤ (base : Int) := by exact_mod_cast hbase
    omega
  have hn0 : ¬ ((n : Int) ≤ 0) := by
    have : (1 : Int) ≤ (n : Int) := by exact_mod_cast hn
    omega
  have hlt : n < 2 ^ 128 := by
    have h1 := native_max_lt_two_pow_128 w sgn
    have h2 : (n : Int) < 2 ^ 128 := by omega
    exact_mod_cast h2
  unfold generic_log
  rw [if_neg hb1, if_neg hn0]
  by_cases h1 : n = 1
  · subst h1
    rw [if_pos Nat.cast_one, Nat.log_one_right]
    rfl
  · have h1' : ¬ ((n : Int) = 1) := by
      intro h
      exact h1 (by exact_mod_cast h)
    have hl := log_lt_128 base n hbase hn hlt
    have h := generic_log_loop_spec (IntType.native w sgn) base hbase fuel n 0 hfuel hn
      (fun _ => hmax) (by unfold uint_modulus; norm_num; omega)
    rw [if_neg h1']
    simpa using h

/-! ## The highest set bit -/

theorem size_eq_log_succ (n : Nat) (h : 1 ≤ n) : Nat.size n = Nat.log 2 n + 1 := by
  apply le_antisymm
  · exact Nat.size_le.mpr (Nat.lt_pow_succ_log_self (by decide) n)
  · exact Nat.lt_size.mpr (Nat.pow_log_le_self 2 (by omega))

theorem log_two_high_part (n : Nat) (h : 2 ^ 64 ≤ n) :
    Nat.log 2 (n / 2 ^ 64) + 64 = Nat.log 2 n := by
  have hpos : 1 ≤ n / 2 ^ 64 := Nat.div_pos h (by positivity)
  have h1 : 2 ^ Nat.log 2 (n / 2 ^ 64) ≤ n / 2 ^ 64 := Nat.pow_log_le_self 2 (by omega)
  have h2 : n / 2 ^ 64 < 2 ^ (Nat.log 2 (n / 2 ^ 64) + 1) :=
    Nat.lt_pow_succ_log_self (by decide) _
  symm
  apply Nat.log_eq_of_pow_le_of_lt_pow
  · calc 2 ^ (Nat.log 2 (n / 2 ^ 64) + 64)
        = 2 ^ Nat.log 2 (n / 2 ^ 64) * 2 ^ 64 := pow_add 2 _ 64
      _ ≤ n / 2 ^ 64 * 2 ^ 64 := Nat.mul_le_mul_right _ h1
      _ ≤ n := Nat.div_mul_le_self n _
  · have h3 : n < 2 ^ (Nat.log 2 (n / 2 ^ 64) + 1) * 2 ^ 64 :=
      (Nat.div_lt_iff_lt_mul (by positivity)).mp h2
    calc n < 2 ^ (Nat.log 2 (n / 2 ^ 64) + 1) * 2 ^ 64 := h3
      _ = 2 ^ (Nat.log 2 (n / 2 ^ 64) + 64 + 1) := by ring

theorem clz_low (x : Nat) (h1 : 1 ≤ x) (h : x < 2 ^ 64) :
    (63 : Int) - ((builtin_clzll x : Nat) : Int) = ((Nat.log 2 x : Nat) : Int) := by
  have hs := size_eq_log_succ x h1
  have hle : Nat.size x ≤ 64 := Nat.size_le.mpr h
  unfold builtin_clzll
  rw [Nat.cast_sub hle, hs]
  push_cast
  ring

theorem clz_high (n : Nat) (h1 : 2 ^ 64 ≤ n) (h : n < 2 ^ 128) :
    (127 : Int) - ((builtin_clzll (n / 2 ^ 64) : Nat) : Int) = ((Nat.log 2 n : Nat) : Int) := by
  have hpos : 1 ≤ n / 2 ^ 64 := Nat.div_pos h1 (by positivity)
  have hlt : n / 2 ^ 64 < 2 ^ 64 :=
    (Nat.div_lt_iff_lt_mul (by positivity)).mpr (by rw [← pow_add]; exact h)
  have h2 := clz_low (n / 2 ^ 64) hpos hlt
  have h3 := log_two_high_part n h1
  have h4 : ((Nat.log 2 (n / 2 ^ 64) + 64 : Nat) : Int) = ((Nat.log 2 n : Nat) : Int) := by
    rw [h3]
  push_cast at h4
  omega

theorem bit_scan_reverse_eq (x : Nat) (h1 : 1 ≤ x) : BitScanReverse64 x = Nat.log 2 x := by
  unfold BitScanReverse64
  rw [size_eq_log_succ x h1]
  rfl

theorem bit_width_sub_one (n : Nat) (h1 : 1 ≤ n) :
    ((bit_width n : Nat) : Int) - 1 = ((Nat.log 2 n : Nat) : Int) := by
  unfold bit_width
  rw [size_eq_log_succ n h1]
  push_cast
  ring

theorem generic_log_value_native (w : Width) (n fuel : Nat) (hn : 1 ≤ n)
    (hmax : (n : Int) ≤ (IntType.native w false).max) (hfuel : n < fuel) :
    generic_log_value (IntType.native w false) fuel (n : Int)
      = some (Expected.value ((Nat.log 2 n : Nat) : Int)) := by
  unfold generic_log_value
  have h := generic_log_native_nat w false 2 n fuel (le_refl 2) hn hmax hfuel
  rw [show ((2 : Nat) : Int) = 2 from rfl] at h
  rw [h]

/-- On an unsigned native type and `1 ≤ n ≤ max(T)`, `integer_log2` returns
`floor(log2 n)` whichever way the highest set bit is found. -/
theorem integer_log2_native_nat (scan : BitScan) (w : Width) (n fuel : Nat) (hn : 1 ≤ n)
    (hmax : (n : Int) ≤ (IntType.native w false).max) (hfuel : n < fuel) :
    integer_log2 scan (IntType.native w false) fuel (n : Int)
      = some (Expected.value ((Nat.log 2 n : Nat) : Int)) := by
  have hn0 : ¬ ((n : Int) = 0) := by
    have : (1 : Int) ≤ (n : Int) := by exact_mod_cast hn
    omega
  have hlt : n < 2 ^ 128 := by
    have h1 := native_max_lt_two_pow_128 w false
    have h2 : (n : Int) < 2 ^ 128 := by omega
    exact_mod_cast h2
  have hgen := generic_log_value_native w n fuel hn hmax hfuel
  unfold integer_log2
  rw [if_neg hn0, Int.toNat_ofNat]
  by_cases h128 : (IntType.native w false).is_uint128 = true
  · have hhigh : n / 2 ^ 64 % 2 ^ 64 = n / 2 ^ 64 :=
      Nat.mod_eq_of_lt ((Nat.div_lt_iff_lt_mul (by positivity)).mpr
        (by rw [← pow_add]; exact hlt))
    by_cases hh : n / 2 ^ 64 = 0
    · have hsmall : n < 2 ^ 64 := by
        by_contra hc
        have := Nat.div_pos (not_lt.mp hc) (by positivity : 0 < 2 ^ 64)
        omega
      have hlow : n % 2 ^ 64 = n := Nat.mod_eq_of_lt hsmall
      cases scan <;>
        simp only [if_pos h128, hh, Nat.zero_mod, ne_eq, not_true_eq_false, if_false, hlow,
          clz_low n hn hsmall, bit_scan_reverse_eq n hn, bit_width_sub_one n hn, hgen]
    · have hbig : 2 ^ 64 ≤ n := by
        by_contra hc
        exact hh (Nat.div_eq_of_lt (not_le.mp hc))
      have hpos : 1 ≤ n / 2 ^ 64 := Nat.div_pos hbig (by positivity)
      have hbsr : BitScanReverse64 (n / 2 ^ 64) + 64 = Nat.log 2 n := by
        rw [bit_scan_reverse_eq _ hpos, log_two_high_part n hbig]
      cases scan <;>
        simp only [if_pos h128, hhigh, hh, ne_eq, not_false_eq_true, if_true,
          clz_high n hbig hlt, hbsr, bit_width_sub_one n hn, hgen]
  · have hfits : (IntType.native w false).fits_unsigned_long_long = true := by
      cases w
      · rfl
      · rfl
      · rfl
      · rfl
      · exact absurd rfl h128
      · exact absurd rfl h128
    have hsmall : n < 2 ^ 64 := by
      have h2 : (n : Int) < 2 ^ 64 := by
        cases w
        · norm_num [IntType.max, Width.bits] at hmax; omega
        · norm_num [IntType.max, Width.bits] at hmax; omega
        · norm_num [IntType.max, Width.bits] at hmax; omega
        · norm_num [IntType.max, Width.bits] at hmax; omega
        · exact absurd rfl h128
        · exact absurd rfl h128
      exact_mod_cast h2
    have hlow : n % 2 ^ 64 = n := Nat.mod_eq_of_lt hsmall
    cases scan <;>
      simp only [if_neg h128, hfits, if_true, hlow,
        clz_low n hn hsmall, bit_scan_reverse_eq n hn, bit_width_sub_one n hn, hgen]

/-- On the signed 128-bit type that `std::is_signed_v` does not report
signed, `integer_log` passes `n` to `integer_log2` unconverted; no 64-bit or
`uint128_t` branch applies and `floor(log2 n)` comes from `std::bit_width` or
from the generic loop. -/
theorem integer_log2_int128_iso (scan : BitScan) (n fuel : Nat) (hn : 1 ≤ n)
    (hmax : (n : Int) ≤ (IntType.native Width.w128_iso true).max) (hfuel : n < fuel) :
    integer_log2 scan (IntType.native Width.w128_iso true) fuel (n : Int)
      = some (Expected.value ((Nat.log 2 n : Nat) : Int)) := by
  have hn0 : ¬ ((n : Int) = 0) := by
    have : (1 : Int) ≤ (n : Int) := by exact_mod_cast hn
    omega
  have hgen := generic_log_native_nat Width.w128_iso true 2 n fuel (le_refl 2) hn hmax hfuel
  rw [show ((2 : Nat) : Int) = 2 from rfl] at hgen
  have hu : ¬ ((IntType.native Width.w128_iso true).is_uint128 = true) := by
    simp [IntType.is_uint128]
  have hf : ¬ ((IntType.native Width.w128_iso true).fits_unsigned_long_long = true) := by
    simp [IntType.fits_unsigned_long_long, Width.bits]
  unfold integer_log2
  rw [if_neg hn0, Int.toNat_ofNat]
  cases scan <;>
    simp only [if_neg hu, if_neg hf, bit_width_sub_one n hn, hgen]

/-! ## The binary search of integer_log10 -/

theorem uint_modulus_eq : uint_modulus = 4294967296 := by
  norm_num [uint_modulus]

/-- With `10 ^ log ≤ n < 10 ^ (high + 1)`, every index below `low` known to
hold a power `≤ n` and `log` the last of them, the search returns
`floor(log10 n)`. -/
theorem integer_log10_loop_spec (n : Nat) (hn : 1 ≤ n) :
    ∀ (fuel low high log : Nat), high + 1 - low < fuel → low ≤ high + 1 → high ≤ 38 →
      10 ^ log ≤ n → ((low = 0 ∧ log = 0) ∨ low = log + 1) → n < 10 ^ (high + 1) →
      integer_log10_loop fuel n low high log
        = some (Expected.value ((Nat.log 10 n : Nat) : Int)) := by
  intro fuel
  induction fuel with
  | zero => intro low high log hf; omega
  | succ f ih =>
    intro low high log hf hlh hhigh hlog hinv hup
    by_cases hle : low ≤ high
    · have hmid : (low + ((high + uint_modulus - low) % uint_modulus) / 2) % uint_modulus
          = low + (high - low) / 2 := by
        rw [uint_modulus_eq]; omega
      have hmid_le : low + (high - low) / 2 ≤ high := by omega
      have htab : POWERS_OF_10.getD (low + (high - low) / 2) 0 = 10 ^ (low + (high - low) / 2) :=
        POWERS_OF_10_getD _ (by omega)
      have hne : ¬ (10 ^ (low + (high - low) / 2) = 0) := by positivity
      rw [integer_log10_loop, if_pos hle]
      simp only [hmid, htab, hne, if_false]
      by_cases hcmp : n ≥ 10 ^ (low + (high - low) / 2)
      · have hnext : (low + (high - low) / 2 + 1) % uint_modulus = low + (high - low) / 2 + 1 := by
          rw [uint_modulus_eq]; omega
        rw [if_pos hcmp, hnext]
        exact ih _ high _ (by omega) (by omega) hhigh hcmp (Or.inr rfl) hup
      · have hmid_pos : 1 ≤ low + (high - low) / 2 := by
          by_contra hc
          have h0 : low + (high - low) / 2 = 0 := by omega
          rw [h0] at hcmp
          exact hcmp (by simpa using hn)
        have hprev : (low + (high - low) / 2 + uint_modulus - 1) % uint_modulus
            = low + (high - low) / 2 - 1 := by
          rw [uint_modulus_eq]; omega
        have hup' : n < 10 ^ (low + (high - low) / 2 - 1 + 1) := by
          rw [Nat.sub_add_cancel hmid_pos]
          exact not_le.mp hcmp
        rw [if_neg hcmp, hprev]
        exact ih low _ log (by omega) (by omega) (by omega) hlog hinv hup'
    · have hlow : low = log + 1 := by
        rcases hinv with ⟨h0, _⟩ | h1
        · omega
        · exact h1
      have hhl : high = log := by omega
      rw [integer_log10_loop, if_neg hle]
      rw [hhl] at hup
      rw [Nat.log_eq_of_pow_le_of_lt_pow hlog hup]

/-- For `1 ≤ n < 2^128`, `integer_log10` returns `floor(log10 n)`. -/
theorem integer_log10_nat (n fuel : Nat) (hn : 1 ≤ n) (hlt : n < 2 ^ 128) (hfuel : 39 < fuel) :
    integer_log10 fuel (n : Int) = some (Expected.value ((Nat.log 10 n : Nat) : Int)) := by
  have hn0 : ¬ ((n : Int) ≤ 0) := by
    have : (1 : Int) ≤ (n : Int) := by exact_mod_cast hn
    omega
  have hcast : ((n : Int) % ((uint128_modulus : Nat) : Int)).toNat = n := by
    rw [← Int.natCast_mod, Int.toNat_ofNat]
    exact Nat.mod_eq_of_lt hlt
  unfold integer_log10
  rw [if_neg hn0, hcast, POWERS_OF_10_length]
  exact integer_log10_loop_spec n hn fuel 0 38 0 (by omega) (by omega) (le_refl _)
    (by simpa using hn) (Or.inl ⟨rfl, rfl⟩)
    (lt_trans hlt (by norm_num))

/-- On a native type, a base `≥ 2` and `1 ≤ n ≤ max(T)`, `integer_log` returns
`floor(log_base n)` on each of its three paths. -/
theorem integer_log_native_nat (scan : BitScan) (w : Width) (sgn : Bool) (base n fuel : Nat)
    (hbase : 2 ≤ base) (hn : 1 ≤ n) (hmax : (n : Int) ≤ (IntType.native w sgn).max)
    (hfuel : n < fuel) (hfuel' : 39 < fuel) :
    integer_log scan (IntType.native w sgn) fuel (base : Int) (n : Int)
      = some (Expected.value ((Nat.log base n : Nat) : Int)) := by
  have hb1 : ¬ ((base : Int) ≤ 1) := by
    have : (2 : Int) ≤ (base : Int) := by exact_mod_cast hbase
    omega
  have hn0 : ¬ ((n : Int) ≤ 0) := by
    have : (1 : Int) ≤ (n : Int) := by exact_mod_cast hn
    omega
  have hlt : n < 2 ^ 128 := by
    have h1 := native_max_lt_two_pow_128 w sgn
    have h2 : (n : Int) < 2 ^ 128 := by omega
    exact_mod_cast h2
  have hmaxu : (n : Int) ≤ (IntType.native w false).max := by
    cases sgn
    · exact hmax
    · have : (IntType.native w true).max ≤ (IntType.native w false).max := by
        cases w <;> norm_num [IntType.max, Width.bits]
      omega
  unfold integer_log
  rw [if_neg hb1, if_neg hn0]
  by_cases h2 : base = 2
  · subst h2
    rw [if_pos (show ((2 : Nat) : Int) = 2 from rfl)]
    cases sgn
    · rw [if_neg (by rw [IntType.is_signed_unsigned]; decide)]
      exact integer_log2_native_nat scan w n fuel hn hmax hfuel
    · by_cases hiso : w = Width.w128_iso
      · subst hiso
        rw [if_neg (by simp [IntType.is_signed])]
        exact integer_log2_int128_iso scan n fuel hn hmax hfuel
      · rw [if_pos (IntType.is_signed_signed w hiso)]
        have hw : (make_unsigned (IntType.native w true)).wrap (n : Int) = (n : Int) :=
          IntType.wrap_natCast (IntType.native w false) n (fun _ => hmaxu)
        rw [hw]
        exact integer_log2_native_nat scan w n fuel hn hmaxu hfuel
  · have h2' : ¬ ((base : Int) = 2) := fun h => h2 (by exact_mod_cast h)
    rw [if_neg h2']
    by_cases h10 : base = 10
    · subst h10
      rw [if_pos (show ((10 : Nat) : Int) = 10 from rfl)]
      exact integer_log10_nat n fuel hn hlt hfuel'
    · have h10' : ¬ ((base : Int) = 10) := fun h => h10 (by exact_mod_cast h)
      rw [if_neg h10']
      exact generic_log_native_nat w sgn base n fuel hbase hn hmax hfuel

/-! ## Specification theorems: logarithms -/

/-- C18: on every unsigned native type and every `n ≥ 1` of that type,
`integer_log2(n)` returns the unique `r` with `2^r ≤ n < 2^(r+1)`, whichever
bit-scan the build selects, and `integer_log2(0)` returns DomainError;
`integer_log2(1) = 0`, `integer_log2(1023) = 9`, `integer_log2(1024) = 10`. -/
theorem integer_log2_highest_set_bit (scan : BitScan) (w : Width) (n : Int) (fuel : Nat)
    (h1 : 1 ≤ n) (hmax : n ≤ (IntType.native w false).max) (hfuel : n.toNat < fuel) :
    (∃ r : Nat,
      integer_log2 scan (IntType.native w false) fuel n = some (Expected.value (r : Int)) ∧
      2 ^ r ≤ n.toNat ∧ n.toNat < 2 ^ (r + 1) ∧
      ∀ r' : Nat, 2 ^ r' ≤ n.toNat → n.toNat < 2 ^ (r' + 1) → r' = r) ∧
    integer_log2 scan (IntType.native w false) fuel 0
      = some (Expected.unexpected MathError.DomainError) ∧
    (∀ (s : BitScan) (f : Nat), 1024 < f →
      integer_log2 s (IntType.native Width.w64 false) f 1 = some (Expected.value 0) ∧
      integer_log2 s (IntType.native Width.w64 false) f 1023 = some (Expected.value 9) ∧
      integer_log2 s (IntType.native Width.w64 false) f 1024 = some (Expected.value 10) ∧
      integer_log2 s (IntType.native Width.w128 false) f 1024 = some (Expected.value 10)) := by
  obtain ⟨m, rfl⟩ := Int.eq_ofNat_of_zero_le (le_trans (by decide) h1)
  have hm : 1 ≤ m := by exact_mod_cast h1
  rw [Int.toNat_ofNat] at hfuel
  simp only [Int.toNat_ofNat]
  refine ⟨⟨Nat.log 2 m, integer_log2_native_nat scan w m fuel hm hmax hfuel,
    Nat.pow_log_le_self 2 (by omega), Nat.lt_pow_succ_log_self (by decide) m,
    fun r' h1' h2' => (Nat.log_eq_of_pow_le_of_lt_pow h1' h2').symm⟩, ?_,
    fun s f hf => ⟨?_, ?_, ?_, ?_⟩⟩
  · unfold integer_log2
    rw [if_pos rfl]
  · have h := integer_log2_native_nat s Width.w64 1 f (le_refl 1)
      (by norm_num [IntType.max, Width.bits]) (by omega)
    rw [Nat.log_one_right] at h
    exact h
  · have h := integer_log2_native_nat s Width.w64 1023 f (by decide)
      (by norm_num [IntType.max, Width.bits]) (by omega)
    rw [Nat.log_eq_of_pow_le_of_lt_pow (by norm_num : 2 ^ 9 ≤ 1023) (by norm_num)] at h
    exact h
  · have h := integer_log2_native_nat s Width.w64 1024 f (by decide)
      (by norm_num [IntType.max, Width.bits]) (by omega)
    rw [Nat.log_eq_of_pow_le_of_lt_pow (by norm_num : 2 ^ 10 ≤ 1024) (by norm_num)] at h
    exact h
  · have h := integer_log2_native_nat s Width.w128 1024 f (by decide)
      (by norm_num [IntType.max, Width.bits]) (by omega)
    rw [Nat.log_eq_of_pow_le_of_lt_pow (by norm_num : 2 ^ 10 ≤ 1024) (by norm_num)] at h
    exact h

theorem integer_log2_highest_set_bit_witness :
    (1 : Int) ≤ 1023 ∧ (1023 : Int) ≤ (IntType.native Width.w32 false).max ∧
    (1023 : Int).toNat < 1024 ∧
    ∃ r : Nat,
      integer_log2 BitScan.builtin_clz (IntType.native Width.w32 false) 1024 1023
        = some (Expected.value (r : Int)) ∧
      2 ^ r ≤ (1023 : Int).toNat ∧ (1023 : Int).toNat < 2 ^ (r + 1) ∧
      ∀ r' : Nat, 2 ^ r' ≤ (1023 : Int).toNat → (1023 : Int).toNat < 2 ^ (r' + 1) → r' = r :=
  ⟨by decide, by norm_num [IntType.max, Width.bits], by decide,
    (integer_log2_highest_set_bit BitScan.builtin_clz Width.w32 1023 1024 (by decide)
      (by norm_num [IntType.max, Width.bits]) (by decide)).1⟩

/-- C19: for every `n` of a native type, so `n < 2^128`: when `n ≥ 1`,
`integer_log10(n)` returns the unique `r` with `10^r ≤ n < 10^(r+1)`, and when
`n ≤ 0` it returns DomainError; `integer_log10(9) = 0`,
`integer_log10(10) = 1`, `integer_log10(999) = 2`, `integer_log10(1000) = 3`. -/
theorem integer_log10_floor (n : Int) (fuel : Nat) (hlt : n < 2 ^ 128) (hfuel : 39 < fuel) :
    (1 ≤ n → ∃ r : Nat,
      integer_log10 fuel n = some (Expected.value (r : Int)) ∧
      10 ^ r ≤ n.toNat ∧ n.toNat < 10 ^ (r + 1) ∧
      ∀ r' : Nat, 10 ^ r' ≤ n.toNat → n.toNat < 10 ^ (r' + 1) → r' = r) ∧
    (n ≤ 0 → integer_log10 fuel n = some (Expected.unexpected MathError.DomainError)) ∧
    (integer_log10 fuel 9 = some (Expected.value 0) ∧
      integer_log10 fuel 10 = some (Expected.value 1) ∧
      integer_log10 fuel 999 = some (Expected.value 2) ∧
      integer_log10 fuel 1000 = some (Expected.value 3)) := by
  refine ⟨fun h1 => ?_, fun h0 => ?_, ?_, ?_, ?_, ?_⟩
  · obtain ⟨m, rfl⟩ := Int.eq_ofNat_of_zero_le (le_trans (by decide) h1)
    have hm : 1 ≤ m := by exact_mod_cast h1
    have hmlt : m < 2 ^ 128 := by exact_mod_cast hlt
    simp only [Int.toNat_ofNat]
    exact ⟨Nat.log 10 m, integer_log10_nat m fuel hm hmlt hfuel,
      Nat.pow_log_le_self 10 (by omega), Nat.lt_pow_succ_log_self (by decide) m,
      fun r' h1' h2' => (Nat.log_eq_of_pow_le_of_lt_pow h1' h2').symm⟩
  · unfold integer_log10
    rw [if_pos h0]
  · have h := integer_log10_nat 9 fuel (by decide) (by norm_num) hfuel
    rw [Nat.log_eq_of_pow_le_of_lt_pow (by norm_num : 10 ^ 0 ≤ 9) (by norm_num)] at h
    exact h
  · have h := integer_log10_nat 10 fuel (by decide) (by norm_num) hfuel
    rw [Nat.log_eq_of_pow_le_of_lt_pow (by norm_num : 10 ^ 1 ≤ 10) (by norm_num)] at h
    exact h
  · have h := integer_log10_nat 999 fuel (by decide) (by norm_num) hfuel
    rw [Nat.log_eq_of_pow_le_of_lt_pow (by norm_num : 10 ^ 2 ≤ 999) (by norm_num)] at h
    exact h
  · have h := integer_log10_nat 1000 fuel (by decide) (by norm_num) hfuel
    rw [Nat.log_eq_of_pow_le_of_lt_pow (by norm_num : 10 ^ 3 ≤ 1000) (by norm_num)] at h
    exact h

theorem integer_log10_floor_witness :
    (999 : Int) < 2 ^ 128 ∧ 39 < 40 ∧ (1 : Int) ≤ 999 ∧
    integer_log10 40 999 = some (Expected.value 2) ∧
    integer_log10 40 0 = some (Expected.unexpected MathError.DomainError) :=
  ⟨by norm_num, by decide, by decide,
    (integer_log10_floor 999 40 (by norm_num) (by decide)).2.2.2.2.1,
    (integer_log10_floor 0 40 (by norm_num) (by decide)).2.1 (le_refl 0)⟩

/-- C20: on every native type, every base `≥ 2` and every `n ≥ 1` of that
type, `integer_log(base,n)` returns the unique `r` with
`base^r ≤ n < base^(r+1)`, the powers taken over the mathematical integers;
`integer_log(7,342) = 2` and `integer_log(7,343) = 3`. -/
theorem integer_log_floor (scan : BitScan) (w : Width) (sgn : Bool) (base n : Int)
    (fuel : Nat) (hbase : 2 ≤ base) (hn : 1 ≤ n) (hmax : n ≤ (IntType.native w sgn).max)
    (hfuel : n.toNat < fuel) (hfuel' : 39 < fuel) :
    (∃ r : Nat,
      integer_log scan (IntType.native w sgn) fuel base n = some (Expected.value (r : Int)) ∧
      base ^ r ≤ n ∧ n < base ^ (r + 1) ∧
      ∀ r' : Nat, base ^ r' ≤ n → n < base ^ (r' + 1) → r' = r) ∧
    (∀ (s : BitScan) (f : Nat), 343 < f →
      integer_log s (IntType.native Width.w128 true) f 7 342 = some (Expected.value 2) ∧
      integer_log s (IntType.native Width.w128 true) f 7 343 = some (Expected.value 3)) := by
  obtain ⟨m, rfl⟩ := Int.eq_ofNat_of_zero_le (le_trans (by decide) hn)
  obtain ⟨b, rfl⟩ := Int.eq_ofNat_of_zero_le (le_trans (by decide) hbase)
  have hm : 1 ≤ m := by exact_mod_cast hn
  have hb : 2 ≤ b := by exact_mod_cast hbase
  rw [Int.toNat_ofNat] at hfuel
  refine ⟨⟨Nat.log b m, integer_log_native_nat scan w sgn b m fuel hb hm hmax hfuel hfuel',
    ?_, ?_, fun r' h1' h2' => ?_⟩, fun s f hf => ⟨?_, ?_⟩⟩
  · exact_mod_cast Nat.pow_log_le_self b (by omega : m ≠ 0)
  · exact_mod_cast Nat.lt_pow_succ_log_self (by omega : 1 < b) m
  · have h1n : b ^ r' ≤ m := by exact_mod_cast h1'
    have h2n : m < b ^ (r' + 1) := by exact_mod_cast h2'
    exact (Nat.log_eq_of_pow_le_of_lt_pow h1n h2n).symm
  · have h := integer_log_native_nat s Width.w128 true 7 342 f (by decide) (by decide)
      (by norm_num [IntType.max, Width.bits]) (by omega) (by omega)
    rw [Nat.log_eq_of_pow_le_of_lt_pow (by norm_num : 7 ^ 2 ≤ 342) (by norm_num)] at h
    exact h
  · have h := integer_log_native_nat s Width.w128 true 7 343 f (by decide) (by decide)
      (by norm_num [IntType.max, Width.bits]) (by omega) (by omega)
    rw [Nat.log_eq_of_pow_le_of_lt_pow (by norm_num : 7 ^ 3 ≤ 343) (by norm_num)] at h
    exact h

theorem integer_log_floor_witness :
    (2 : Int) ≤ 7 ∧ (1 : Int) ≤ 343 ∧ (343 : Int) ≤ (IntType.native Width.w32 true).max ∧
    (343 : Int).toNat < 344 ∧ 39 < 344 ∧
    ∃ r : Nat,
      integer_log BitScan.builtin_clz (IntType.native Width.w32 true) 344 7 343
        = some (Expected.value (r : Int)) ∧
      (7 : Int) ^ r ≤ 343 ∧ (343 : Int) < 7 ^ (r + 1) ∧
      ∀ r' : Nat, (7 : Int) ^ r' ≤ 343 → (343 : Int) < 7 ^ (r' + 1) → r' = r :=
  ⟨by decide, by decide, by norm_num [IntType.max, Width.bits], by decide, by decide,
    (integer_log_floor BitScan.builtin_clz Width.w32 true 7 343 344 (by decide) (by decide)
      (by norm_num [IntType.max, Width.bits]) (by decide) (by decide)).1⟩

/-! ## Specification theorems: domain of the logarithm, agreement of the variants -/

/-- C22: for every unsigned native type and every `n` with `1 ≤ n ≤ max(T)`
(so `n < 2^128`), `integer_log2(n)` and `generic_log(2,n)` return the same
value, `integer_log10(n)` and `generic_log(10,n)` return the same value, and
`integer_log(base,n)` for base 2 or 10 returns what the generic
repeated-division loop returns. -/
theorem logarithm_variants_agree (scan : BitScan) (w : Width) (n : Int) (fuel : Nat)
    (h1 : 1 ≤ n) (hmax : n ≤ (IntType.native w false).max) (hfuel : n.toNat < fuel)
    (hfuel' : 39 < fuel) :
    (integer_log2 scan (IntType.native w false) fuel n
        = generic_log (IntType.native w false) fuel 2 n ∧
      integer_log10 fuel n = generic_log (IntType.native w false) fuel 10 n ∧
      integer_log scan (IntType.native w false) fuel 2 n
        = generic_log (IntType.native w false) fuel 2 n ∧
      integer_log scan (IntType.native w false) fuel 10 n
        = generic_log (IntType.native w false) fuel 10 n) ∧
    (∃ r : Nat, generic_log (IntType.native w false) fuel 2 n
        = some (Expected.value (r : Int))) ∧
    (∃ r : Nat, generic_log (IntType.native w false) fuel 10 n
        = some (Expected.value (r : Int))) := by
  obtain ⟨m, rfl⟩ := Int.eq_ofNat_of_zero_le (le_trans (by decide) h1)
  have hm : 1 ≤ m := by exact_mod_cast h1
  rw [Int.toNat_ofNat] at hfuel
  have hlt : m < 2 ^ 128 := by
    have h1 := native_max_lt_two_pow_128 w false
    have h2 : (m : Int) < 2 ^ 128 := by omega
    exact_mod_cast h2
  have g2 := generic_log_native_nat w false 2 m fuel (le_refl 2) hm hmax hfuel
  have g10 := generic_log_native_nat w false 10 m fuel (by decide) hm hmax hfuel
  have l2 := integer_log2_native_nat scan w m fuel hm hmax hfuel
  have l10 := integer_log10_nat m fuel hm hlt hfuel'
  have i2 := integer_log_native_nat scan w false 2 m fuel (le_refl 2) hm hmax hfuel hfuel'
  have i10 := integer_log_native_nat scan w false 10 m fuel (by decide) hm hmax hfuel hfuel'
  rw [show ((2 : Nat) : Int) = 2 from rfl] at g2 i2
  rw [show ((10 : Nat) : Int) = 10 from rfl] at g10 i10
  refine ⟨⟨?_, ?_, ?_, ?_⟩, ⟨_, g2⟩, ⟨_, g10⟩⟩
  · rw [l2, g2]
  · rw [l10, g10]
  · rw [i2, g2]
  · rw [i10, g10]

theorem logarithm_variants_agree_witness :
    (1 : Int) ≤ 1000 ∧ (1000 : Int) ≤ (IntType.native Width.w64 false).max ∧
    (1000 : Int).toNat < 1001 ∧ 39 < 1001 ∧
    integer_log2 BitScan.builtin_clz (IntType.native Width.w64 false) 1001 1000
      = generic_log (IntType.native Width.w64 false) 1001 2 1000 ∧
    integer_log10 1001 1000 = generic_log (IntType.native Width.w64 false) 1001 10 1000 :=
  ⟨by decide, by norm_num [IntType.max, Width.bits], by decide, by decide,
    (logarithm_variants_agree BitScan.builtin_clz Width.w64 1000 1001 (by decide)
      (by norm_num [IntType.max, Width.bits]) (by decide) (by decide)).1.1,
    (logarithm_variants_agree BitScan.builtin_clz Width.w64 1000 1001 (by decide)
      (by norm_num [IntType.max, Width.bits]) (by decide) (by decide)).1.2.1⟩

/-! ## Specification theorems: the tables -/

/-- C25: each of the four power tables is exact and tight: the tables of the
bases 2, 3, 5, 10 have the lengths 128, 81, 56, 39, entry `i` is `b^i` for
every index, so no entry is the sentinel `0`, and `b^N` exceeds `2^128 - 1`. -/
theorem power_tables_exact_and_tight :
    (POWERS_OF_2.length = 128 ∧ POWERS_OF_3.length = 81 ∧
      POWERS_OF_5.length = 56 ∧ POWERS_OF_10.length = 39) ∧
    (∀ i : Nat,
      (i < 128 → POWERS_OF_2.getD i 0 = 2 ^ i ∧ POWERS_OF_2.getD i 0 ≠ 0) ∧
      (i < 81 → POWERS_OF_3.getD i 0 = 3 ^ i ∧ POWERS_OF_3.getD i 0 ≠ 0) ∧
      (i < 56 → POWERS_OF_5.getD i 0 = 5 ^ i ∧ POWERS_OF_5.getD i 0 ≠ 0) ∧
      (i < 39 → POWERS_OF_10.getD i 0 = 10 ^ i ∧ POWERS_OF_10.getD i 0 ≠ 0)) ∧
    (2 ^ 128 - 1 < 2 ^ 128 ∧ 2 ^ 128 - 1 < 3 ^ 81 ∧
      2 ^ 128 - 1 < 5 ^ 56 ∧ 2 ^ 128 - 1 < 10 ^ 39) := by
  refine ⟨⟨POWERS_OF_2_length, POWERS_OF_3_length, POWERS_OF_5_length, POWERS_OF_10_length⟩,
    fun i => ⟨fun h => ?_, fun h => ?_, fun h => ?_, fun h => ?_⟩,
    by norm_num, by norm_num, by norm_num, by norm_num⟩
  · rw [POWERS_OF_2_getD i h]; exact ⟨rfl, by positivity⟩
  · rw [POWERS_OF_3_getD i h]; exact ⟨rfl, by positivity⟩
  · rw [POWERS_OF_5_getD i h]; exact ⟨rfl, by positivity⟩
  · rw [POWERS_OF_10_getD i h]; exact ⟨rfl, by positivity⟩

/-- C26: the factorial table is exact: it has 34 entries, entry `i` is `i!`
for every `0 ≤ i < 34`, and no generator step `table[i-1] * i` reaches
`2^128`, so none wraps. -/
theorem factorial_table_exact :
    FACTORIALS_LUT.length = 34 ∧
    (∀ i : Nat, i < 34 → FACTORIALS_LUT.getD i 0 = i.factorial) ∧
    (∀ i : Nat, 1 ≤ i → i < 34 → FACTORIALS_LUT.getD (i - 1) 0 * i < 2 ^ 128) := by
  refine ⟨FACTORIALS_LUT_length, FACTORIALS_LUT_getD, fun i h1 h => ?_⟩
  rw [FACTORIALS_LUT_getD (i - 1) (by omega)]
  have hmul : (i - 1).factorial * i = i.factorial := by
    rw [mul_comm]; exact Nat.mul_factorial_pred (by omega)
  rw [hmul]
  have hle : i.factorial ≤ Nat.factorial 33 := Nat.factorial_le (by omega)
  have h33 : Nat.factorial 33 < 2 ^ 128 := by norm_num [Nat.factorial]
  omega

/-! ## Specification theorems: the power/log round trip -/

theorem integer_log_base_10 (scan : BitScan) (T : IntType) (fuel : Nat) (n : Int)
    (hn : 0 < n) : integer_log scan T fuel 10 n = integer_log10 fuel n := by
  unfold integer_log
  rw [if_neg (by decide), if_neg (by omega), if_neg (by decide), if_pos rfl]

/-- C23 fails on the code, by the defect of C14: the power of a table base
that does not fit `T` comes back as a wrapped value, not as Overflow.  Over
the signed 32-bit type, `n = 2000000000` and base 10 give
`integer_log = 9`, `integer_power(10,9) = 1000000000` and
`integer_power(10,10) = 1410065408`, both reported as values, yet
`n < 1410065408` is false.  Over the unsigned 8-bit type, `n = 200` and base
2 give `integer_log = 7`, `integer_power(2,7) = 128` and
`integer_power(2,8) = 0`. -/
theorem power_log_round_trip_broken_by_wrapped_power :
    ((2000000000 : Int) ≤ (IntType.native Width.w32 true).max ∧
      (∀ scan : BitScan,
        integer_log scan (IntType.native Width.w32 true) 40 10 2000000000
          = some (Expected.value 9)) ∧
      (∀ fuel : Nat,
        integer_power (IntType.native Width.w32 true) fuel 10 9
          = some (Expected.value 1000000000) ∧
        integer_power (IntType.native Width.w32 true) fuel 10 (9 + 1)
          = some (Expected.value 1410065408)) ∧
      ¬ ((2000000000 : Int) < 1410065408)) ∧
    ((200 : Int) ≤ (IntType.native Width.w8 false).max ∧
      (∀ scan : BitScan,
        integer_log scan (IntType.native Width.w8 false) 201 2 200
          = some (Expected.value 7)) ∧
      (∀ fuel : Nat,
        integer_power (IntType.native Width.w8 false) fuel 2 7 = some (Expected.value 128) ∧
        integer_power (IntType.native Width.w8 false) fuel 2 (7 + 1)
          = some (Expected.value 0)) ∧
      ¬ ((200 : Int) < 0)) := by
  refine ⟨⟨by norm_num [IntType.max, Width.bits], fun scan => ?_, fun fuel => ⟨?_, ?_⟩,
      by decide⟩,
    ⟨by norm_num [IntType.max, Width.bits], fun scan => ?_, fun fuel => ⟨?_, ?_⟩, by decide⟩⟩
  · rw [integer_log_base_10 _ _ _ _ (by decide)]
    have h := integer_log10_nat 2000000000 40 (by decide) (by norm_num) (by decide)
    rw [Nat.log_eq_of_pow_le_of_lt_pow (by norm_num : 10 ^ 9 ≤ 2000000000) (by norm_num)] at h
    exact h
  · rw [integer_power_base_10, if_pos (by decide)]
    norm_num [IntType.wrap, Width.bits]
  · rw [integer_power_base_10, if_pos (by decide)]
    norm_num [IntType.wrap, Width.bits]
  · have h := integer_log_native_nat scan Width.w8 false 2 200 201 (le_refl 2) (by decide)
      (by norm_num [IntType.max, Width.bits]) (by decide) (by decide)
    rw [Nat.log_eq_of_pow_le_of_lt_pow (by norm_num : 2 ^ 7 ≤ 200) (by norm_num)] at h
    exact h
  · rw [integer_power_base_2, if_pos (by decide)]
    norm_num [IntType.wrap, Width.bits]
  · rw [integer_power_base_2, if_pos (by decide)]
    norm_num [IntType.wrap, Width.bits]

/-! ## The error codes that can be returned -/

theorem unexpected_eq (a e : MathError)
    (h : some (Expected.unexpected a) = some (Expected.unexpected e)) : e = a := by
  have h1 := Option.some.inj h
  exact (Expected.unexpected.inj h1).symm

theorem value_ne_unexpected (v : Int) (e : MathError)
    (h : some (Expected.value v) = some (Expected.unexpected e)) : False := by
  have h1 := Option.some.inj h
  exact Expected.noConfusion h1

theorem constexpr_factorial_loop_error (T : IntType) (e : MathError) :
    ∀ (fuel : Nat) (n result i : Int),
      constexpr_factorial_loop T fuel n result i = some (Expected.unexpected e) →
      e = MathError.Overflow := by
  intro fuel
  induction fuel with
  | zero => intro n result i h; simp [constexpr_factorial_loop] at h
  | succ f ih =>
    intro n result i h
    rw [constexpr_factorial_loop] at h
    split_ifs at h
    · exact unexpected_eq _ _ h
    · exact ih _ _ _ h
    · exact (value_ne_unexpected _ _ h).elim

theorem permutations_loop_error (T : IntType) (e : MathError) :
    ∀ (fuel : Nat) (n k result i : Int),
      permutations_loop T fuel n k result i = some (Expected.unexpected e) →
      e = MathError.Overflow := by
  intro fuel
  induction fuel with
  | zero => intro n k result i h; simp [permutations_loop] at h
  | succ f ih =>
    intro n k result i h
    rw [permutations_loop] at h
    dsimp only at h
    split_ifs at h
    · exact unexpected_eq _ _ h
    · exact ih _ _ _ _ h
    · exact (value_ne_unexpected _ _ h).elim

theorem combinations_loop_error (T : IntType) (e : MathError) :
    ∀ (fuel : Nat) (n k result i : Int),
      combinations_loop T fuel n k result i = some (Expected.unexpected e) →
      e = MathError.Overflow := by
  intro fuel
  induction fuel with
  | zero => intro n k result i h; simp [combinations_loop] at h
  | succ f ih =>
    intro n k result i h
    rw [combinations_loop] at h
    dsimp only at h
    split_ifs at h
    · exact unexpected_eq _ _ h
    · exact ih _ _ _ _ h
    · exact (value_ne_unexpected _ _ h).elim

theorem generic_power_loop_error (T : IntType) (e : MathError) :
    ∀ (fuel : Nat) (result b : Int) (ex : Nat),
      generic_power_loop T fuel result b ex = some (Expected.unexpected e) →
      e = MathError.Overflow := by
  intro fuel
  induction fuel with
  | zero => intro result b ex h; simp [generic_power_loop] at h
  | succ f ih =>
    intro result b ex h
    rw [generic_power_loop] at h
    split_ifs at h
    all_goals first
      | exact unexpected_eq _ _ h
      | exact ih _ _ _ h
      | exact (value_ne_unexpected _ _ h).elim

theorem generic_log_loop_error (T : IntType) (e : MathError) :
    ∀ (fuel : Nat) (base current : Int) (log : Nat),
      generic_log_loop T fuel base current log = some (Expected.unexpected e) → False := by
  intro fuel
  induction fuel with
  | zero => intro base current log h; simp [generic_log_loop] at h
  | succ f ih =>
    intro base current log h
    rw [generic_log_loop] at h
    split_ifs at h
    · exact ih _ _ _ h
    · exact value_ne_unexpected _ _ h

theorem integer_log10_loop_error (e : MathError) :
    ∀ (fuel n128 low high log : Nat),
      integer_log10_loop fuel n128 low high log = some (Expected.unexpected e) → False := by
  intro fuel
  induction fuel with
  | zero => intro n128 low high log h; simp [integer_log10_loop] at h
  | succ f ih =>
    intro n128 low high log h
    rw [integer_log10_loop] at h
    dsimp only at h
    split_ifs at h
    all_goals first
      | exact ih _ _ _ _ h
      | exact value_ne_unexpected _ _ h

theorem generic_log_error (T : IntType) (fuel : Nat) (base n : Int) (e : MathError)
    (h : generic_log T fuel base n = some (Expected.unexpected e)) :
    e = MathError.DomainError := by
  unfold generic_log at h
  split_ifs at h
  · exact unexpected_eq _ _ h
  · exact unexpected_eq _ _ h
  · exact (value_ne_unexpected _ _ h).elim
  · exact (generic_log_loop_error T e _ _ _ _ h).elim

theorem generic_log_value_error (T : IntType) (fuel : Nat) (n : Int) (e : MathError)
    (h : generic_log_value T fuel n = some (Expected.unexpected e)) : False := by
  unfold generic_log_value at h
  split at h
  · exact value_ne_unexpected _ _ h
  · simp at h

theorem integer_log2_error (scan : BitScan) (T : IntType) (fuel : Nat) (n : Int)
    (e : MathError) (h : integer_log2 scan T fuel n = some (Expected.unexpected e)) :
    e = MathError.DomainError := by
  unfold integer_log2 at h
  cases scan <;> simp only [] at h <;> split_ifs at h
  all_goals first
    | exact unexpected_eq _ _ h
    | exact (value_ne_unexpected _ _ h).elim
    | exact (generic_log_value_error _ _ _ _ h).elim
    | exact generic_log_error _ _ _ _ _ h

theorem integer_log10_error (fuel : Nat) (n : Int) (e : MathError)
    (h : integer_log10 fuel n = some (Expected.unexpected e)) :
    e = MathError.DomainError := by
  unfold integer_log10 at h
  split_ifs at h
  · exact unexpected_eq _ _ h
  · exact (integer_log10_loop_error e _ _ _ _ _ h).elim

/-- C24: on every supported type, every input and every fuel, a failing
public operation reports only the documented codes: `factorial`,
`permutations` and `combinations` fail only with DomainError or Overflow,
`integer_power` only with Overflow, and `integer_log2`, `integer_log10` and
`integer_log` only with DomainError; none returns NoError, Underflow or
DivisionByZero. -/
theorem only_documented_error_codes (T : IntType) (fuel : Nat) (e : MathError) :
    (∀ n : Int, factorial T fuel n = some (Expected.unexpected e) →
      e = MathError.DomainError ∨ e = MathError.Overflow) ∧
    (∀ n k : Int, permutations T fuel n k = some (Expected.unexpected e) →
      e = MathError.DomainError ∨ e = MathError.Overflow) ∧
    (∀ n k : Int, combinations T fuel n k = some (Expected.unexpected e) →
      e = MathError.DomainError ∨ e = MathError.Overflow) ∧
    (∀ (base : Int) (exp : Nat), integer_power T fuel base exp = some (Expected.unexpected e) →
      e = MathError.Overflow) ∧
    (∀ (scan : BitScan) (n : Int), integer_log2 scan T fuel n = some (Expected.unexpected e) →
      e = MathError.DomainError) ∧
    (∀ n : Int, integer_log10 fuel n = some (Expected.unexpected e) →
      e = MathError.DomainError) ∧
    (∀ (scan : BitScan) (base n : Int),
      integer_log scan T fuel base n = some (Expected.unexpected e) →
      e = MathError.DomainError) ∧
    (factorial (IntType.native Width.w32 true) 0 (-1)
        = some (Expected.unexpected MathError.DomainError) ∧
      integer_power (IntType.native Width.w32 true) 0 2 128
        = some (Expected.unexpected MathError.Overflow) ∧
      integer_log10 0 0 = some (Expected.unexpected MathError.DomainError)) := by
  refine ⟨fun n h => ?_, fun n k h => ?_, fun n k h => ?_, fun base exp h => ?_,
    fun scan n h => integer_log2_error scan T fuel n e h,
    fun n h => integer_log10_error fuel n e h, fun scan base n h => ?_, ?_, ?_, ?_⟩
  · unfold factorial at h
    dsimp only at h
    split_ifs at h
    · exact Or.inl (unexpected_eq _ _ h)
    · exact Or.inr (unexpected_eq _ _ h)
    · exact (value_ne_unexpected _ _ h).elim
    · exact Or.inr (constexpr_factorial_loop_error T e _ _ _ _ h)
  · unfold permutations at h
    split_ifs at h
    · exact Or.inl (unexpected_eq _ _ h)
    · exact Or.inl (unexpected_eq _ _ h)
    · exact (value_ne_unexpected _ _ h).elim
    · exact Or.inr (permutations_loop_error T e _ _ _ _ _ h)
  · unfold combinations at h
    dsimp only at h
    split_ifs at h
    all_goals first
      | exact Or.inl (unexpected_eq _ _ h)
      | exact (value_ne_unexpected _ _ h).elim
      | exact Or.inr (combinations_loop_error T e _ _ _ _ _ h)
  · unfold integer_power at h
    split_ifs at h
    all_goals first
      | exact unexpected_eq _ _ h
      | exact (value_ne_unexpected _ _ h).elim
      | skip
    unfold generic_power at h
    split_ifs at h
    · exact (value_ne_unexpected _ _ h).elim
    · exact (value_ne_unexpected _ _ h).elim
    · exact generic_power_loop_error T e _ _ _ _ h
  · unfold integer_log at h
    split_ifs at h
    all_goals first
      | exact unexpected_eq _ _ h
      | exact integer_log2_error _ _ _ _ _ h
      | exact integer_log10_error _ _ _ h
      | exact generic_log_error _ _ _ _ _ h
  · decide
  · rw [integer_power_base_2, if_neg (by decide)]
  · decide

/-! ## The loop-only factorial and the table-accelerated factorial -/

/-- On a native type and `0 ≤ n ≤ max(T)`, the generic loop alone returns `n!`
when it fits and Overflow when it does not, at any type whose stores are exact
below its maximum. -/
theorem constexpr_factorial_spec_nat (T : IntType) (h3 : 3 ≤ T.max) (n fuel : Nat)
    (hfuel : n < fuel) :
    constexpr_factorial T fuel (n : Int) =
      some (if ((n.factorial : Nat) : Int) ≤ T.max
        then Expected.value ((n.factorial : Nat) : Int)
        else Expected.unexpected MathError.Overflow) := by
  by_cases hfit : ((n.factorial : Nat) : Int) ≤ T.max
  · rw [if_pos hfit]
    exact constexpr_factorial_value T n fuel hfit hfuel
  · rw [if_neg hfit]
    have h2 : 2 ≤ n := by
      by_contra hc
      have h01 : n = 0 ∨ n = 1 := by omega
      rcases h01 with h | h <;> subst h <;> simp at hfit <;> omega
    exact constexpr_factorial_overflow T n fuel h2 (by omega) hfuel

/-- C28: on every native type and every `n` of that type that is
non-negative, or negative with `std::is_signed_v` reporting the type signed,
the table-accelerated `factorial` of `combinatorics.hpp` and the loop-only
`factorial` of `math/factorial.hpp` return the identical result, the same
value or the same error.  For `int128_t` in a build where
`std::is_signed_v<int128_t>` is false they differ at negative `n`: the
loop-only one returns DomainError (its inner `n < 0` test is unconditional),
the table-accelerated one reads the table, outside its bounds at `n = -10` and
at entry 5 at `n = -2^64 + 5`, where it returns the value 120. -/
theorem factorial_table_and_loop_differ_without_signed_trait :
    (∀ (w : Width) (sgn : Bool) (n : Int) (fuel : Nat),
      (0 ≤ n ∨ (IntType.native w sgn).is_signed = sgn) →
      (IntType.native w sgn).inRange n → n.toNat < fuel →
      factorial (IntType.native w sgn) fuel n
        = factorial_hpp.factorial (IntType.native w sgn) fuel n ∧
      ∃ r, factorial (IntType.native w sgn) fuel n = some r) ∧
    (IntType.native Width.w128_iso true).is_signed = false ∧
    (IntType.native Width.w128_iso true).inRange (-10) ∧
    (IntType.native Width.w128_iso true).inRange (-(2 ^ 64) + 5) ∧
    (∀ fuel : Nat,
      factorial (IntType.native Width.w128_iso true) fuel (-10) = none ∧
      factorial_hpp.factorial (IntType.native Width.w128_iso true) fuel (-10)
        = some (Expected.unexpected MathError.DomainError)) ∧
    (∀ fuel : Nat,
      factorial (IntType.native Width.w128_iso true) fuel (-(2 ^ 64) + 5)
        = some (Expected.value 120) ∧
      factorial_hpp.factorial (IntType.native Width.w128_iso true) fuel (-(2 ^ 64) + 5)
        = some (Expected.unexpected MathError.DomainError)) := by
  have hhpp : ∀ (n : Int) (fuel : Nat), n < 0 →
      factorial_hpp.factorial (IntType.native Width.w128_iso true) fuel n
        = some (Expected.unexpected MathError.DomainError) := by
    intro n fuel hn
    unfold factorial_hpp.factorial factorial_hpp.constexpr_factorial
    rw [if_neg (by simp [IntType.is_signed]), if_pos hn]
  refine ⟨fun w sgn n fuel hcase hn hfuel => ?_, rfl, ?_, ?_,
    fun fuel => ⟨?_, hhpp _ fuel (by norm_num)⟩, fun fuel => ⟨?_, hhpp _ fuel (by norm_num)⟩⟩
  · have hr := inRange_native w sgn n hn
    by_cases hneg : n < 0
    · have hs : sgn = true := by
        cases sgn
        · have := hr.2 rfl; omega
        · rfl
      subst hs
      have htrait : (IntType.native w true).is_signed = true := by
        rcases hcase with h | h
        · omega
        · exact h
      have hc : (IntType.native w true).is_signed = true ∧ n < 0 := ⟨htrait, hneg⟩
      unfold factorial factorial_hpp.factorial
      rw [if_pos hc, if_pos hc]
      exact ⟨rfl, _, rfl⟩
    · obtain ⟨m, rfl⟩ := Int.eq_ofNat_of_zero_le (not_lt.mp hneg)
      rw [Int.toNat_ofNat] at hfuel
      have h1 := factorial_native_nat w sgn m fuel hr.1 hfuel
      have h2 := constexpr_factorial_spec_nat (IntType.native w sgn)
        ((IntType.native w sgn).three_le_max_of_bounded rfl) m fuel hfuel
      have hc : ¬ ((IntType.native w sgn).is_signed = true ∧ (m : Int) < 0) :=
        fun h => hneg h.2
      refine ⟨?_, _, h1⟩
      rw [h1]
      unfold factorial_hpp.factorial factorial_hpp.constexpr_factorial
      rw [if_neg hc, if_neg hneg]
      exact h2.symm
  · constructor <;> norm_num [IntType.min, IntType.max, IntType.is_bounded, Width.bits]
  · constructor <;> norm_num [IntType.min, IntType.max, IntType.is_bounded, Width.bits]
  · exact factorial_int128_iso_minus_ten fuel
  · exact factorial_int128_iso_wrapped_index fuel

/-! ## Wrap-around evaluation and evaluation over the unbounded integers -/

theorem unbounded_twin_max (T : IntType) : (unbounded_twin T).max = T.max := rfl

theorem unbounded_twin_is_signed (T : IntType) : (unbounded_twin T).is_signed = T.is_signed :=
  rfl

theorem unbounded_twin_not_bounded (T : IntType) (x : Int) :
    (unbounded_twin T).is_bounded = true → x ≤ (unbounded_twin T).max := by
  intro h
  simp [unbounded_twin, IntType.is_bounded] at h

/-- At any type whose stores are exact below its maximum, `permutations`
returns the falling product when it fits and Overflow when it does not. -/
theorem permutations_spec_nat (T : IntType) (h3 : 3 ≤ T.max) (n k fuel : Nat) (hk : k ≤ n)
    (hn : T.is_bounded = true → (n : Int) ≤ T.max) (hfuel : k < fuel) :
    permutations T fuel (n : Int) (k : Int) =
      some (if ((n.descFactorial k : Nat) : Int) ≤ T.max
        then Expected.value ((n.descFactorial k : Nat) : Int)
        else Expected.unexpected MathError.Overflow) := by
  have hneg : ¬ (T.is_signed = true ∧ ((n : Int) < 0 ∨ (k : Int) < 0)) := by
    rintro ⟨_, h | h⟩ <;> omega
  have hgt : ¬ ((k : Int) > (n : Int)) := by
    have : (k : Int) ≤ (n : Int) := by exact_mod_cast hk
    omega
  rcases Nat.eq_zero_or_pos k with h0 | hpos
  · subst h0
    have h1 : ((1 : Int)) ≤ T.max := by omega
    unfold permutations
    rw [if_neg hneg, if_neg hgt, if_pos Nat.cast_zero, IntType.wrap_one]
    simp only [Nat.descFactorial_zero, Nat.cast_one, h1, if_true]
  · have hk0 : ¬ ((k : Int) = 0) := by
      have : (0 : Int) < (k : Int) := by exact_mod_cast hpos
      omega
    have h := permutations_loop_spec T n k hk hn k 0 fuel
      (by omega) hfuel (by simp only [Nat.descFactorial_zero, Nat.cast_one]; omega)
    simp only [Nat.descFactorial_zero, Nat.cast_one, Nat.cast_zero] at h
    unfold permutations
    rw [if_neg hneg, if_neg hgt, if_neg hk0, IntType.wrap_one, IntType.wrap_zero]
    exact h

/-- At any type whose stores are exact below its maximum, `combinations`
returns `C(n,k)` when `C(n,k) min(k, n-k)` fits and Overflow when it does
not. -/
theorem combinations_spec_nat (T : IntType) (h3 : 3 ≤ T.max) (n k fuel : Nat) (hk : k ≤ n)
    (hn : T.is_bounded = true → (n : Int) ≤ T.max) (hfuel : k < fuel) :
    combinations T fuel (n : Int) (k : Int) =
      some (if ((n.choose k * min k (n - k) : Nat) : Int) ≤ T.max
        then Expected.value ((n.choose k : Nat) : Int)
        else Expected.unexpected MathError.Overflow) := by
  have hneg : ¬ (T.is_signed = true ∧ ((n : Int) < 0 ∨ (k : Int) < 0)) := by
    rintro ⟨_, h | h⟩ <;> omega
  have hgt : ¬ ((k : Int) > (n : Int)) := by
    have : (k : Int) ≤ (n : Int) := by exact_mod_cast hk
    omega
  have hhalf : Int.tdiv (n : Int) 2 = ((n / 2 : Nat) : Int) := by
    rw [Int.ofNat_tdiv]; rfl
  have hred : ∀ k' : Nat, 2 * k' ≤ n → k' < fuel →
      (if (k' : Int) = 0 then some (Expected.value (T.wrap 1))
        else combinations_loop T fuel (n : Int) (k' : Int) (T.wrap 1) (T.wrap 1)) =
      some (if ((n.choose k' * k' : Nat) : Int) ≤ T.max
        then Expected.value ((n.choose k' : Nat) : Int)
        else Expected.unexpected MathError.Overflow) := by
    intro k' h2k hf
    rcases Nat.eq_zero_or_pos k' with h0 | hpos
    · subst h0
      have h1 : ((0 : Int)) ≤ T.max := by omega
      rw [if_pos Nat.cast_zero, IntType.wrap_one]
      simp only [Nat.choose_zero_right, Nat.cast_one, mul_zero, Nat.cast_zero, h1, if_true]
    · have hk0 : ¬ ((k' : Int) = 0) := by
        have : (0 : Int) < (k' : Int) := by exact_mod_cast hpos
        omega
      have h := combinations_loop_spec T n k' h2k hn k' 0 fuel
        (by omega) hf (by simp only [Nat.choose_zero_right, Nat.cast_one]; omega)
        (by simp only [Nat.choose_zero_right, mul_zero, Nat.cast_zero]; omega)
      simp only [Nat.choose_zero_right, Nat.cast_one, zero_add] at h
      rw [if_neg hk0, IntType.wrap_one]
      exact h
  unfold combinations
  rw [if_neg hneg, if_neg hgt, hhalf]
  by_cases hc : (k : Int) > ((n / 2 : Nat) : Int)
  · have hc' : n / 2 < k := by exact_mod_cast hc
    have hsub : (n : Int) - (k : Int) = ((n - k : Nat) : Int) := by
      rw [Nat.cast_sub hk]
    have hw : T.wrap ((n : Int) - (k : Int)) = ((n - k : Nat) : Int) := by
      rw [hsub]
      apply IntType.wrap_natCast
      intro hb
      have h1 := hn hb
      have h2 : ((n - k : Nat) : Int) ≤ (n : Int) := by exact_mod_cast Nat.sub_le n k
      omega
    have hmin : min k (n - k) = n - k := min_eq_right (by omega)
    simp only [hc, if_true, hw]
    rw [hred (n - k) (by omega) (by omega), Nat.choose_symm hk, hmin]
  · have hc' : k ≤ n / 2 := by
      have : ¬ (n / 2 < k) := fun h => hc (by exact_mod_cast h)
      omega
    have hmin : min k (n - k) = k := min_eq_left (by omega)
    simp only [hc, if_false]
    rw [hred k (by omega) hfuel, hmin]

/-- C27: on every native type and non-negative arguments `0 ≤ k ≤ n` of
that type, a multiplication `result * term` of positive operands that the
test `result > max / term` lets through has its true product `≤ max(T)`, and
the generic factorial loop, `permutations` and `combinations` evaluated with
wrap-around stores return exactly what they return when every store is exact
(evaluation over the unbounded integers with the same maximum). -/
theorem overflow_detected_before_multiplying (w : Width) (sgn : Bool) (n k : Int)
    (fuel : Nat) (hk0 : 0 ≤ k) (hkn : k ≤ n) (hmax : n ≤ (IntType.native w sgn).max)
    (hfuel : n.toNat < fuel) :
    (∀ result term : Nat, 0 < result → 0 < term →
      ¬ ((result : Int) > Int.tdiv (IntType.native w sgn).max (term : Int)) →
      ((result * term : Nat) : Int) ≤ (IntType.native w sgn).max) ∧
    (constexpr_factorial (IntType.native w sgn) fuel n
        = constexpr_factorial (unbounded_twin (IntType.native w sgn)) fuel n ∧
      ∃ r, constexpr_factorial (IntType.native w sgn) fuel n = some r) ∧
    (permutations (IntType.native w sgn) fuel n k
        = permutations (unbounded_twin (IntType.native w sgn)) fuel n k ∧
      ∃ r, permutations (IntType.native w sgn) fuel n k = some r) ∧
    (combinations (IntType.native w sgn) fuel n k
        = combinations (unbounded_twin (IntType.native w sgn)) fuel n k ∧
      ∃ r, combinations (IntType.native w sgn) fuel n k = some r) := by
  obtain ⟨k', rfl⟩ := Int.eq_ofNat_of_zero_le hk0
  obtain ⟨n', rfl⟩ := Int.eq_ofNat_of_zero_le (le_trans hk0 hkn)
  have hk : k' ≤ n' := by exact_mod_cast hkn
  rw [Int.toNat_ofNat] at hfuel
  have h3 := (IntType.native w sgn).three_le_max_of_bounded rfl
  have h3' : 3 ≤ (unbounded_twin (IntType.native w sgn)).max := h3
  have f1 := constexpr_factorial_spec_nat (IntType.native w sgn) h3 n' fuel hfuel
  have f2 := constexpr_factorial_spec_nat (unbounded_twin (IntType.native w sgn)) h3' n' fuel
    hfuel
  have p1 := permutations_spec_nat (IntType.native w sgn) h3 n' k' fuel hk (fun _ => hmax)
    (by omega)
  have p2 := permutations_spec_nat (unbounded_twin (IntType.native w sgn)) h3' n' k' fuel hk
    (unbounded_twin_not_bounded _ _) (by omega)
  have c1 := combinations_spec_nat (IntType.native w sgn) h3 n' k' fuel hk (fun _ => hmax)
    (by omega)
  have c2 := combinations_spec_nat (unbounded_twin (IntType.native w sgn)) h3' n' k' fuel hk
    (unbounded_twin_not_bounded _ _) (by omega)
  rw [unbounded_twin_max] at f2 p2 c2
  refine ⟨fun result term hr ht hpass => ?_, ⟨?_, _, f1⟩, ⟨?_, _, p1⟩, ⟨?_, _, c1⟩⟩
  · have hiff := overflow_check_iff (IntType.native w sgn).max result term hr ht
    have hnot : ¬ ((IntType.native w sgn).max < (result : Int) * (term : Int)) :=
      fun h => hpass (hiff.mpr h)
    push_cast
    omega
  · rw [f1, f2]
  · rw [p1, p2]
  · rw [c1, c2]

theorem overflow_detected_before_multiplying_witness :
    (0 : Int) ≤ 4 ∧ (4 : Int) ≤ 9 ∧ (9 : Int) ≤ (IntType.native Width.w8 true).max ∧
    (9 : Int).toNat < 10 ∧
    combinations (IntType.native Width.w8 true) 10 9 4
      = combinations (unbounded_twin (IntType.native Width.w8 true)) 10 9 4 ∧
    permutations (IntType.native Width.w8 true) 10 9 4
      = permutations (unbounded_twin (IntType.native Width.w8 true)) 10 9 4 :=
  ⟨by decide, by decide, by norm_num [IntType.max, Width.bits], by decide,
    (overflow_detected_before_multiplying Width.w8 true 9 4 10 (by decide) (by decide)
      (by norm_num [IntType.max, Width.bits]) (by decide)).2.2.2.1,
    (overflow_detected_before_multiplying Width.w8 true 9 4 10 (by decide) (by decide)
      (by norm_num [IntType.max, Width.bits]) (by decide)).2.2.1.1⟩

/-! ## The states of the combination loop -/

/-- One iteration of the loop body from the state `(C(n,j), j + 1)` on a
native type, with `2 (j + 1) ≤ n`: the term is `n - j`, and the state after
the iteration is `(C(n,j+1), j + 2)` unless the test returns Overflow. -/
theorem combinations_body_native (w : Width) (sgn : Bool) (n j : Nat) (h2 : 2 * (j + 1) ≤ n)
    (hmax : (n : Int) ≤ (IntType.native w sgn).max) :
    (IntType.native w sgn).wrap ((IntType.native w sgn).wrap ((n : Int) - ((j + 1 : Nat) : Int)) + 1)
      = ((n - j : Nat) : Int) ∧
    (¬ (((n.choose j : Nat) : Int) > Int.tdiv (IntType.native w sgn).max ((n - j : Nat) : Int)) →
      (IntType.native w sgn).wrap (Int.tdiv ((IntType.native w sgn).wrap
          (((n.choose j : Nat) : Int) * ((n - j : Nat) : Int))) ((j + 1 : Nat) : Int))
        = ((n.choose (j + 1) : Nat) : Int) ∧
      (IntType.native w sgn).wrap (((j + 1 : Nat) : Int) + 1) = ((j + 1 + 1 : Nat) : Int)) := by
  have hsub : (n : Int) - ((j + 1 : Nat) : Int) = ((n - (j + 1) : Nat) : Int) := by
    rw [Nat.cast_sub (by omega)]
  have hle : ∀ x : Nat, x ≤ n → ((x : Nat) : Int) ≤ (IntType.native w sgn).max := by
    intro x hx
    have : ((x : Nat) : Int) ≤ (n : Int) := by exact_mod_cast hx
    omega
  have hterm1 : (IntType.native w sgn).wrap ((n : Int) - ((j + 1 : Nat) : Int))
      = ((n - (j + 1) : Nat) : Int) := by
    rw [hsub]
    exact IntType.wrap_natCast _ _ (fun _ => hle _ (Nat.sub_le _ _))
  have hadd : ((n - (j + 1) : Nat) : Int) + 1 = ((n - j : Nat) : Int) := by
    have : n - (j + 1) + 1 = n - j := by omega
    rw [← this]; push_cast; ring
  have hterm : (IntType.native w sgn).wrap
      ((IntType.native w sgn).wrap ((n : Int) - ((j + 1 : Nat) : Int)) + 1)
      = ((n - j : Nat) : Int) := by
    rw [hterm1, hadd]
    exact IntType.wrap_natCast _ _ (fun _ => hle _ (Nat.sub_le _ _))
  refine ⟨hterm, fun hpass => ?_⟩
  have hmul : ((n.choose j : Nat) : Int) * ((n - j : Nat) : Int)
      = ((n.choose (j + 1) * (j + 1) : Nat) : Int) := by
    rw [Nat.choose_succ_right_eq]; push_cast; ring
  have hiff := overflow_check_iff (IntType.native w sgn).max (n.choose j) (n - j)
    (Nat.choose_pos (by omega)) (by omega)
  rw [hmul] at hiff
  have hfit : ((n.choose (j + 1) * (j + 1) : Nat) : Int) ≤ (IntType.native w sgn).max := by
    by_contra hc
    exact hpass (hiff.mpr (by omega))
  have hres : ((n.choose (j + 1) : Nat) : Int) ≤ (IntType.native w sgn).max := by
    have h1 : n.choose (j + 1) ≤ n.choose (j + 1) * (j + 1) :=
      Nat.le_mul_of_pos_right _ (Nat.succ_pos j)
    have h2 : ((n.choose (j + 1) : Nat) : Int) ≤ ((n.choose (j + 1) * (j + 1) : Nat) : Int) := by
      exact_mod_cast h1
    omega
  have hdiv : Int.tdiv ((n.choose (j + 1) * (j + 1) : Nat) : Int) ((j + 1 : Nat) : Int)
      = ((n.choose (j + 1) : Nat) : Int) := by
    rw [Nat.cast_mul]
    exact Int.mul_tdiv_cancel _ (by exact_mod_cast Nat.succ_ne_zero j)
  have hnext : (((j + 1 : Nat) : Int) + 1) = ((j + 1 + 1 : Nat) : Int) := by push_cast; ring
  refine ⟨?_, ?_⟩
  · rw [hmul, IntType.wrap_natCast _ _ (fun _ => hfit), hdiv,
      IntType.wrap_natCast _ _ (fun _ => hres)]
  · rw [hnext]
    exact IntType.wrap_natCast _ _ (fun _ => hle _ (by omega))

/-- After `j` iterations without Overflow, with `2 j ≤ n`, the loop is in the
state `(C(n,j), j + 1)`. -/
theorem combinations_loop_state_spec (w : Width) (sgn : Bool) (n : Nat)
    (hmax : (n : Int) ≤ (IntType.native w sgn).max) :
    ∀ (j : Nat) (r i : Int), 2 * j ≤ n →
      combinations_loop_state (IntType.native w sgn) (n : Int) j = some (r, i) →
      r = ((n.choose j : Nat) : Int) ∧ i = ((j + 1 : Nat) : Int) := by
  intro j
  induction j with
  | zero =>
    intro r i _ h
    rw [combinations_loop_state, IntType.wrap_one] at h
    have h1 := Option.some.inj h
    have h2 := Prod.mk.inj h1
    exact ⟨by rw [← h2.1]; simp, by rw [← h2.2]; simp⟩
  | succ j ih =>
    intro r i h2 h
    rw [combinations_loop_state] at h
    cases hs : combinations_loop_state (IntType.native w sgn) (n : Int) j with
    | none => rw [hs] at h; simp at h
    | some p =>
      obtain ⟨r0, i0⟩ := p
      obtain ⟨hr0, hi0⟩ := ih r0 i0 (by omega) hs
      subst hr0 hi0
      have hb := combinations_body_native w sgn n j h2 hmax
      rw [hs] at h
      dsimp only at h
      rw [hb.1] at h
      split_ifs at h with hcheck
      have hb2 := hb.2 hcheck
      rw [hb2.1, hb2.2] at h
      have h1 := Option.some.inj h
      have h3 := Prod.mk.inj h1
      exact ⟨h3.1.symm, h3.2.symm⟩

/-- The function `combinations_loop` passes through the states given by
`combinations_loop_state`: from the start, `j` iterations with `j ≤ k` lead to
the loop running from the `j`-th state. -/
theorem combinations_loop_reaches_state (w : Width) (sgn : Bool) (n k : Nat) (h2k : 2 * k ≤ n)
    (hmax : (n : Int) ≤ (IntType.native w sgn).max) :
    ∀ (j fuel : Nat) (r i : Int), j ≤ k →
      combinations_loop_state (IntType.native w sgn) (n : Int) j = some (r, i) →
      combinations_loop (IntType.native w sgn) (fuel + j) (n : Int) (k : Int)
          ((IntType.native w sgn).wrap 1) ((IntType.native w sgn).wrap 1)
        = combinations_loop (IntType.native w sgn) fuel (n : Int) (k : Int) r i := by
  intro j
  induction j with
  | zero =>
    intro fuel r i _ h
    rw [combinations_loop_state] at h
    have h1 := Prod.mk.inj (Option.some.inj h)
    rw [← h1.1, ← h1.2]
    rfl
  | succ j ih =>
    intro fuel r i hjk h
    rw [combinations_loop_state] at h
    cases hs : combinations_loop_state (IntType.native w sgn) (n : Int) j with
    | none => rw [hs] at h; simp at h
    | some p =>
      obtain ⟨r0, i0⟩ := p
      obtain ⟨hr0, hi0⟩ := combinations_loop_state_spec w sgn n hmax j r0 i0 (by omega) hs
      subst hr0 hi0
      have hguard : ((j + 1 : Nat) : Int) ≤ (k : Int) := by exact_mod_cast hjk
      rw [hs] at h
      dsimp only at h
      split_ifs at h with hcheck
      have h1 := Prod.mk.inj (Option.some.inj h)
      have hstep := ih (fuel + 1) _ _ (by omega) hs
      rw [show fuel + (j + 1) = fuel + 1 + j by omega, hstep, combinations_loop,
        if_pos hguard]
      dsimp only
      rw [if_neg hcheck, h1.1, h1.2]

/-- For `0 ≤ k ≤ n` with `min(k, n-k) > 0`, `combinations` is its loop run up
to `min(k, n-k)`. -/
theorem combinations_eq_loop (w : Width) (sgn : Bool) (n k fuel : Nat) (hk : k ≤ n)
    (hmax : (n : Int) ≤ (IntType.native w sgn).max) (hpos : 0 < min k (n - k)) :
    combinations (IntType.native w sgn) fuel (n : Int) (k : Int)
      = combinations_loop (IntType.native w sgn) fuel (n : Int) ((min k (n - k) : Nat) : Int)
          ((IntType.native w sgn).wrap 1) ((IntType.native w sgn).wrap 1) := by
  have hneg : ¬ ((IntType.native w sgn).is_signed = true ∧ ((n : Int) < 0 ∨ (k : Int) < 0)) := by
    rintro ⟨_, h | h⟩ <;> omega
  have hgt : ¬ ((k : Int) > (n : Int)) := by
    have : (k : Int) ≤ (n : Int) := by exact_mod_cast hk
    omega
  have hhalf : Int.tdiv (n : Int) 2 = ((n / 2 : Nat) : Int) := by
    rw [Int.ofNat_tdiv]; rfl
  have hne : ¬ (((min k (n - k) : Nat) : Int) = 0) := by
    have : (0 : Int) < ((min k (n - k) : Nat) : Int) := by exact_mod_cast hpos
    omega
  unfold combinations
  rw [if_neg hneg, if_neg hgt, hhalf]
  by_cases hc : (k : Int) > ((n / 2 : Nat) : Int)
  · have hc' : n / 2 < k := by exact_mod_cast hc
    have hsub : (n : Int) - (k : Int) = ((n - k : Nat) : Int) := by
      rw [Nat.cast_sub hk]
    have hw : (IntType.native w sgn).wrap ((n : Int) - (k : Int)) = ((n - k : Nat) : Int) := by
      rw [hsub]
      apply IntType.wrap_natCast
      intro _
      have h2 : ((n - k : Nat) : Int) ≤ (n : Int) := by exact_mod_cast Nat.sub_le n k
      omega
    have hmin : min k (n - k) = n - k := min_eq_right (by omega)
    rw [hmin] at hne ⊢
    simp only [hc, if_true, hw]
    rw [if_neg hne]
  · have hc' : k ≤ n / 2 := by
      have : ¬ (n / 2 < k) := fun h => hc (by exact_mod_cast h)
      omega
    have hmin : min k (n - k) = k := min_eq_left (by omega)
    rw [hmin] at hne ⊢
    simp only [hc, if_false]
    rw [if_neg hne]

/-! ## Specification theorems: exact division in combinations -/

/-- C29: in `combinations(n,k)` on a native type, for `0 ≤ k ≤ n` and every
loop step `i` with `1 ≤ i ≤ min(k, n-k)` that is reached, in the state
`(result, i)`: `result` is `C(n,i-1)`, the product `result * (n - i + 1)` is
exactly divisible by `i` with quotient `C(n,i)`, after the step `result` is
`C(n,i)`, and that state is the one the loop of `combinations` is in after
`i - 1` iterations. -/
theorem combinations_step_divides_exactly (w : Width) (sgn : Bool) (n k i fuel : Nat)
    (r ii : Int) (hk : k ≤ n) (hmax : (n : Int) ≤ (IntType.native w sgn).max)
    (hi1 : 1 ≤ i) (hi : i ≤ min k (n - k))
    (hreach : combinations_loop_state (IntType.native w sgn) (n : Int) (i - 1) = some (r, ii)) :
    (r = ((n.choose (i - 1) : Nat) : Int) ∧ ii = (i : Int)) ∧
    ((i : Int) ∣ r * ((n : Int) - (i : Int) + 1) ∧
      Int.tdiv (r * ((n : Int) - (i : Int) + 1)) (i : Int) = ((n.choose i : Nat) : Int)) ∧
    (∀ r' i' : Int,
      combinations_loop_state (IntType.native w sgn) (n : Int) i = some (r', i') →
      r' = ((n.choose i : Nat) : Int)) ∧
    combinations (IntType.native w sgn) (fuel + (i - 1)) (n : Int) (k : Int)
      = combinations_loop (IntType.native w sgn) fuel (n : Int) ((min k (n - k) : Nat) : Int)
          r ii := by
  have hmin2 : 2 * min k (n - k) ≤ n := by
    rcases Nat.le_total k (n - k) with h | h
    · rw [min_eq_left h]; omega
    · rw [min_eq_right h]; omega
  obtain ⟨j, rfl⟩ : ∃ j, i = j + 1 := ⟨i - 1, by omega⟩
  rw [Nat.add_sub_cancel] at hreach ⊢
  have hjn : 2 * (j + 1) ≤ n := le_trans (Nat.mul_le_mul_left 2 hi) hmin2
  have hpos : 0 < min k (n - k) := lt_of_lt_of_le (Nat.succ_pos j) hi
  have hjle : j ≤ min k (n - k) := le_trans (Nat.le_succ j) hi
  obtain ⟨hr, hii⟩ := combinations_loop_state_spec w sgn n hmax j r ii (by omega) hreach
  have hterm : (n : Int) - ((j + 1 : Nat) : Int) + 1 = ((n - j : Nat) : Int) := by
    omega
  have hmul : ((n.choose j : Nat) : Int) * ((n - j : Nat) : Int)
      = ((n.choose (j + 1) : Nat) : Int) * ((j + 1 : Nat) : Int) := by
    rw [← Nat.cast_mul, ← Nat.cast_mul, Nat.choose_succ_right_eq]
  refine ⟨⟨hr, hii⟩, ⟨?_, ?_⟩, fun r' i' h' => ?_, ?_⟩
  · rw [hr, hterm, hmul]
    exact Dvd.intro_left _ rfl
  · rw [hr, hterm, hmul]
    exact Int.mul_tdiv_cancel _ (by exact_mod_cast Nat.succ_ne_zero j)
  · exact (combinations_loop_state_spec w sgn n hmax (j + 1) r' i' hjn h').1
  · rw [combinations_eq_loop w sgn n k (fuel + j) hk hmax hpos]
    exact combinations_loop_reaches_state w sgn n (min k (n - k)) hmin2 hmax j fuel r ii
      hjle hreach

theorem combinations_step_divides_exactly_witness :
    4 ≤ 9 ∧ ((9 : Nat) : Int) ≤ (IntType.native Width.w64 true).max ∧ 1 ≤ 3 ∧
    3 ≤ min 4 (9 - 4) ∧
    combinations_loop_state (IntType.native Width.w64 true) ((9 : Nat) : Int) (3 - 1)
      = some (36, 3) ∧
    ((3 : Nat) : Int) ∣ (36 : Int) * (((9 : Nat) : Int) - ((3 : Nat) : Int) + 1) ∧
    Int.tdiv ((36 : Int) * (((9 : Nat) : Int) - ((3 : Nat) : Int) + 1)) ((3 : Nat) : Int)
      = ((Nat.choose 9 3 : Nat) : Int) :=
  ⟨by decide, by norm_num [IntType.max, Width.bits], by decide, by decide, by decide,
    (combinations_step_divides_exactly Width.w64 true 9 4 3 0 36 3 (by decide)
      (by norm_num [IntType.max, Width.bits]) (by decide) (by decide) (by decide)).2.1⟩

/-! ## The generic power-table generator -/

theorem getD_set_self (l : List Nat) (i a : Nat) (h : i < l.length) :
    (l.set i a).getD i 0 = a := by
  simp [List.getD_eq_getElem?_getD, h]

theorem getD_set_ne (l : List Nat) (i j a : Nat) (h : i ≠ j) :
    (l.set i a).getD j 0 = l.getD j 0 := by
  simp [List.getD_eq_getElem?_getD, List.getElem?_set_ne h]

theorem getD_replicate_zero (N j : Nat) : (List.replicate N 0).getD j 0 = 0 := by
  by_cases h : j < N
  · simp [List.getD_eq_getElem?_getD, List.getElem?_replicate, h]
  · simp [List.getD_eq_getElem?_getD, List.getElem?_replicate, h]

/-- The repository's generator, at `uint128_t`, is the 128-bit instance of the
generic one. -/
theorem generate_power_lut_loop_eq_T (base : Nat) :
    ∀ (count i cur : Nat) (table : List Nat),
      generate_power_lut_loop base count i cur table
        = generate_power_lut_T_loop 128 base count i cur table := by
  intro count
  induction count with
  | zero => intro i cur table; rfl
  | succ c ih =>
    intro i cur table
    rw [generate_power_lut_loop, generate_power_lut_T_loop, ih, ih]
    rfl

theorem generate_power_lut_eq_T (N base : Nat) :
    generate_power_lut N base = generate_power_lut_T 128 N base := by
  unfold generate_power_lut generate_power_lut_T
  rw [generate_power_lut_loop_eq_T]
  rfl

/-- Loop invariant of the generator for a width `w ≥ 1`: the entries below `i`
are the powers, all fitting, the entries from `i` on are zero, and
`current_power` is the last power stored. -/
theorem generate_power_lut_T_loop_spec (w base : Nat) (hw : 0 < w) (hb : 2 ≤ base) :
    ∀ (count i cur : Nat) (table : List Nat), table.length = i + count →
      (i = 0 → cur = 1) → (0 < i → cur = base ^ (i - 1) ∧ base ^ (i - 1) ≤ 2 ^ w - 1) →
      (∀ j, j < i → table.getD j 0 = base ^ j) → (∀ j, i ≤ j → table.getD j 0 = 0) →
      (generate_power_lut_T_loop w base count i cur table).length = i + count ∧
      ∀ j, j < i + count →
        (base ^ j ≤ 2 ^ w - 1 →
          (generate_power_lut_T_loop w base count i cur table).getD j 0 = base ^ j) ∧
        (2 ^ w - 1 < base ^ j →
          (generate_power_lut_T_loop w base count i cur table).getD j 0 = 0) := by
  have hpow2 : 2 ≤ 2 ^ w := by
    calc 2 = 2 ^ 1 := (pow_one 2).symm
      _ ≤ 2 ^ w := Nat.pow_le_pow_right (by decide) hw
  intro count
  induction count with
  | zero =>
    intro i cur table hlen h0 hpos hlow hhigh
    rw [generate_power_lut_T_loop]
    refine ⟨hlen, fun j hj => ⟨fun _ => hlow j (by omega), fun hbig => ?_⟩⟩
    have h1 : base ^ j ≤ base ^ (i - 1) := Nat.pow_le_pow_right (by omega) (by omega)
    have h2 := (hpos (by omega)).2
    omega
  | succ c ih =>
    intro i cur table hlen h0 hpos hlow hhigh
    rw [generate_power_lut_T_loop]
    by_cases hi : 0 < i
    · obtain ⟨hcur, hfit⟩ := hpos hi
      have hmul : cur * base = base ^ i := by
        rw [hcur, ← pow_succ]
        congr 1
        omega
      rw [if_pos hi]
      by_cases hcheck : cur > (2 ^ w - 1) / base
      · have hbig : 2 ^ w - 1 < base ^ i := by
          rw [← hmul]
          exact (Nat.div_lt_iff_lt_mul (by omega)).mp hcheck
        rw [if_pos hcheck]
        refine ⟨hlen, fun j hj => ?_⟩
        by_cases hji : j < i
        · refine ⟨fun _ => hlow j hji, fun hb2 => ?_⟩
          have h1 : base ^ j ≤ base ^ (i - 1) := Nat.pow_le_pow_right (by omega) (by omega)
          omega
        · refine ⟨fun hf => ?_, fun _ => hhigh j (by omega)⟩
          have h1 : base ^ i ≤ base ^ j := Nat.pow_le_pow_right (by omega) (by omega)
          omega
      · have hfit' : base ^ i ≤ 2 ^ w - 1 := by
          by_contra hc
          apply hcheck
          apply (Nat.div_lt_iff_lt_mul (by omega)).mpr
          rw [hmul]
          omega
        have hmod : (cur * base) % 2 ^ w = base ^ i := by
          rw [hmul]
          exact Nat.mod_eq_of_lt (by omega)
        rw [if_neg hcheck, hmod]
        have h := ih (i + 1) (base ^ i) (table.set i (base ^ i))
          (by rw [List.length_set]; omega) (by omega)
          (fun _ => ⟨by rw [Nat.add_sub_cancel], by rw [Nat.add_sub_cancel]; exact hfit'⟩)
          (fun j hj => by
            by_cases hji : j = i
            · subst hji
              exact getD_set_self _ _ _ (by omega)
            · rw [getD_set_ne _ _ _ _ (fun h => hji h.symm)]
              exact hlow j (by omega))
          (fun j hj => by
            rw [getD_set_ne _ _ _ _ (by omega)]
            exact hhigh j (by omega))
        rw [show i + 1 + c = i + (c + 1) by omega] at h
        exact h
    · have hi0 : i = 0 := by omega
      subst hi0
      have hc1 := h0 rfl
      subst hc1
      rw [if_neg hi]
      have h := ih 1 1 (table.set 0 1)
        (by rw [List.length_set]; omega) (by omega)
        (fun _ => ⟨by simp, by simp; omega⟩)
        (fun j hj => by
          have hj0 : j = 0 := by omega
          subst hj0
          rw [getD_set_self _ _ _ (by omega)]
          simp)
        (fun j hj => by
          rw [getD_set_ne _ _ _ _ (by omega)]
          exact hhigh j (by omega))
      rw [show 1 + c = 0 + (c + 1) by omega] at h
      exact h

/-- For the width `0` every value is reduced modulo `1`: the table stays
zero. -/
theorem generate_power_lut_T_loop_width_zero (base : Nat) :
    ∀ (count i : Nat) (table : List Nat), (∀ j, table.getD j 0 = 0) →
      (generate_power_lut_T_loop 0 base count i 0 table).length = table.length ∧
      ∀ j, (generate_power_lut_T_loop 0 base count i 0 table).getD j 0 = 0 := by
  intro count
  induction count with
  | zero =>
    intro i table hz
    rw [generate_power_lut_T_loop]
    exact ⟨rfl, hz⟩
  | succ c ih =>
    intro i table hz
    have hset : ∀ j, (table.set i 0).getD j 0 = 0 := by
      intro j
      by_cases hji : i = j
      · subst hji
        by_cases hl : i < table.length
        · exact getD_set_self _ _ _ hl
        · rw [List.set_eq_of_length_le (by omega)]
          exact hz i
      · rw [getD_set_ne _ _ _ _ hji]
        exact hz j
    have hcheck : ¬ (0 > (2 ^ 0 - 1) / base) := Nat.not_lt_zero _
    have hmod : (0 * base) % 2 ^ 0 = 0 := by simp
    rw [generate_power_lut_T_loop]
    by_cases hi : 0 < i
    · rw [if_pos hi, if_neg hcheck, hmod]
      have h := ih (i + 1) (table.set i 0) hset
      rw [List.length_set] at h
      exact h
    · rw [if_neg hi]
      have h := ih (i + 1) (table.set i 0) hset
      rw [List.length_set] at h
      exact h

/-- C30: for every element width `w`, table length `N` and base `≥ 2`, the
generator returns a table of length `N` whose entry `i` is `base^i` for every
index with `base^i ≤ 2^w - 1` and `0` for every later index; the repository's
generator at `uint128_t` is the instance `w = 128`. -/
theorem generate_power_lut_exact_then_zero (w N base : Nat) (hb : 2 ≤ base) :
    ((generate_power_lut_T w N base).length = N ∧
      ∀ i, i < N →
        (base ^ i ≤ 2 ^ w - 1 → (generate_power_lut_T w N base).getD i 0 = base ^ i) ∧
        (2 ^ w - 1 < base ^ i → (generate_power_lut_T w N base).getD i 0 = 0)) ∧
    generate_power_lut N base = generate_power_lut_T 128 N base := by
  refine ⟨?_, generate_power_lut_eq_T N base⟩
  rcases Nat.eq_zero_or_pos w with hw | hw
  · subst hw
    have h := generate_power_lut_T_loop_width_zero base N 0 (List.replicate N 0)
      (getD_replicate_zero N)
    rw [List.length_replicate] at h
    unfold generate_power_lut_T
    rw [show (1 % 2 ^ 0) = 0 from rfl]
    refine ⟨h.1, fun i _ => ⟨fun hfit => ?_, fun _ => h.2 i⟩⟩
    have hpos : 0 < base ^ i := by positivity
    simp at hfit
    omega
  · have hpow2 : 2 ≤ 2 ^ w := by
      calc 2 = 2 ^ 1 := (pow_one 2).symm
        _ ≤ 2 ^ w := Nat.pow_le_pow_right (by decide) hw
    have h := generate_power_lut_T_loop_spec w base hw hb N 0 1 (List.replicate N 0)
      (by rw [List.length_replicate]; omega) (fun _ => rfl) (fun h0 => absurd h0 (lt_irrefl 0))
      (fun j hj => absurd hj (Nat.not_lt_zero j)) (fun j _ => getD_replicate_zero N j)
    unfold generate_power_lut_T
    rw [Nat.mod_eq_of_lt (by omega : 1 < 2 ^ w)]
    rw [Nat.zero_add] at h
    exact h

theorem generate_power_lut_exact_then_zero_witness :
    2 ≤ 2 ∧
    (generate_power_lut_T 8 10 2).length = 10 ∧
    (generate_power_lut_T 8 10 2).getD 7 0 = 2 ^ 7 ∧
    (generate_power_lut_T 8 10 2).getD 8 0 = 0 :=
  ⟨le_refl 2, (generate_power_lut_exact_then_zero 8 10 2 (le_refl 2)).1.1,
    ((generate_power_lut_exact_then_zero 8 10 2 (le_refl 2)).1.2 7 (by decide)).1 (by decide),
    ((generate_power_lut_exact_then_zero 8 10 2 (le_refl 2)).1.2 8 (by decide)).2 (by decide)⟩

/-! ## Specification theorems: boundary arguments -/

/-- C31: on every native type and every `n ≥ 0` of that type, `n = max(T)`
included, `permutations(n,0)`, `combinations(n,0)` and `combinations(n,n)` are
the value `1`, whatever the fuel: no loop is entered and no Overflow is
returned. -/
theorem choose_nothing_or_everything_is_one (w : Width) (sgn : Bool) (n : Int) (fuel : Nat)
    (h0 : 0 ≤ n) (hmax : n ≤ (IntType.native w sgn).max) :
    permutations (IntType.native w sgn) fuel n 0 = some (Expected.value 1) ∧
    combinations (IntType.native w sgn) fuel n 0 = some (Expected.value 1) ∧
    combinations (IntType.native w sgn) fuel n n = some (Expected.value 1) ∧
    permutations (IntType.native w sgn) fuel (IntType.native w sgn).max 0
      = some (Expected.value 1) ∧
    combinations (IntType.native w sgn) fuel (IntType.native w sgn).max
      (IntType.native w sgn).max = some (Expected.value 1) := by
  have h3 := (IntType.native w sgn).three_le_max_of_bounded rfl
  have key : ∀ m : Int, 0 ≤ m → m ≤ (IntType.native w sgn).max →
      permutations (IntType.native w sgn) fuel m 0 = some (Expected.value 1) ∧
      combinations (IntType.native w sgn) fuel m 0 = some (Expected.value 1) ∧
      combinations (IntType.native w sgn) fuel m m = some (Expected.value 1) := by
    intro m hm0 hmmax
    have hneg : ¬ ((IntType.native w sgn).is_signed = true ∧ (m < 0 ∨ (0 : Int) < 0)) := by
      rintro ⟨_, h | h⟩ <;> omega
    have hneg' : ¬ ((IntType.native w sgn).is_signed = true ∧ (m < 0 ∨ m < 0)) := by
      rintro ⟨_, h | h⟩ <;> omega
    have hhalf : 0 ≤ Int.tdiv m 2 := Int.tdiv_nonneg hm0 (by decide)
    refine ⟨?_, ?_, ?_⟩
    · unfold permutations
      rw [if_neg hneg, if_neg (by omega), if_pos rfl, IntType.wrap_one]
    · have hc0 : ¬ ((0 : Int) > Int.tdiv m 2) := by omega
      unfold combinations
      rw [if_neg hneg, if_neg (by omega)]
      dsimp only
      rw [if_neg hc0, if_pos rfl, IntType.wrap_one]
    · unfold combinations
      rw [if_neg hneg', if_neg (by omega)]
      dsimp only
      by_cases hc : m > Int.tdiv m 2
      · rw [if_pos hc, sub_self, IntType.wrap_zero, if_pos rfl, IntType.wrap_one]
      · have hm : m = 0 := by
          have h2 : Int.tdiv m 2 = m / 2 := Int.tdiv_eq_ediv hm0 (by decide)
          rw [h2] at hc
          omega
        rw [if_neg hc, if_pos hm, IntType.wrap_one]
  obtain ⟨k1, k2, k3⟩ := key n h0 hmax
  obtain ⟨m1, _, m3⟩ := key (IntType.native w sgn).max (by omega) (le_refl _)
  exact ⟨k1, k2, k3, m1, m3⟩

theorem choose_nothing_or_everything_is_one_witness :
    (0 : Int) ≤ 100 ∧ (100 : Int) ≤ (IntType.native Width.w32 true).max ∧
    permutations (IntType.native Width.w32 true) 0 100 0 = some (Expected.value 1) ∧
    combinations (IntType.native Width.w32 true) 0 100 100 = some (Expected.value 1) :=
  ⟨by decide, by norm_num [IntType.max, Width.bits],
    (choose_nothing_or_everything_is_one Width.w32 true 100 0 (by decide)
      (by norm_num [IntType.max, Width.bits])).1,
    (choose_nothing_or_everything_is_one Width.w32 true 100 0 (by decide)
      (by norm_num [IntType.max, Width.bits])).2.2.1⟩

/-- C32: on every native type, `integer_power(base,0)` is the value `1` for
every base, the base `0` and the table bases 2, 3, 5, 10 included (their
index-0 entry `1` is not taken for the sentinel), and `integer_power(0,exp)`
is the value `0` for every `exp > 0`. -/
theorem integer_power_zero_exponent_and_zero_base (w : Width) (sgn : Bool) (fuel : Nat) :
    (∀ base : Int,
      integer_power (IntType.native w sgn) fuel base 0 = some (Expected.value 1)) ∧
    (∀ exp : Nat, 0 < exp →
      integer_power (IntType.native w sgn) fuel 0 exp = some (Expected.value 0)) ∧
    (integer_power (IntType.native w sgn) fuel 0 0 = some (Expected.value 1) ∧
      integer_power (IntType.native w sgn) fuel 2 0 = some (Expected.value 1) ∧
      integer_power (IntType.native w sgn) fuel 3 0 = some (Expected.value 1) ∧
      integer_power (IntType.native w sgn) fuel 5 0 = some (Expected.value 1) ∧
      integer_power (IntType.native w sgn) fuel 10 0 = some (Expected.value 1)) := by
  have key : ∀ base : Int,
      integer_power (IntType.native w sgn) fuel base 0 = some (Expected.value 1) := by
    intro base
    by_cases h2 : base = 2
    · subst h2
      rw [integer_power_base_2, if_pos (by decide)]
      simp [IntType.wrap_one]
    · by_cases h3 : base = 3
      · subst h3
        rw [integer_power_base_3, if_pos (by decide)]
        simp [IntType.wrap_one]
      · by_cases h5 : base = 5
        · subst h5
          rw [integer_power_base_5, if_pos (by decide)]
          simp [IntType.wrap_one]
        · by_cases h10 : base = 10
          · subst h10
            rw [integer_power_base_10, if_pos (by decide)]
            simp [IntType.wrap_one]
          · rw [integer_power_other_base _ _ _ _ h2 h3 h5 h10]
            unfold generic_power
            rw [if_pos rfl, IntType.wrap_one]
  refine ⟨key, fun exp hexp => ?_, key 0, key 2, key 3, key 5, key 10⟩
  rw [integer_power_other_base _ _ _ _ (by decide) (by decide) (by decide) (by decide)]
  unfold generic_power
  rw [if_neg (by omega), if_pos rfl, IntType.wrap_zero]

/-- C35: on every native type and every `0 ≤ k ≤ n` of that type, with
`m = min(k, n-k)`: `combinations(n,k)` returns Overflow if and only if
`m ≥ 1` and `m * C(n,m) > max(T)`, and otherwise it returns `C(n,k)`. -/
theorem combinations_exact_overflow_condition (w : Width) (sgn : Bool) (n k : Int)
    (fuel : Nat) (hk0 : 0 ≤ k) (hkn : k ≤ n) (hmax : n ≤ (IntType.native w sgn).max)
    (hfuel : k.toNat < fuel) :
    (combinations (IntType.native w sgn) fuel n k
        = some (Expected.unexpected MathError.Overflow) ↔
      (1 ≤ min k.toNat (n.toNat - k.toNat) ∧
        (IntType.native w sgn).max
          < ((min k.toNat (n.toNat - k.toNat)
              * n.toNat.choose (min k.toNat (n.toNat - k.toNat)) : Nat) : Int))) ∧
    (¬ (1 ≤ min k.toNat (n.toNat - k.toNat) ∧
        (IntType.native w sgn).max
          < ((min k.toNat (n.toNat - k.toNat)
              * n.toNat.choose (min k.toNat (n.toNat - k.toNat)) : Nat) : Int)) →
      combinations (IntType.native w sgn) fuel n k
        = some (Expected.value ((n.toNat.choose k.toNat : Nat) : Int))) := by
  obtain ⟨k', rfl⟩ := Int.eq_ofNat_of_zero_le hk0
  obtain ⟨n', rfl⟩ := Int.eq_ofNat_of_zero_le (le_trans hk0 hkn)
  have hk : k' ≤ n' := by exact_mod_cast hkn
  rw [Int.toNat_ofNat] at hfuel
  simp only [Int.toNat_ofNat]
  have h := combinations_native_nat w sgn n' k' fuel hk hmax hfuel
  have h3 := (IntType.native w sgn).three_le_max_of_bounded rfl
  have hsym : n'.choose (min k' (n' - k')) = n'.choose k' := by
    rcases Nat.le_total k' (n' - k') with hle | hle
    · rw [min_eq_left hle]
    · rw [min_eq_right hle, Nat.choose_symm hk]
  rw [hsym, Nat.mul_comm (min k' (n' - k')) (n'.choose k')]
  constructor
  · constructor
    · intro ho
      rw [h] at ho
      split_ifs at ho with hc
      · simp at ho
      · refine ⟨?_, by omega⟩
        by_contra hz
        have hz0 : min k' (n' - k') = 0 := by omega
        rw [hz0] at hc
        simp at hc
        omega
    · intro hbig
      rw [h, if_neg (by omega)]
  · intro hnot
    rw [h, if_pos]
    by_contra hc
    apply hnot
    refine ⟨?_, by omega⟩
    by_contra hz
    have hz0 : min k' (n' - k') = 0 := by omega
    rw [hz0] at hc
    simp at hc
    omega

theorem combinations_exact_overflow_condition_witness :
    (0 : Int) ≤ 31 ∧ (31 : Int) ≤ 62 ∧ (62 : Int) ≤ (IntType.native Width.w64 true).max ∧
    (31 : Int).toNat < 32 ∧
    (combinations (IntType.native Width.w64 true) 32 62 31
        = some (Expected.unexpected MathError.Overflow) ↔
      (1 ≤ min (31 : Int).toNat ((62 : Int).toNat - (31 : Int).toNat) ∧
        (IntType.native Width.w64 true).max
          < ((min (31 : Int).toNat ((62 : Int).toNat - (31 : Int).toNat)
              * (62 : Int).toNat.choose
                  (min (31 : Int).toNat ((62 : Int).toNat - (31 : Int).toNat)) : Nat) : Int))) :=
  ⟨by decide, by decide, by norm_num [IntType.max, Width.bits], by decide,
    (combinations_exact_overflow_condition Width.w64 true 62 31 32 (by decide) (by decide)
      (by norm_num [IntType.max, Width.bits]) (by decide)).1⟩

/-- C40: every entry of the factorial table fits the signed 128-bit type,
`FACTORIALS_LUT[i] ≤ 2^127 - 1` for every `0 ≤ i < 34`, so the table path of
`factorial`, which has no fit test for the 128-bit types, stores each entry
unchanged into either of them, whether or not `<type_traits>` recognises
them. -/
theorem factorial_table_fits_int128 :
    (∀ i : Nat, i < 34 → FACTORIALS_LUT.getD i 0 ≤ 2 ^ 127 - 1) ∧
    (∀ (w : Width) (sgn : Bool) (i : Nat), w.bits = 128 → i < 34 →
      (IntType.native w sgn).narrower_than_uint128 = false ∧
      (IntType.native w sgn).wrap ((FACTORIALS_LUT.getD i 0 : Nat) : Int)
        = ((FACTORIALS_LUT.getD i 0 : Nat) : Int)) := by
  have hfit : ∀ i : Nat, i < 34 →
      ((FACTORIALS_LUT.getD i 0 : Nat) : Int) ≤ (IntType.native Width.w128 true).max := by
    intro i hi
    rw [FACTORIALS_LUT_getD i hi]
    have h33 : i.factorial ≤ Nat.factorial 33 := Nat.factorial_le (by omega)
    have h33' : ((i.factorial : Nat) : Int) ≤ ((Nat.factorial 33 : Nat) : Int) := by
      exact_mod_cast h33
    have hs := factorial_33_le_int128_max
    omega
  refine ⟨fun i hi => ?_, fun w sgn i hw hi => ⟨?_, ?_⟩⟩
  · have h := hfit i hi
    have hm : (IntType.native Width.w128 true).max = 2 ^ 127 - 1 := rfl
    rw [hm] at h
    have h2 : ((FACTORIALS_LUT.getD i 0 : Nat) : Int) < 2 ^ 127 := by omega
    have h3 : FACTORIALS_LUT.getD i 0 < 2 ^ 127 := by exact_mod_cast h2
    omega
  · rcases Width.eq_of_bits_128 w hw with rfl | rfl <;> rfl
  · apply IntType.wrap_natCast
    intro _
    rw [FACTORIALS_LUT_getD i hi]
    exact factorial_le_max_128 w sgn hw i hi

/-! ## core: the literals -/

theorem constexpr_string_to_int_loop_value (T : IntType) :
    ∀ (p : List Char) (result : Nat),
      (∀ c ∈ p, c.toNat ≥ '0'.toNat ∧ c.toNat ≤ '9'.toNat) →
      (T.is_bounded = true →
        ((result * 10 ^ p.length
          + Nat.ofDigits 10 (p.reverse.map (fun c => c.toNat - '0'.toNat)) : Nat) : Int)
          ≤ T.max) →
      constexpr_string_to_int_loop T p (result : Int)
        = Thrown.returned ((result * 10 ^ p.length
          + Nat.ofDigits 10 (p.reverse.map (fun c => c.toNat - '0'.toNat)) : Nat) : Int) := by
  intro p
  induction p with
  | nil =>
    intro result _ _
    simp [constexpr_string_to_int_loop]
  | cons c p ih =>
    intro result hd hfit
    have h0 : '0'.toNat = 48 := rfl
    have h9 : '9'.toNat = 57 := rfl
    have hc := hd c (List.mem_cons_self c p)
    rw [h0, h9] at hc
    have hval : Nat.ofDigits 10 ((c :: p).reverse.map (fun c => c.toNat - '0'.toNat))
        = Nat.ofDigits 10 (p.reverse.map (fun c => c.toNat - '0'.toNat))
          + 10 ^ p.length * (c.toNat - 48) := by
      rw [List.reverse_cons, List.map_append, Nat.ofDigits_append]
      simp [h0]
    have htot : result * 10 ^ (c :: p).length
          + Nat.ofDigits 10 ((c :: p).reverse.map (fun c => c.toNat - '0'.toNat))
        = (result * 10 + (c.toNat - 48)) * 10 ^ p.length
          + Nat.ofDigits 10 (p.reverse.map (fun c => c.toNat - '0'.toNat)) := by
      rw [hval, List.length_cons, pow_succ]
      ring
    rw [htot] at hfit ⊢
    have hstep : ((c.toNat : Int) - (('0'.toNat : Nat) : Int))
        = (((c.toNat - 48 : Nat)) : Int) := by
      rw [h0]
      omega
    have hpos : 1 ≤ 10 ^ p.length := Nat.one_le_pow _ _ (by decide)
    have hle : result * 10 + (c.toNat - 48)
        ≤ (result * 10 + (c.toNat - 48)) * 10 ^ p.length
          + Nat.ofDigits 10 (p.reverse.map (fun c => c.toNat - '0'.toNat)) :=
      le_trans (Nat.le_mul_of_pos_right _ hpos) (Nat.le_add_right _ _)
    have hwrap : T.wrap ((result : Int) * 10 + ((c.toNat : Int) - (('0'.toNat : Nat) : Int)))
        = ((result * 10 + (c.toNat - 48) : Nat) : Int) := by
      rw [hstep]
      have : (result : Int) * 10 + ((c.toNat - 48 : Nat) : Int)
          = ((result * 10 + (c.toNat - 48) : Nat) : Int) := by push_cast; ring
      rw [this]
      apply IntType.wrap_natCast
      intro hb
      have := hfit hb
      have h2 : ((result * 10 + (c.toNat - 48) : Nat) : Int)
          ≤ (((result * 10 + (c.toNat - 48)) * 10 ^ p.length
            + Nat.ofDigits 10 (p.reverse.map (fun c => c.toNat - '0'.toNat)) : Nat) : Int) := by
        exact_mod_cast hle
      omega
    rw [constexpr_string_to_int_loop, if_pos (by omega), if_pos (by rw [h0, h9]; omega), hwrap]
    exact ih _ (fun c' hc' => hd c' (List.mem_cons_of_mem c hc')) hfit

theorem constexpr_string_to_int_loop_throws_iff (T : IntType) :
    ∀ (p : List Char) (result : Int), (∀ c ∈ p, c.toNat ≠ 0) →
      (constexpr_string_to_int_loop T p result = Thrown.domain_error ↔
        ∃ c ∈ p, ¬ (c.toNat ≥ '0'.toNat ∧ c.toNat ≤ '9'.toNat)) := by
  intro p
  induction p with
  | nil =>
    intro result _
    simp [constexpr_string_to_int_loop]
  | cons c p ih =>
    intro result hnul
    have hc := hnul c (List.mem_cons_self c p)
    rw [constexpr_string_to_int_loop, if_pos hc]
    by_cases hd : c.toNat ≥ '0'.toNat ∧ c.toNat ≤ '9'.toNat
    · rw [if_pos hd, ih _ (fun c' hc' => hnul c' (List.mem_cons_of_mem c hc'))]
      constructor
      · rintro ⟨c', hc', hn⟩
        exact ⟨c', List.mem_cons_of_mem c hc', hn⟩
      · rintro ⟨c', hc', hn⟩
        rcases List.mem_cons.mp hc' with rfl | hmem
        · exact absurd hd hn
        · exact ⟨c', hmem, hn⟩
    · rw [if_neg hd]
      exact ⟨fun _ => ⟨c, List.mem_cons_self c p, hd⟩, fun _ => rfl⟩


theorem constexpr_string_to_int_minus (T : IntType) (p : List Char) :
    constexpr_string_to_int T ('-' :: p)
      = match constexpr_string_to_int_loop T p (T.wrap 0) with
        | Thrown.returned result => Thrown.returned (T.wrap (-result))
        | Thrown.domain_error => Thrown.domain_error := by
  unfold constexpr_string_to_int
  simp only [List.head?_cons, List.tail_cons, if_true]

theorem constexpr_string_to_int_plain (T : IntType) (p : List Char)
    (h : p.head? ≠ some '-') :
    constexpr_string_to_int T p = constexpr_string_to_int_loop T p (T.wrap 0) := by
  unfold constexpr_string_to_int
  rw [if_neg h]
  cases constexpr_string_to_int_loop T p (T.wrap 0) with
  | returned result => simp only [if_neg h]
  | domain_error => rfl

theorem IntType.wrap_neg_signed (w : Width) (x : Int) (h0 : x ≤ 0)
    (h : -(IntType.native w true).max ≤ x) : (IntType.native w true).wrap x = x := by
  cases w <;> simp only [IntType.wrap, IntType.max, Width.bits] at h ⊢ <;> norm_num at h ⊢ <;>
    omega

theorem digits_head_ne_minus (digits : List Char)
    (hdig : ∀ c ∈ digits, c.toNat ≥ '0'.toNat ∧ c.toNat ≤ '9'.toNat) :
    digits.head? ≠ some '-' := by
  cases digits with
  | nil => simp
  | cons c p =>
    intro h
    simp only [List.head?_cons, Option.some.injEq] at h
    have hc := hdig c (List.mem_cons_self c p)
    rw [h] at hc
    exact absurd hc.1 (by decide)

/-- C33 (counterexample): at `T = uint128_t` the text `-5`, whose magnitude 5
is below `max(T)`, is not answered with the denoted integer `-5`: the function
returns `2^128 - 5`, the negation reduced into the unsigned type. -/
theorem constexpr_string_to_int_unsigned_minus_five :
    (5 : Int) ≤ uint128_t.max ∧
    constexpr_string_to_int uint128_t ['-', '5'] = Thrown.returned (2 ^ 128 - 5) ∧
    constexpr_string_to_int uint128_t ['-', '5'] ≠ Thrown.returned (-5) ∧
    operator_ui128 ['-', '5'] = Thrown.returned 340282366920938463463374607431768211451 := by
  have h : constexpr_string_to_int uint128_t ['-', '5'] = Thrown.returned (2 ^ 128 - 5) := by
    rw [constexpr_string_to_int_minus]
    simp [constexpr_string_to_int_loop, uint128_t, IntType.wrap, Width.bits]
  refine ⟨by norm_num [uint128_t, IntType.max, Width.bits], h, ?_, ?_⟩
  · rw [h]
    intro hc
    injection hc with hc
    norm_num at hc
  · unfold operator_ui128
    rw [h]
    norm_num

/-- C33: on every native type `T`, for a text made of an optional `-` and
decimal digits whose magnitude is at most `max(T)`, `constexpr_string_to_int`
returns the denoted integer stored into `T`: the integer itself when `T` is
signed or there is no `-`, its reduction modulo `2^bits` when `T` is unsigned
and a `-` is present.  On a text without NUL it throws `domain_error` if and
only if some character after the optional `-` is not a decimal digit.  The
literal `123_i128` is `123`. -/
theorem constexpr_string_to_int_parses_decimal (w : Width) (sgn : Bool) (neg : Bool)
    (digits : List Char) (minus : Bool) (body : List Char)
    (hdig : ∀ c ∈ digits, c.toNat ≥ '0'.toNat ∧ c.toNat ≤ '9'.toNat)
    (hmag : ((Nat.ofDigits 10 (digits.reverse.map (fun c => c.toNat - '0'.toNat)) : Nat) : Int)
      ≤ (IntType.native w sgn).max)
    (hnul : ∀ c ∈ body, c.toNat ≠ 0)
    (hbody : minus = false → body.head? ≠ some '-') :
    constexpr_string_to_int (IntType.native w sgn) ((if neg = true then ['-'] else []) ++ digits)
      = Thrown.returned ((IntType.native w sgn).wrap
          (if neg = true
            then -((Nat.ofDigits 10 (digits.reverse.map (fun c => c.toNat - '0'.toNat)) : Nat)
              : Int)
            else ((Nat.ofDigits 10 (digits.reverse.map (fun c => c.toNat - '0'.toNat)) : Nat)
              : Int))) ∧
    (sgn = true ∨ neg = false →
      constexpr_string_to_int (IntType.native w sgn)
          ((if neg = true then ['-'] else []) ++ digits)
        = Thrown.returned
          (if neg = true
            then -((Nat.ofDigits 10 (digits.reverse.map (fun c => c.toNat - '0'.toNat)) : Nat)
              : Int)
            else ((Nat.ofDigits 10 (digits.reverse.map (fun c => c.toNat - '0'.toNat)) : Nat)
              : Int))) ∧
    (constexpr_string_to_int (IntType.native w sgn)
          ((if minus = true then ['-'] else []) ++ body) = Thrown.domain_error ↔
      ∃ c ∈ body, ¬ (c.toNat ≥ '0'.toNat ∧ c.toNat ≤ '9'.toNat)) ∧
    operator_i128 ['1', '2', '3'] = Thrown.returned 123 := by
  have hloop := constexpr_string_to_int_loop_value (IntType.native w sgn) digits 0 hdig
    (by intro _; simpa using hmag)
  simp only [Nat.zero_mul, Nat.zero_add, Nat.cast_zero] at hloop
  have hmag0 : (IntType.native w sgn).wrap
      ((Nat.ofDigits 10 (digits.reverse.map (fun c => c.toNat - '0'.toNat)) : Nat) : Int)
      = ((Nat.ofDigits 10 (digits.reverse.map (fun c => c.toNat - '0'.toNat)) : Nat) : Int) :=
    IntType.wrap_natCast _ _ (fun _ => hmag)
  have hval : constexpr_string_to_int (IntType.native w sgn)
      ((if neg = true then ['-'] else []) ++ digits)
      = Thrown.returned ((IntType.native w sgn).wrap
          (if neg = true
            then -((Nat.ofDigits 10 (digits.reverse.map (fun c => c.toNat - '0'.toNat)) : Nat)
              : Int)
            else ((Nat.ofDigits 10 (digits.reverse.map (fun c => c.toNat - '0'.toNat)) : Nat)
              : Int))) := by
    cases neg with
    | true =>
      simp only [if_true, List.singleton_append]
      rw [constexpr_string_to_int_minus, IntType.wrap_zero, hloop]
    | false =>
      simp only [Bool.false_eq_true, if_false, List.nil_append]
      rw [constexpr_string_to_int_plain _ _ (digits_head_ne_minus digits hdig),
        IntType.wrap_zero, hloop, hmag0]
  refine ⟨hval, ?_, ?_, ?_⟩
  · intro hs
    rw [hval]
    cases neg with
    | false =>
      simp only [Bool.false_eq_true, if_false]
      rw [hmag0]
    | true =>
      simp only [if_true]
      rcases hs with hs | hs
      · subst hs
        rw [IntType.wrap_neg_signed w _ (by omega) (by omega)]
      · exact absurd hs (by decide)
  · cases minus with
    | true =>
      simp only [if_true, List.singleton_append]
      rw [constexpr_string_to_int_minus]
      rw [← constexpr_string_to_int_loop_throws_iff (IntType.native w sgn) body
        ((IntType.native w sgn).wrap 0) hnul]
      cases constexpr_string_to_int_loop (IntType.native w sgn) body
        ((IntType.native w sgn).wrap 0) <;> simp
    | false =>
      simp only [Bool.false_eq_true, if_false, List.nil_append]
      rw [constexpr_string_to_int_plain _ _ (hbody rfl)]
      exact constexpr_string_to_int_loop_throws_iff _ body _ hnul
  · unfold operator_i128
    rw [constexpr_string_to_int_plain _ _ (by decide)]
    simp [constexpr_string_to_int_loop, int128_t, IntType.wrap, Width.bits]

set_option maxRecDepth 100000 in
theorem constexpr_string_to_int_parses_decimal_witness :
    (∀ c ∈ ['4', '2'], c.toNat ≥ '0'.toNat ∧ c.toNat ≤ '9'.toNat) ∧
    constexpr_string_to_int (IntType.native Width.w8 true) ['-', '4', '2']
      = Thrown.returned (-42) ∧
    (constexpr_string_to_int (IntType.native Width.w8 true) ['-', '4', 'x']
      = Thrown.domain_error ↔
      ∃ c ∈ ['4', 'x'], ¬ (c.toNat ≥ '0'.toNat ∧ c.toNat ≤ '9'.toNat)) :=
  ⟨by decide,
    (constexpr_string_to_int_parses_decimal Width.w8 true true ['4', '2'] true ['4', 'x']
      (by decide) (by decide) (by decide) (by decide)).2.1 (Or.inl rfl),
    (constexpr_string_to_int_parses_decimal Width.w8 true true ['4', '2'] true ['4', 'x']
      (by decide) (by decide) (by decide) (by decide)).2.2.1⟩

/-- C34: the power-of-two literals: `n_pow2_i128` returns `2^n` for every
`n < 127` and throws `domain_error` for every `n ≥ 127`; `n_pow2_ui128`
returns `2^n` for every `n < 128` and throws `domain_error` for every
`n ≥ 128`; `10_pow2_i128` and `10_pow2_ui128` are `1024`. -/
theorem pow2_literals_range_checked (n : Nat) :
    operator_pow2_i128 n
      = (if n < 127 then Thrown.returned (2 ^ n) else Thrown.domain_error) ∧
    operator_pow2_ui128 n
      = (if n < 128 then Thrown.returned (2 ^ n) else Thrown.domain_error) ∧
    operator_pow2_i128 10 = Thrown.returned 1024 ∧
    operator_pow2_ui128 10 = Thrown.returned 1024 := by
  have hi : ∀ m : Nat, operator_pow2_i128 m
      = (if m < 127 then Thrown.returned (2 ^ m) else Thrown.domain_error) := by
    intro m
    unfold operator_pow2_i128
    by_cases h : m < 127
    · rw [if_neg (by omega), if_pos h, IntType.wrap_one, one_mul]
      have hp : (2 : Int) ^ m ≤ 2 ^ 126 := pow_le_pow_right₀ (by decide) (by omega)
      rw [IntType.wrap_eq_self _ _ (by positivity)]
      intro _
      have hm : int128_t.max = 2 ^ 127 - 1 := rfl
      rw [hm]
      have : (2 : Int) ^ 126 < 2 ^ 127 - 1 := by norm_num
      omega
    · rw [if_pos (by omega), if_neg h]
  have hu : ∀ m : Nat, operator_pow2_ui128 m
      = (if m < 128 then Thrown.returned (2 ^ m) else Thrown.domain_error) := by
    intro m
    unfold operator_pow2_ui128
    by_cases h : m < 128
    · rw [if_neg (by omega), if_pos h, IntType.wrap_one, one_mul]
      have hp : (2 : Int) ^ m ≤ 2 ^ 127 := pow_le_pow_right₀ (by decide) (by omega)
      rw [IntType.wrap_eq_self _ _ (by positivity)]
      intro _
      have hm : uint128_t.max = 2 ^ 128 - 1 := rfl
      rw [hm]
      have : (2 : Int) ^ 127 < 2 ^ 128 - 1 := by norm_num
      omega
    · rw [if_pos (by omega), if_neg h]
  refine ⟨hi n, hu n, ?_, ?_⟩
  · rw [hi 10]
    norm_num
  · rw [hu 10]
    norm_num

/-! ## The traced loops return what the loops return -/

theorem constexpr_factorial_loop_trace_snd (T : IntType) :
    ∀ (fuel : Nat) (n result i : Int),
      (constexpr_factorial_loop_trace T fuel n result i).2
        = constexpr_factorial_loop T fuel n result i := by
  intro fuel
  induction fuel with
  | zero => intro n result i; rfl
  | succ f ih =>
    intro n result i
    rw [constexpr_factorial_loop_trace, constexpr_factorial_loop]
    split_ifs <;> simp only [ih]

theorem constexpr_factorial_trace_snd (T : IntType) (fuel : Nat) (n : Int) :
    (constexpr_factorial_trace T fuel n).2 = constexpr_factorial T fuel n :=
  constexpr_factorial_loop_trace_snd T fuel n _ _

theorem permutations_loop_trace_snd (T : IntType) :
    ∀ (fuel : Nat) (n k result i : Int),
      (permutations_loop_trace T fuel n k result i).2
        = permutations_loop T fuel n k result i := by
  intro fuel
  induction fuel with
  | zero => intro n k result i; rfl
  | succ f ih =>
    intro n k result i
    rw [permutations_loop_trace, permutations_loop]
    dsimp only
    split_ifs <;> simp only [ih]

theorem permutations_trace_snd (T : IntType) (fuel : Nat) (n k : Int) :
    (permutations_trace T fuel n k).2 = permutations T fuel n k := by
  unfold permutations_trace permutations
  split_ifs <;> first | rfl | exact permutations_loop_trace_snd T fuel n k _ _

theorem combinations_loop_trace_snd (T : IntType) :
    ∀ (fuel : Nat) (n k result i : Int),
      (combinations_loop_trace T fuel n k result i).2
        = combinations_loop T fuel n k result i := by
  intro fuel
  induction fuel with
  | zero => intro n k result i; rfl
  | succ f ih =>
    intro n k result i
    rw [combinations_loop_trace, combinations_loop]
    dsimp only
    split_ifs <;> simp only [ih]

theorem combinations_trace_snd (T : IntType) (fuel : Nat) (n k : Int) :
    (combinations_trace T fuel n k).2 = combinations T fuel n k := by
  unfold combinations_trace combinations
  dsimp only
  split_ifs <;> first | rfl | exact combinations_loop_trace_snd T fuel n _ _ _

theorem generic_power_loop_trace_snd (T : IntType) :
    ∀ (fuel : Nat) (result b : Int) (e : Nat),
      (generic_power_loop_trace T fuel result b e).2
        = generic_power_loop T fuel result b e := by
  intro fuel
  induction fuel with
  | zero => intro result b e; rfl
  | succ f ih =>
    intro result b e
    rw [generic_power_loop_trace, generic_power_loop]
    split_ifs <;> simp only [ih]

theorem generic_power_trace_snd (T : IntType) (fuel : Nat) (base : Int) (exp : Nat) :
    (generic_power_trace T fuel base exp).2 = generic_power T fuel base exp := by
  unfold generic_power_trace generic_power
  split_ifs <;> first | rfl | exact generic_power_loop_trace_snd T fuel _ _ _

theorem generic_log_loop_trace_snd (T : IntType) :
    ∀ (fuel : Nat) (base current : Int) (log : Nat),
      (generic_log_loop_trace T fuel base current log).2
        = generic_log_loop T fuel base current log := by
  intro fuel
  induction fuel with
  | zero => intro base current log; rfl
  | succ f ih =>
    intro base current log
    rw [generic_log_loop_trace, generic_log_loop]
    split_ifs <;> simp only [ih]

theorem generic_log_trace_snd (T : IntType) (fuel : Nat) (base n : Int) :
    (generic_log_trace T fuel base n).2 = generic_log T fuel base n := by
  unfold generic_log_trace generic_log
  split_ifs <;> first | rfl | exact generic_log_loop_trace_snd T fuel _ _ _

theorem constexpr_factorial_check_divisors_mem (i : Int) (e : LoopEvent)
    (he : e ∈ constexpr_factorial_check_divisors i) : e = LoopEvent.divisor i ∧ 2 ≤ i := by
  unfold constexpr_factorial_check_divisors at he
  split_ifs at he with h
  · rw [List.mem_singleton] at he
    exact ⟨he, by omega⟩
  · simp at he

/-- From a state `(j!, j + 1)` whose running product fits, the factorial loop
divides only by counters `≥ 2` and increments only counters below the
maximum, storing the successor. -/
theorem constexpr_factorial_loop_trace_events (T : IntType) (hb : T.is_bounded = true)
    (n : Int) :
    ∀ (fuel j : Nat), ((j.factorial : Nat) : Int) ≤ T.max →
      ∀ e ∈ (constexpr_factorial_loop_trace T fuel n ((j.factorial : Nat) : Int)
          ((j + 1 : Nat) : Int)).1,
        (∀ d, e = LoopEvent.divisor d → 2 ≤ d) ∧
        (∀ b a, e = LoopEvent.increment b a → a = b + 1 ∧ b < T.max) := by
  intro fuel
  induction fuel with
  | zero =>
    intro j _ e he
    simp [constexpr_factorial_loop_trace] at he
  | succ f ih =>
    intro j hfit e he
    rw [constexpr_factorial_loop_trace] at he
    by_cases hle : ((j + 1 : Nat) : Int) ≤ n
    · rw [if_pos hle] at he
      have hdiv : ∀ e ∈ constexpr_factorial_check_divisors ((j + 1 : Nat) : Int),
          (∀ d, e = LoopEvent.divisor d → 2 ≤ d) ∧
          (∀ b a, e = LoopEvent.increment b a → a = b + 1 ∧ b < T.max) := by
        intro e he
        obtain ⟨rfl, h2⟩ := constexpr_factorial_check_divisors_mem _ e he
        refine ⟨fun d hd => ?_, fun b a hba => ?_⟩
        · injection hd with hd
          omega
        · exact LoopEvent.noConfusion hba
      by_cases hcheck : 1 < ((j + 1 : Nat) : Int) ∧
          ((j.factorial : Nat) : Int) > Int.tdiv T.max ((j + 1 : Nat) : Int)
      · rw [if_pos hcheck] at he
        exact hdiv e he
      · rw [if_neg hcheck] at he
        dsimp only at he
        have hmul : ((j.factorial : Nat) : Int) * ((j + 1 : Nat) : Int)
            = (((j + 1).factorial : Nat) : Int) := by
          rw [Nat.factorial_succ]; push_cast; ring
        have h3 := T.three_le_max_of_bounded hb
        have hfit' : (((j + 1).factorial : Nat) : Int) ≤ T.max := by
          by_contra hc
          apply hcheck
          by_cases hj : j = 0
          · subst hj
            simp at hc
            omega
          · refine ⟨by push_cast; omega, ?_⟩
            rw [overflow_check_iff T.max _ _ (Nat.factorial_pos j) (Nat.succ_pos j), hmul]
            omega
        have hj2 : ((j + 1 + 1 : Nat) : Int) ≤ T.max := by
          rcases Nat.lt_or_ge (j + 1) 3 with hlt | hge
          · have : ((j + 1 + 1 : Nat) : Int) ≤ 3 := by
              exact_mod_cast (by omega : j + 1 + 1 ≤ 3)
            omega
          · have hlt : j + 1 < (j + 1).factorial := Nat.lt_factorial_self hge
            have : ((j + 1 + 1 : Nat) : Int) ≤ (((j + 1).factorial : Nat) : Int) := by
              exact_mod_cast hlt
            omega
        have hnext : T.wrap (((j + 1 : Nat) : Int) + 1) = ((j + 1 + 1 : Nat) : Int) := by
          have : (((j + 1 : Nat) : Int) + 1) = ((j + 1 + 1 : Nat) : Int) := by push_cast; ring
          rw [this]
          exact T.wrap_natCast _ (fun _ => hj2)
        rw [hmul, hnext, T.wrap_natCast _ (fun _ => hfit'), List.mem_append, List.mem_cons] at he
        rcases he with he | he | he
        · exact hdiv e he
        · subst he
          refine ⟨fun d hd => LoopEvent.noConfusion hd, fun b a hba => ?_⟩
          injection hba with h1 h2
          subst h1 h2
          refine ⟨by push_cast; ring, ?_⟩
          push_cast at hj2 ⊢
          omega
        · exact ih (j + 1) hfit' e he
    · rw [if_neg hle] at he
      simp at he

theorem constexpr_factorial_trace_events (T : IntType) (hb : T.is_bounded = true)
    (fuel : Nat) (n : Int) :
    ∀ e ∈ (constexpr_factorial_trace T fuel n).1,
      (∀ d, e = LoopEvent.divisor d → 2 ≤ d) ∧
      (∀ b a, e = LoopEvent.increment b a → a = b + 1 ∧ b < T.max) := by
  have h3 := T.three_le_max_of_bounded hb
  have h := constexpr_factorial_loop_trace_events T hb n fuel 0
    (by simp only [Nat.factorial_zero, Nat.cast_one]; omega)
  unfold constexpr_factorial_trace
  rw [T.wrap_one]
  simpa using h

/-- With `k ≤ n ≤ max(T)` and the counter at `j ≤ k`, whatever the running
product, the permutation loop divides only by terms `≥ 1` and increments only
counters below `k`, storing the successor. -/
theorem permutations_loop_trace_events (T : IntType) (n k : Nat) (hk : k ≤ n)
    (hn : T.is_bounded = true → (n : Int) ≤ T.max) :
    ∀ (fuel j : Nat) (result : Int),
      ∀ e ∈ (permutations_loop_trace T fuel (n : Int) (k : Int) result (j : Int)).1,
        (∀ d, e = LoopEvent.divisor d → 1 ≤ d) ∧
        (∀ b a, e = LoopEvent.increment b a → a = b + 1 ∧ b < (k : Int)) := by
  intro fuel
  induction fuel with
  | zero =>
    intro j result e he
    simp [permutations_loop_trace] at he
  | succ f ih =>
    intro j result e he
    rw [permutations_loop_trace] at he
    by_cases hlt : (j : Int) < (k : Int)
    · have hjk : j < k := by exact_mod_cast hlt
      have hterm : T.wrap ((n : Int) - (j : Int)) = ((n - j : Nat) : Int) := by
        have : (n : Int) - (j : Int) = ((n - j : Nat) : Int) := by omega
        rw [this]
        apply T.wrap_natCast
        intro hb'
        have := hn hb'
        omega
      have hnext : T.wrap ((j : Int) + 1) = ((j + 1 : Nat) : Int) := by
        have : (j : Int) + 1 = ((j + 1 : Nat) : Int) := by push_cast; ring
        rw [this]
        apply T.wrap_natCast
        intro hb'
        have := hn hb'
        omega
      have hdiv : ∀ e, e = LoopEvent.divisor ((n - j : Nat) : Int) →
          (∀ d, e = LoopEvent.divisor d → 1 ≤ d) ∧
          (∀ b a, e = LoopEvent.increment b a → a = b + 1 ∧ b < (k : Int)) := by
        intro e he
        subst he
        refine ⟨fun d hd => ?_, fun b a hba => LoopEvent.noConfusion hba⟩
        injection hd with hd
        omega
      rw [if_pos hlt] at he
      dsimp only at he
      rw [hterm, hnext] at he
      split_ifs at he with hov
      · rw [List.mem_singleton] at he
        exact hdiv e he
      · rw [List.mem_cons, List.mem_cons] at he
        rcases he with he | he | he
        · exact hdiv e he
        · subst he
          refine ⟨fun d hd => LoopEvent.noConfusion hd, fun b a hba => ?_⟩
          injection hba with h1 h2
          subst h1 h2
          exact ⟨by push_cast; ring, hlt⟩
        · exact ih (j + 1) _ e he
    · rw [if_neg hlt] at he
      simp at he

/-- With `2k ≤ n ≤ max(T)` and the counter at `j ≥ 1`, whatever the running
product, the combination loop divides only by terms and counters `≥ 1` and
increments only counters `≤ k`, storing the successor. -/
theorem combinations_loop_trace_events (T : IntType) (n k : Nat) (h2k : 2 * k ≤ n)
    (hn : T.is_bounded = true → (n : Int) ≤ T.max) :
    ∀ (fuel j : Nat) (result : Int), 1 ≤ j →
      ∀ e ∈ (combinations_loop_trace T fuel (n : Int) (k : Int) result (j : Int)).1,
        (∀ d, e = LoopEvent.divisor d → 1 ≤ d) ∧
        (∀ b a, e = LoopEvent.increment b a → a = b + 1 ∧ b ≤ (k : Int)) := by
  intro fuel
  induction fuel with
  | zero =>
    intro j result _ e he
    simp [combinations_loop_trace] at he
  | succ f ih =>
    intro j result hj e he
    rw [combinations_loop_trace] at he
    by_cases hle : (j : Int) ≤ (k : Int)
    · have hjk : j ≤ k := by exact_mod_cast hle
      have hsub : T.wrap ((n : Int) - (j : Int)) = ((n - j : Nat) : Int) := by
        have : (n : Int) - (j : Int) = ((n - j : Nat) : Int) := by omega
        rw [this]
        apply T.wrap_natCast
        intro hb'
        have := hn hb'
        omega
      have hterm : T.wrap (((n - j : Nat) : Int) + 1) = ((n - j + 1 : Nat) : Int) := by
        have : ((n - j : Nat) : Int) + 1 = ((n - j + 1 : Nat) : Int) := by push_cast; ring
        rw [this]
        apply T.wrap_natCast
        intro hb'
        have := hn hb'
        omega
      have hnext : T.wrap ((j : Int) + 1) = ((j + 1 : Nat) : Int) := by
        have : (j : Int) + 1 = ((j + 1 : Nat) : Int) := by push_cast; ring
        rw [this]
        apply T.wrap_natCast
        intro hb'
        have := hn hb'
        omega
      have hdiv : ∀ e, e = LoopEvent.divisor ((n - j + 1 : Nat) : Int) →
          (∀ d, e = LoopEvent.divisor d → 1 ≤ d) ∧
          (∀ b a, e = LoopEvent.increment b a → a = b + 1 ∧ b ≤ (k : Int)) := by
        intro e he
        subst he
        refine ⟨fun d hd => ?_, fun b a hba => LoopEvent.noConfusion hba⟩
        injection hd with hd
        omega
      rw [if_pos hle] at he
      dsimp only at he
      rw [hsub, hterm, hnext] at he
      split_ifs at he with hov
      · rw [List.mem_singleton] at he
        exact hdiv e he
      · rw [List.mem_cons, List.mem_cons, List.mem_cons] at he
        rcases he with he | he | he | he
        · exact hdiv e he
        · subst he
          refine ⟨fun d hd => ?_, fun b a hba => LoopEvent.noConfusion hba⟩
          injection hd with hd
          omega
        · subst he
          refine ⟨fun d hd => LoopEvent.noConfusion hd, fun b a hba => ?_⟩
          injection hba with h1 h2
          subst h1 h2
          exact ⟨by push_cast; ring, hle⟩
        · exact ih (j + 1) _ (by omega) e he
    · rw [if_neg hle] at he
      simp at he

theorem generic_power_check_divisors_mem (b : Int) (e : LoopEvent)
    (he : e ∈ generic_power_check_divisors b) : e = LoopEvent.divisor b ∧ b ≠ 0 := by
  unfold generic_power_check_divisors at he
  split_ifs at he with h
  · rw [List.mem_singleton] at he
    exact ⟨he, h⟩
  · simp at he

/-- The power loop divides only by a non-zero `b` and increments nothing. -/
theorem generic_power_loop_trace_events (T : IntType) :
    ∀ (fuel : Nat) (result b : Int) (e : Nat),
      ∀ ev ∈ (generic_power_loop_trace T fuel result b e).1,
        (∀ d, ev = LoopEvent.divisor d → d ≠ 0) ∧
        (∀ x a, ev ≠ LoopEvent.increment x a) := by
  intro fuel
  induction fuel with
  | zero =>
    intro result b e ev he
    simp [generic_power_loop_trace] at he
  | succ f ih =>
    intro result b e ev he
    have hdiv : ∀ ev ∈ generic_power_check_divisors b,
        (∀ d, ev = LoopEvent.divisor d → d ≠ 0) ∧
        (∀ x a, ev ≠ LoopEvent.increment x a) := by
      intro ev hev
      obtain ⟨rfl, hb⟩ := generic_power_check_divisors_mem b ev hev
      refine ⟨fun d hd => ?_, fun x a hxa => LoopEvent.noConfusion hxa⟩
      injection hd with hd
      rw [← hd]
      exact hb
    rw [generic_power_loop_trace] at he
    split_ifs at he
    all_goals first
      | exact hdiv ev he
      | exact ih _ _ _ ev he
      | (simp only [List.mem_append] at he
         rcases he with he | he
         · exact hdiv ev he
         · first | exact hdiv ev he | exact ih _ _ _ ev he)
      | (simp only [List.mem_append] at he
         rcases he with (he | he) | he
         · exact hdiv ev he
         · exact hdiv ev he
         · exact ih _ _ _ ev he)
      | simp at he

/-- With `base ≥ 2`, `current ≤ max(T)` and room for the remaining count, the
logarithm loop divides only by `base` and stores the successor at each
increment. -/
theorem generic_log_loop_trace_events (T : IntType) (base : Nat) (hbase : 2 ≤ base) :
    ∀ (fuel current log : Nat),
      (T.is_bounded = true → (current : Int) ≤ T.max) →
      log + Nat.log base current < uint_modulus →
      ∀ e ∈ (generic_log_loop_trace T fuel (base : Int) (current : Int) log).1,
        (∀ d, e = LoopEvent.divisor d → 2 ≤ d) ∧
        (∀ b a, e = LoopEvent.increment b a → a = b + 1) := by
  intro fuel
  induction fuel with
  | zero =>
    intro current log _ _ e he
    simp [generic_log_loop_trace] at he
  | succ f ih =>
    intro current log hmax hlog e he
    rw [generic_log_loop_trace] at he
    by_cases hge : base ≤ current
    · have hge' : (current : Int) ≥ (base : Int) := by exact_mod_cast hge
      have hstep : Nat.log base current = Nat.log base (current / base) + 1 :=
        Nat.log_of_one_lt_of_le (by omega) hge
      have hdivlt : current / base < current := Nat.div_lt_self (by omega) (by omega)
      have hdiv : Int.tdiv (current : Int) (base : Int) = ((current / base : Nat) : Int) :=
        (Int.ofNat_tdiv current base).symm
      have hle' : (T.is_bounded = true → ((current / base : Nat) : Int) ≤ T.max) := by
        intro hb
        have h2 := hmax hb
        have h3 : ((current / base : Nat) : Int) ≤ (current : Int) := by
          exact_mod_cast hdivlt.le
        omega
      have hw : T.wrap ((current / base : Nat) : Int) = ((current / base : Nat) : Int) :=
        T.wrap_natCast _ hle'
      have hlog1 : (log + 1) % uint_modulus = log + 1 := Nat.mod_eq_of_lt (by omega)
      rw [if_pos hge', hdiv, hw, hlog1] at he
      dsimp only at he
      rw [List.mem_cons, List.mem_cons] at he
      rcases he with he | he | he
      · subst he
        refine ⟨fun d hd => ?_, fun b a hba => LoopEvent.noConfusion hba⟩
        injection hd with hd
        omega
      · subst he
        refine ⟨fun d hd => LoopEvent.noConfusion hd, fun b a hba => ?_⟩
        injection hba with h1 h2
        subst h1 h2
        push_cast
        ring
      · exact ih (current / base) (log + 1) hle' (by omega) e he
    · have hlt : ¬ ((current : Int) ≥ (base : Int)) := by
        intro h
        exact hge (by exact_mod_cast h)
      rw [if_neg hlt] at he
      simp at he

/-- A permutation loop whose counter is not below `k` executes nothing. -/
theorem permutations_loop_trace_exit (T : IntType) (fuel : Nat) (n k result i : Int)
    (h : ¬ i < k) : (permutations_loop_trace T fuel n k result i).1 = [] := by
  cases fuel with
  | zero => rfl
  | succ f => rw [permutations_loop_trace, if_neg h]

/-- A combination loop whose counter is above `k` executes nothing. -/
theorem combinations_loop_trace_exit (T : IntType) (fuel : Nat) (n k result i : Int)
    (h : ¬ i ≤ k) : (combinations_loop_trace T fuel n k result i).1 = [] := by
  cases fuel with
  | zero => rfl
  | succ f => rw [combinations_loop_trace, if_neg h]

/-- A permutation loop whose counter is not below `k` returns its product. -/
theorem permutations_loop_exit (T : IntType) (fuel : Nat) (n k result i : Int)
    (h : ¬ i < k) :
    permutations_loop T (fuel + 1) n k result i = some (Expected.value result) := by
  rw [permutations_loop, if_neg h]

/-- A combination loop whose counter is above `k` returns its product. -/
theorem combinations_loop_exit (T : IntType) (fuel : Nat) (n k result i : Int)
    (h : ¬ i ≤ k) :
    combinations_loop T (fuel + 1) n k result i = some (Expected.value result) := by
  rw [combinations_loop, if_neg h]

/-- Truncating division by 2 does not go below a negative `k ≤ n`. -/
theorem le_tdiv_two_of_neg (n k : Int) (hk : k < 0) (hkn : k ≤ n) : k ≤ Int.tdiv n 2 := by
  rcases lt_or_le n 0 with hn | hn
  · obtain ⟨m, hm⟩ := Int.eq_ofNat_of_zero_le (by omega : 0 ≤ -n)
    have hn' : n = -(m : Int) := by omega
    have hdiv : Int.tdiv (m : Int) 2 = ((m / 2 : Nat) : Int) := (Int.ofNat_tdiv m 2).symm
    rw [hn', Int.neg_tdiv, hdiv]
    have : m / 2 ≤ m := Nat.div_le_self _ _
    have h2 : ((m / 2 : Nat) : Int) ≤ (m : Int) := by exact_mod_cast this
    omega
  · have := Int.tdiv_nonneg hn (by decide : (0 : Int) ≤ 2)
    omega

/-- On a native type and arguments of that type, `permutations` divides only
by terms `≥ 1` and increments only counters below `k`, storing the
successor. -/
theorem permutations_trace_events (w : Width) (sgn : Bool) (n k : Int) (fuel : Nat)
    (hn : (IntType.native w sgn).inRange n) (hk : (IntType.native w sgn).inRange k) :
    ∀ e ∈ (permutations_trace (IntType.native w sgn) fuel n k).1,
      (∀ d, e = LoopEvent.divisor d → 1 ≤ d) ∧
      (∀ b a, e = LoopEvent.increment b a → a = b + 1 ∧ b < k) := by
  intro e he
  unfold permutations_trace at he
  split_ifs at he with hdom hgt hk0
  · simp at he
  · simp at he
  · simp at he
  · rcases lt_or_le k 0 with hkneg | hk0'
    · rw [IntType.wrap_zero, permutations_loop_trace_exit _ _ _ _ _ _ (by omega)] at he
      simp at he
    · have hn0 : 0 ≤ n := by omega
      have hmax := (inRange_native w sgn n hn).1
      obtain ⟨k', rfl⟩ := Int.eq_ofNat_of_zero_le hk0'
      obtain ⟨n', rfl⟩ := Int.eq_ofNat_of_zero_le hn0
      have hkn : k' ≤ n' := by
        have : (k' : Int) ≤ (n' : Int) := by omega
        exact_mod_cast this
      rw [IntType.wrap_one, IntType.wrap_zero] at he
      exact permutations_loop_trace_events (IntType.native w sgn) n' k' hkn (fun _ => hmax)
        fuel 0 1 e (by simpa using he)

/-- On a native type and arguments of that type, `combinations` divides only
by 2, by terms `≥ 1` and by counters `≥ 1`, and increments only counters
`≤ n / 2`, storing the successor. -/
theorem combinations_trace_events (w : Width) (sgn : Bool) (n k : Int) (fuel : Nat)
    (hn : (IntType.native w sgn).inRange n) (hk : (IntType.native w sgn).inRange k) :
    ∀ e ∈ (combinations_trace (IntType.native w sgn) fuel n k).1,
      (∀ d, e = LoopEvent.divisor d → 1 ≤ d) ∧
      (∀ b a, e = LoopEvent.increment b a → a = b + 1 ∧ b ≤ Int.tdiv n 2) := by
  intro e he
  have htwo : ∀ e, e = LoopEvent.divisor 2 →
      (∀ d, e = LoopEvent.divisor d → 1 ≤ d) ∧
      (∀ b a, e = LoopEvent.increment b a → a = b + 1 ∧ b ≤ Int.tdiv n 2) := by
    intro e he
    subst he
    refine ⟨fun d hd => ?_, fun b a hba => LoopEvent.noConfusion hba⟩
    injection hd with hd
    omega
  unfold combinations_trace at he
  by_cases hdom : (IntType.native w sgn).is_signed = true ∧ (n < 0 ∨ k < 0)
  · rw [if_pos hdom] at he
    simp at he
  · rw [if_neg hdom] at he
    by_cases hgt : k > n
    · rw [if_pos hgt] at he
      simp at he
    · rw [if_neg hgt] at he
      rcases lt_or_le k 0 with hkneg | hk0'
      · have hhalf : ¬ (k > Int.tdiv n 2) := by
          have := le_tdiv_two_of_neg n k hkneg (by omega)
          omega
        dsimp only at he
        rw [if_neg hhalf, if_neg (by omega), IntType.wrap_one,
          combinations_loop_trace_exit _ _ _ _ _ _ (by omega)] at he
        rw [List.mem_singleton] at he
        exact htwo e he
      · have hn0 : 0 ≤ n := by omega
        have hmax := (inRange_native w sgn n hn).1
        obtain ⟨k', rfl⟩ := Int.eq_ofNat_of_zero_le hk0'
        obtain ⟨n', rfl⟩ := Int.eq_ofNat_of_zero_le hn0
        have hkn : k' ≤ n' := by
          have : (k' : Int) ≤ (n' : Int) := by omega
          exact_mod_cast this
        have hhalf : Int.tdiv (n' : Int) 2 = ((n' / 2 : Nat) : Int) :=
          (Int.ofNat_tdiv n' 2).symm
        obtain ⟨m, hm, h2m⟩ : ∃ m : Nat,
            (if (k' : Int) > Int.tdiv (n' : Int) 2
              then (IntType.native w sgn).wrap ((n' : Int) - (k' : Int)) else (k' : Int))
              = (m : Int) ∧ 2 * m ≤ n' := by
          by_cases hc : (k' : Int) > Int.tdiv (n' : Int) 2
          · refine ⟨n' - k', ?_, ?_⟩
            · rw [if_pos hc]
              have : (n' : Int) - (k' : Int) = ((n' - k' : Nat) : Int) := by omega
              rw [this]
              apply IntType.wrap_natCast
              intro _
              omega
            · rw [hhalf] at hc
              have : n' / 2 < k' := by exact_mod_cast hc
              omega
          · refine ⟨k', by rw [if_neg hc], ?_⟩
            rw [hhalf] at hc
            have : ¬ (n' / 2 < k') := fun h => hc (by exact_mod_cast h)
            omega
        dsimp only at he
        rw [hm] at he
        have hmhalf : (m : Int) ≤ Int.tdiv (n' : Int) 2 := by
          rw [hhalf]
          have : m ≤ n' / 2 := by omega
          exact_mod_cast this
        split_ifs at he with hz
        · rw [List.mem_singleton] at he
          exact htwo e he
        · rw [List.mem_cons] at he
          rcases he with he | he
          · exact htwo e he
          · rw [IntType.wrap_one] at he
            obtain ⟨h1, h2⟩ := combinations_loop_trace_events (IntType.native w sgn) n' m h2m
              (fun _ => hmax) fuel 1 1 (le_refl 1) e (by simpa using he)
            refine ⟨h1, fun b a hba => ?_⟩
            obtain ⟨h3, h4⟩ := h2 b a hba
            exact ⟨h3, le_trans h4 hmhalf⟩

/-- The function `generic_power` divides only by a non-zero `b`. -/
theorem generic_power_trace_events (T : IntType) (fuel : Nat) (base : Int) (exp : Nat) :
    ∀ ev ∈ (generic_power_trace T fuel base exp).1,
      (∀ d, ev = LoopEvent.divisor d → d ≠ 0) ∧
      (∀ x a, ev ≠ LoopEvent.increment x a) := by
  intro ev he
  unfold generic_power_trace at he
  split_ifs at he
  · simp at he
  · simp at he
  · exact generic_power_loop_trace_events T fuel _ _ _ ev he

/-- On a native type and a value of that type, `generic_log` divides only by a
base `≥ 2` and stores the successor at each increment of `log`. -/
theorem generic_log_trace_events (w : Width) (sgn : Bool) (base v : Int) (fuel : Nat)
    (hv : (IntType.native w sgn).inRange v) :
    ∀ e ∈ (generic_log_trace (IntType.native w sgn) fuel base v).1,
      (∀ d, e = LoopEvent.divisor d → 2 ≤ d) ∧
      (∀ b a, e = LoopEvent.increment b a → a = b + 1) := by
  intro e he
  unfold generic_log_trace at he
  split_ifs at he with hb hv0 hv1
  · simp at he
  · simp at he
  · simp at he
  · have hmax := (inRange_native w sgn v hv).1
    obtain ⟨v', rfl⟩ := Int.eq_ofNat_of_zero_le (by omega : 0 ≤ v)
    obtain ⟨base', rfl⟩ := Int.eq_ofNat_of_zero_le (by omega : 0 ≤ base)
    have hbase : 2 ≤ base' := by
      have : (2 : Int) ≤ (base' : Int) := by omega
      exact_mod_cast this
    have hv1' : 1 ≤ v' := by
      have : (1 : Int) ≤ (v' : Int) := by omega
      exact_mod_cast this
    have hlt : v' < 2 ^ 128 := by
      have h1 := native_max_lt_two_pow_128 w sgn
      have h2 : (v' : Int) < 2 ^ 128 := by omega
      exact_mod_cast h2
    have hl := log_lt_128 base' v' hbase hv1' hlt
    exact generic_log_loop_trace_events (IntType.native w sgn) base' hbase fuel v' 0
      (fun _ => hmax) (by unfold uint_modulus; norm_num; omega) e he

theorem constexpr_factorial_terminates (w : Width) (sgn : Bool) (n : Int) (fuel : Nat)
    (hfuel : n.toNat < fuel) :
    ∃ r, constexpr_factorial (IntType.native w sgn) fuel n = some r := by
  have h3 := (IntType.native w sgn).three_le_max_of_bounded rfl
  rcases lt_or_le n 0 with hneg | hpos
  · obtain ⟨f, rfl⟩ : ∃ f, fuel = f + 1 := ⟨fuel - 1, by omega⟩
    refine ⟨Expected.value 1, ?_⟩
    unfold constexpr_factorial
    rw [IntType.wrap_one, constexpr_factorial_loop, if_neg (by omega)]
  · obtain ⟨n', rfl⟩ := Int.eq_ofNat_of_zero_le hpos
    rw [Int.toNat_ofNat] at hfuel
    exact ⟨_, constexpr_factorial_spec_nat _ h3 n' fuel hfuel⟩

theorem permutations_terminates (w : Width) (sgn : Bool) (n k : Int) (fuel : Nat)
    (hn : (IntType.native w sgn).inRange n) (hk : (IntType.native w sgn).inRange k)
    (hfuel : n.toNat < fuel) :
    ∃ r, permutations (IntType.native w sgn) fuel n k = some r := by
  by_cases hdom : (IntType.native w sgn).is_signed = true ∧ (n < 0 ∨ k < 0)
  · exact ⟨_, by unfold permutations; rw [if_pos hdom]⟩
  · by_cases hgt : k > n
    · exact ⟨_, by unfold permutations; rw [if_neg hdom, if_pos hgt]⟩
    · rcases lt_or_le k 0 with hkneg | hk0
      · obtain ⟨f, rfl⟩ : ∃ f, fuel = f + 1 := ⟨fuel - 1, by omega⟩
        refine ⟨Expected.value ((IntType.native w sgn).wrap 1), ?_⟩
        unfold permutations
        rw [if_neg hdom, if_neg hgt, if_neg (by omega), IntType.wrap_zero]
        exact permutations_loop_exit _ f n k _ 0 (by omega)
      · have hmax := (inRange_native w sgn n hn).1
        obtain ⟨k', rfl⟩ := Int.eq_ofNat_of_zero_le hk0
        obtain ⟨n', rfl⟩ := Int.eq_ofNat_of_zero_le (by omega : 0 ≤ n)
        rw [Int.toNat_ofNat] at hfuel
        have hkn : k' ≤ n' := by
          have : (k' : Int) ≤ (n' : Int) := by omega
          exact_mod_cast this
        exact ⟨_, permutations_native_nat w sgn n' k' fuel hkn hmax (by omega)⟩

theorem combinations_terminates (w : Width) (sgn : Bool) (n k : Int) (fuel : Nat)
    (hn : (IntType.native w sgn).inRange n) (hk : (IntType.native w sgn).inRange k)
    (hfuel : n.toNat < fuel) :
    ∃ r, combinations (IntType.native w sgn) fuel n k = some r := by
  by_cases hdom : (IntType.native w sgn).is_signed = true ∧ (n < 0 ∨ k < 0)
  · exact ⟨_, by unfold combinations; rw [if_pos hdom]⟩
  · by_cases hgt : k > n
    · exact ⟨_, by unfold combinations; rw [if_neg hdom, if_pos hgt]⟩
    · rcases lt_or_le k 0 with hkneg | hk0
      · obtain ⟨f, rfl⟩ : ∃ f, fuel = f + 1 := ⟨fuel - 1, by omega⟩
        have hhalf : ¬ (k > Int.tdiv n 2) := by
          have := le_tdiv_two_of_neg n k hkneg (by omega)
          omega
        refine ⟨Expected.value ((IntType.native w sgn).wrap 1), ?_⟩
        unfold combinations
        rw [if_neg hdom, if_neg hgt]
        dsimp only
        rw [if_neg hhalf, if_neg (by omega), IntType.wrap_one]
        exact combinations_loop_exit _ f n k _ 1 (by omega)
      · have hmax := (inRange_native w sgn n hn).1
        obtain ⟨k', rfl⟩ := Int.eq_ofNat_of_zero_le hk0
        obtain ⟨n', rfl⟩ := Int.eq_ofNat_of_zero_le (by omega : 0 ≤ n)
        rw [Int.toNat_ofNat] at hfuel
        have hkn : k' ≤ n' := by
          have : (k' : Int) ≤ (n' : Int) := by omega
          exact_mod_cast this
        exact ⟨_, combinations_native_nat w sgn n' k' fuel hkn hmax (by omega)⟩

theorem generic_log_terminates (w : Width) (sgn : Bool) (base v : Int) (fuel : Nat)
    (hv : (IntType.native w sgn).inRange v) (hfuel : v.toNat < fuel) :
    ∃ r, generic_log (IntType.native w sgn) fuel base v = some r := by
  by_cases hb : base ≤ 1
  · exact ⟨_, by unfold generic_log; rw [if_pos hb]⟩
  · by_cases hv0 : v ≤ 0
    · exact ⟨_, by unfold generic_log; rw [if_neg hb, if_pos hv0]⟩
    · have hmax := (inRange_native w sgn v hv).1
      obtain ⟨v', rfl⟩ := Int.eq_ofNat_of_zero_le (by omega : 0 ≤ v)
      obtain ⟨base', rfl⟩ := Int.eq_ofNat_of_zero_le (by omega : 0 ≤ base)
      rw [Int.toNat_ofNat] at hfuel
      have hbase : 2 ≤ base' := by
        have : (2 : Int) ≤ (base' : Int) := by omega
        exact_mod_cast this
      have hv1' : 1 ≤ v' := by
        have : (1 : Int) ≤ (v' : Int) := by omega
        exact_mod_cast this
      exact ⟨_, generic_log_native_nat w sgn base' v' fuel hbase hv1' hmax hfuel⟩

/-- At `n = max(T)` the factorial loop returns Overflow. -/
theorem constexpr_factorial_max_overflow (w : Width) (sgn : Bool) (fuel : Nat)
    (hfuel : (IntType.native w sgn).max.toNat < fuel) :
    constexpr_factorial (IntType.native w sgn) fuel (IntType.native w sgn).max
      = some (Expected.unexpected MathError.Overflow) := by
  have h3 := (IntType.native w sgn).three_le_max_of_bounded rfl
  obtain ⟨M, hM⟩ := Int.eq_ofNat_of_zero_le (by omega : 0 ≤ (IntType.native w sgn).max)
  rw [hM] at hfuel h3 ⊢
  rw [Int.toNat_ofNat] at hfuel
  have hM3 : 3 ≤ M := by exact_mod_cast h3
  have hbig : M < M.factorial := Nat.lt_factorial_self hM3
  have h := constexpr_factorial_spec_nat (IntType.native w sgn) (by rw [hM]; exact h3) M fuel hfuel
  rw [h, if_neg]
  rw [hM]
  have : (M : Int) < ((M.factorial : Nat) : Int) := by exact_mod_cast hbig
  omega


/-! ## Specification theorems: safety and termination of the loops -/

/-- C37: on every native type and all arguments of that type, every divisor
used by `constexpr_factorial` (the counter, `≥ 2`), `permutations` (the term,
`≥ 1`), `combinations` (the constant 2, the term and the counter, `≥ 1`),
`generic_power` (`b`, only behind `b != 0`; any base) and `generic_log` (the
base, `≥ 2`) is non-zero; the traced functions return what the functions
return. -/
theorem no_division_by_zero_in_checked_loops (w : Width) (sgn : Bool) (n k base v : Int)
    (exp fuel : Nat)
    (hn : (IntType.native w sgn).inRange n) (hk : (IntType.native w sgn).inRange k)
    (hv : (IntType.native w sgn).inRange v) :
    ((constexpr_factorial_trace (IntType.native w sgn) fuel n).2
        = constexpr_factorial (IntType.native w sgn) fuel n ∧
      ∀ d, LoopEvent.divisor d ∈ (constexpr_factorial_trace (IntType.native w sgn) fuel n).1 →
        d ≠ 0 ∧ 2 ≤ d) ∧
    ((permutations_trace (IntType.native w sgn) fuel n k).2
        = permutations (IntType.native w sgn) fuel n k ∧
      ∀ d, LoopEvent.divisor d ∈ (permutations_trace (IntType.native w sgn) fuel n k).1 →
        d ≠ 0 ∧ 1 ≤ d) ∧
    ((combinations_trace (IntType.native w sgn) fuel n k).2
        = combinations (IntType.native w sgn) fuel n k ∧
      ∀ d, LoopEvent.divisor d ∈ (combinations_trace (IntType.native w sgn) fuel n k).1 →
        d ≠ 0 ∧ 1 ≤ d) ∧
    ((generic_power_trace (IntType.native w sgn) fuel base exp).2
        = generic_power (IntType.native w sgn) fuel base exp ∧
      ∀ d, LoopEvent.divisor d ∈ (generic_power_trace (IntType.native w sgn) fuel base exp).1 →
        d ≠ 0) ∧
    ((generic_log_trace (IntType.native w sgn) fuel base v).2
        = generic_log (IntType.native w sgn) fuel base v ∧
      ∀ d, LoopEvent.divisor d ∈ (generic_log_trace (IntType.native w sgn) fuel base v).1 →
        d ≠ 0 ∧ 2 ≤ d) := by
  refine ⟨⟨constexpr_factorial_trace_snd _ fuel n, fun d hd => ?_⟩,
    ⟨permutations_trace_snd _ fuel n k, fun d hd => ?_⟩,
    ⟨combinations_trace_snd _ fuel n k, fun d hd => ?_⟩,
    ⟨generic_power_trace_snd _ fuel base exp, fun d hd => ?_⟩,
    ⟨generic_log_trace_snd _ fuel base v, fun d hd => ?_⟩⟩
  · have h := (constexpr_factorial_trace_events (IntType.native w sgn) rfl fuel n _ hd).1 d rfl
    exact ⟨by omega, h⟩
  · have h := (permutations_trace_events w sgn n k fuel hn hk _ hd).1 d rfl
    exact ⟨by omega, h⟩
  · have h := (combinations_trace_events w sgn n k fuel hn hk _ hd).1 d rfl
    exact ⟨by omega, h⟩
  · exact (generic_power_trace_events _ fuel base exp _ hd).1 d rfl
  · have h := (generic_log_trace_events w sgn base v fuel hv _ hd).1 d rfl
    exact ⟨by omega, h⟩

theorem no_division_by_zero_in_checked_loops_witness :
    (IntType.native Width.w8 true).inRange 10 ∧ (IntType.native Width.w8 true).inRange 3 ∧
    (IntType.native Width.w8 true).inRange 100 ∧
    (∀ d, LoopEvent.divisor d ∈ (combinations_trace (IntType.native Width.w8 true) 50 10 3).1 →
      d ≠ 0 ∧ 1 ≤ d) :=
  ⟨by constructor <;> norm_num [IntType.min, IntType.max, IntType.is_bounded, Width.bits],
    by constructor <;> norm_num [IntType.min, IntType.max, IntType.is_bounded, Width.bits],
    by constructor <;> norm_num [IntType.min, IntType.max, IntType.is_bounded, Width.bits],
    (no_division_by_zero_in_checked_loops Width.w8 true 10 3 2 100 5 50
      (by constructor <;> norm_num [IntType.min, IntType.max, IntType.is_bounded, Width.bits])
      (by constructor <;> norm_num [IntType.min, IntType.max, IntType.is_bounded, Width.bits])
      (by constructor <;> norm_num [IntType.min, IntType.max, IntType.is_bounded, Width.bits])
      ).2.2.1.2⟩

/-- C38: on every native type and all arguments of that type, `n = max(T)`
and `k = max(T)` included, the loops of `constexpr_factorial`, `permutations`,
`combinations` and `generic_log` return (fuel above `n`, respectively above
the value whose logarithm is taken, is enough) and every increment of a
counter stores the successor: the factorial counter is incremented only
below `max(T)`, where at `n = max(T)` the loop returns Overflow; the
permutation counter only below `k`; the combination counter only up to
`n / 2`. -/
theorem loops_terminate_and_counters_do_not_wrap (w : Width) (sgn : Bool) (n k base v : Int)
    (fuel : Nat)
    (hn : (IntType.native w sgn).inRange n) (hk : (IntType.native w sgn).inRange k)
    (hv : (IntType.native w sgn).inRange v)
    (hfuel : n.toNat < fuel) (hfuel' : v.toNat < fuel) :
    ((∃ r, constexpr_factorial (IntType.native w sgn) fuel n = some r) ∧
      (constexpr_factorial_trace (IntType.native w sgn) fuel n).2
        = constexpr_factorial (IntType.native w sgn) fuel n ∧
      (∀ b a, LoopEvent.increment b a
          ∈ (constexpr_factorial_trace (IntType.native w sgn) fuel n).1 →
        a = b + 1 ∧ b < (IntType.native w sgn).max) ∧
      (n = (IntType.native w sgn).max →
        constexpr_factorial (IntType.native w sgn) fuel n
          = some (Expected.unexpected MathError.Overflow))) ∧
    ((∃ r, permutations (IntType.native w sgn) fuel n k = some r) ∧
      (permutations_trace (IntType.native w sgn) fuel n k).2
        = permutations (IntType.native w sgn) fuel n k ∧
      (∀ b a, LoopEvent.increment b a
          ∈ (permutations_trace (IntType.native w sgn) fuel n k).1 →
        a = b + 1 ∧ b < k)) ∧
    ((∃ r, combinations (IntType.native w sgn) fuel n k = some r) ∧
      (combinations_trace (IntType.native w sgn) fuel n k).2
        = combinations (IntType.native w sgn) fuel n k ∧
      (∀ b a, LoopEvent.increment b a
          ∈ (combinations_trace (IntType.native w sgn) fuel n k).1 →
        a = b + 1 ∧ b ≤ Int.tdiv n 2)) ∧
    ((∃ r, generic_log (IntType.native w sgn) fuel base v = some r) ∧
      (generic_log_trace (IntType.native w sgn) fuel base v).2
        = generic_log (IntType.native w sgn) fuel base v ∧
      (∀ b a, LoopEvent.increment b a
          ∈ (generic_log_trace (IntType.native w sgn) fuel base v).1 →
        a = b + 1)) := by
  refine ⟨⟨constexpr_factorial_terminates w sgn n fuel hfuel,
      constexpr_factorial_trace_snd _ fuel n,
      fun b a hba => (constexpr_factorial_trace_events (IntType.native w sgn) rfl fuel n _ hba).2 b a rfl,
      fun hmax => ?_⟩,
    ⟨permutations_terminates w sgn n k fuel hn hk hfuel, permutations_trace_snd _ fuel n k,
      fun b a hba => (permutations_trace_events w sgn n k fuel hn hk _ hba).2 b a rfl⟩,
    ⟨combinations_terminates w sgn n k fuel hn hk hfuel, combinations_trace_snd _ fuel n k,
      fun b a hba => (combinations_trace_events w sgn n k fuel hn hk _ hba).2 b a rfl⟩,
    ⟨generic_log_terminates w sgn base v fuel hv hfuel', generic_log_trace_snd _ fuel base v,
      fun b a hba => (generic_log_trace_events w sgn base v fuel hv _ hba).2 b a rfl⟩⟩
  subst hmax
  exact constexpr_factorial_max_overflow w sgn fuel hfuel

theorem loops_terminate_and_counters_do_not_wrap_witness :
    (IntType.native Width.w8 true).inRange 127 ∧ (127 : Int).toNat < 128 ∧
    (127 : Int) = (IntType.native Width.w8 true).max ∧
    constexpr_factorial (IntType.native Width.w8 true) 128 127
      = some (Expected.unexpected MathError.Overflow) ∧
    (∃ r, permutations (IntType.native Width.w8 true) 128 127 127 = some r) :=
  ⟨by constructor <;> norm_num [IntType.min, IntType.max, IntType.is_bounded, Width.bits],
    by decide, by norm_num [IntType.max, Width.bits],
    (loops_terminate_and_counters_do_not_wrap Width.w8 true 127 127 2 127 128
      (by constructor <;> norm_num [IntType.min, IntType.max, IntType.is_bounded, Width.bits])
      (by constructor <;> norm_num [IntType.min, IntType.max, IntType.is_bounded, Width.bits])
      (by constructor <;> norm_num [IntType.min, IntType.max, IntType.is_bounded, Width.bits])
      (by decide) (by decide)).1.2.2.2 (by norm_num [IntType.max, Width.bits]),
    (loops_terminate_and_counters_do_not_wrap Width.w8 true 127 127 2 127 128
      (by constructor <;> norm_num [IntType.min, IntType.max, IntType.is_bounded, Width.bits])
      (by constructor <;> norm_num [IntType.min, IntType.max, IntType.is_bounded, Width.bits])
      (by constructor <;> norm_num [IntType.min, IntType.max, IntType.is_bounded, Width.bits])
      (by decide) (by decide)).2.1.1⟩

/-! ## core: the text round trip of the signed 128-bit type -/

theorem digit_char_toNat (d : Nat) (h : d < 10) : (Char.ofNat (d + 48)).toNat = d + 48 := by
  interval_cases d <;> rfl

/-- The digit loop of the writer appends the decimal digits of `temp`, least
significant first. -/
theorem operator_insert_int128_loop_spec :
    ∀ (fuel temp : Nat) (s : List Char), (temp : Int) ≤ int128_t.max →
      (Nat.digits 10 temp).length < fuel →
      operator_insert_int128_loop fuel (temp : Int) s
        = some (s ++ (Nat.digits 10 temp).map (fun d => Char.ofNat (d + 48))) := by
  intro fuel
  induction fuel with
  | zero => intro temp s _ hf; omega
  | succ f ih =>
    intro temp s hmax hf
    rcases Nat.eq_zero_or_pos temp with h0 | hpos
    · subst h0
      simp [operator_insert_int128_loop]
    · have hpos' : (temp : Int) > 0 := by exact_mod_cast hpos
      have hdig := Nat.digits_def' (by decide : 1 < 10) hpos
      rw [hdig] at hf ⊢
      have hdiv : Int.tdiv (temp : Int) 10 = ((temp / 10 : Nat) : Int) :=
        (Int.ofNat_tdiv temp 10).symm
      have hmod : Int.tmod (temp : Int) 10 = ((temp % 10 : Nat) : Int) :=
        (Int.ofNat_tmod temp 10).symm
      have hle : ((temp / 10 : Nat) : Int) ≤ int128_t.max := by
        have : temp / 10 ≤ temp := Nat.div_le_self _ _
        have : ((temp / 10 : Nat) : Int) ≤ (temp : Int) := by exact_mod_cast this
        omega
      have h48 : (('0'.toNat : Nat) : Int) = 48 := rfl
      have hch : (((temp % 10 : Nat) : Int) + 48).toNat = temp % 10 + 48 := by omega
      rw [operator_insert_int128_loop, if_pos hpos', hdiv, hmod, h48, hch,
        IntType.wrap_natCast _ _ (fun _ => hle),
        ih (temp / 10) _ hle (by simpa using hf)]
      simp



theorem digit_char_passes_test (c : Char) (hc : 48 ≤ c.toNat ∧ c.toNat ≤ 57) :
    ¬ (c.toNat < '0'.toNat ∨ c.toNat > '9'.toNat) := by
  have h0 : '0'.toNat = 48 := rfl
  have h9 : '9'.toNat = 57 := rfl
  rw [h0, h9]
  omega

/-- The digit loop of the reader, on decimal digit characters given most
significant first, accumulates their value as long as it fits. -/
theorem operator_extract_int128_loop_spec :
    ∀ (p : List Char) (val : Nat), (∀ c ∈ p, 48 ≤ c.toNat ∧ c.toNat ≤ 57) →
      ((val * 10 ^ p.length + Nat.ofDigits 10 (p.reverse.map (fun c => c.toNat - 48)) : Nat)
        : Int) ≤ int128_t.max →
      operator_extract_int128_loop p (val : Int)
        = some ((val * 10 ^ p.length
          + Nat.ofDigits 10 (p.reverse.map (fun c => c.toNat - 48)) : Nat) : Int) := by
  intro p
  induction p with
  | nil =>
    intro val _ _
    simp [operator_extract_int128_loop]
  | cons c p ih =>
    intro val hd hfit
    have hc := hd c (List.mem_cons_self c p)
    have h0 : '0'.toNat = 48 := rfl
    have h9 : '9'.toNat = 57 := rfl
    have htot : val * 10 ^ (c :: p).length
          + Nat.ofDigits 10 ((c :: p).reverse.map (fun c => c.toNat - 48))
        = (val * 10 + (c.toNat - 48)) * 10 ^ p.length
          + Nat.ofDigits 10 (p.reverse.map (fun c => c.toNat - 48)) := by
      rw [List.reverse_cons, List.map_append, Nat.ofDigits_append, List.length_cons, pow_succ]
      simp
      ring
    rw [htot] at hfit ⊢
    have hpos : 1 ≤ 10 ^ p.length := Nat.one_le_pow _ _ (by decide)
    have hle : val * 10 + (c.toNat - 48)
        ≤ (val * 10 + (c.toNat - 48)) * 10 ^ p.length
          + Nat.ofDigits 10 (p.reverse.map (fun c => c.toNat - 48)) :=
      le_trans (Nat.le_mul_of_pos_right _ hpos) (Nat.le_add_right _ _)
    have hle' : ((val * 10 + (c.toNat - 48) : Nat) : Int) ≤ int128_t.max := by
      have : ((val * 10 + (c.toNat - 48) : Nat) : Int)
          ≤ (((val * 10 + (c.toNat - 48)) * 10 ^ p.length
            + Nat.ofDigits 10 (p.reverse.map (fun c => c.toNat - 48)) : Nat) : Int) := by
        exact_mod_cast hle
      omega
    have hdigit : ((c.toNat : Int) - (('0'.toNat : Nat) : Int)) = ((c.toNat - 48 : Nat) : Int) := by
      rw [h0]
      omega
    have hcheck : ¬ ((val : Int) > Int.tdiv (int128_t.max - ((c.toNat - 48 : Nat) : Int)) 10) := by
      have hb' : ((c.toNat - 48 : Nat) : Int) < 10 := by omega
      push_cast at hle'
      rw [Int.tdiv_eq_ediv (by omega) (by decide)]
      omega
    have hw : int128_t.wrap ((val : Int) * 10 + ((c.toNat - 48 : Nat) : Int))
        = ((val * 10 + (c.toNat - 48) : Nat) : Int) := by
      have : (val : Int) * 10 + ((c.toNat - 48 : Nat) : Int)
          = ((val * 10 + (c.toNat - 48) : Nat) : Int) := by push_cast; ring
      rw [this]
      exact IntType.wrap_natCast _ _ (fun _ => hle')
    have hnd := digit_char_passes_test c hc
    rw [operator_extract_int128_loop, if_neg hnd]
    dsimp only
    rw [hdigit, if_neg hcheck, hw]
    exact ih _ (fun d hd' => hd d (List.mem_cons_of_mem c hd')) hfit


theorem digit_chars_are_digits (m : Nat) :
    ∀ c ∈ ((Nat.digits 10 m).map (fun d => Char.ofNat (d + 48))).reverse,
      48 ≤ c.toNat ∧ c.toNat ≤ 57 := by
  intro c hc
  rw [List.mem_reverse, List.mem_map] at hc
  obtain ⟨d, hd, hdc⟩ := hc
  have hlt : d < 10 := Nat.digits_lt_base (by decide) hd
  have h := digit_char_toNat d hlt
  rw [hdc] at h
  omega

theorem digit_chars_value (m : Nat) :
    Nat.ofDigits 10 ((((Nat.digits 10 m).map (fun d => Char.ofNat (d + 48))).reverse).reverse.map
      (fun c => c.toNat - 48)) = m := by
  have hmap : ((Nat.digits 10 m).map (fun d => Char.ofNat (d + 48))).map (fun c => c.toNat - 48)
      = Nat.digits 10 m := by
    rw [List.map_map]
    conv_rhs => rw [← List.map_id (Nat.digits 10 m)]
    apply List.map_congr_left
    intro d hd
    have hlt : d < 10 := Nat.digits_lt_base (by decide) hd
    have h := digit_char_toNat d hlt
    simp only [Function.comp_apply, id_eq]
    omega
  rw [List.reverse_reverse, hmap, Nat.ofDigits_digits]

/-- The reader returns `m` on the digits of a positive `m ≤ max`, and `-m`
when they follow a `-`. -/
theorem operator_extract_int128_digits (m : Nat) (hpos : 0 < m)
    (hmax : (m : Int) ≤ int128_t.max) :
    operator_extract_int128 (((Nat.digits 10 m).map (fun d => Char.ofNat (d + 48))).reverse)
      = some (m : Int) ∧
    operator_extract_int128
        ('-' :: ((Nat.digits 10 m).map (fun d => Char.ofNat (d + 48))).reverse)
      = some (-(m : Int)) := by
  have hdig := digit_chars_are_digits m
  have hval := digit_chars_value m
  generalize ((Nat.digits 10 m).map (fun d => Char.ofNat (d + 48))).reverse = text at hdig hval ⊢
  have hloop := operator_extract_int128_loop_spec text 0 hdig
    (by rw [hval]; simpa using hmax)
  rw [hval] at hloop
  simp only [Nat.zero_mul, Nat.zero_add, Nat.cast_zero] at hloop
  have hne : text ≠ [] := by
    intro h
    subst h
    simp at hval
    omega
  obtain ⟨c, rest, hcr⟩ := List.exists_cons_of_ne_nil hne
  have hc48 := (hdig c (by rw [hcr]; exact List.mem_cons_self c rest)).1
  have hminus : c ≠ '-' := by
    intro h
    rw [h] at hc48
    exact absurd hc48 (by decide)
  have hplus : c ≠ '+' := by
    intro h
    rw [h] at hc48
    exact absurd hc48 (by decide)
  have hnosign : ¬ (c = '-' ∨ c = '+') := by
    rintro (h | h)
    · exact hminus h
    · exact hplus h
  constructor
  · rw [hcr] at hloop ⊢
    unfold operator_extract_int128
    simp only [if_neg hnosign]
    rw [if_neg (List.cons_ne_nil c rest), hloop]
    simp only [if_neg hminus]
  · unfold operator_extract_int128
    simp only [true_or, if_true]
    rw [if_neg hne, hloop]
    simp only
    have hw : int128_t.wrap (-(m : Int)) = -(m : Int) :=
      IntType.wrap_neg_signed Width.w128 _ (by omega) (by
        have : int128_t.max = (IntType.native Width.w128 true).max := rfl
        omega)
    rw [hw]


set_option maxRecDepth 100000 in
theorem operator_extract_int128_zero : operator_extract_int128 ['0'] = some 0 := by
  decide

/-- For every `int128_t` value other than the least one, the reader returns
the value from the text the writer produces. -/
theorem int128_round_trip_above_min (v : Int) (fuel : Nat) (hlo : -int128_t.max ≤ v)
    (hhi : v ≤ int128_t.max) (hfuel : 39 < fuel) :
    ∃ text, operator_insert_int128 fuel v = some text ∧
      operator_extract_int128 text = some v := by
  have hmaxlt : int128_t.max < 10 ^ 39 := by
    norm_num [int128_t, IntType.max, Width.bits]
  have hlen : ∀ m : Nat, 0 < m → (m : Int) ≤ int128_t.max →
      (Nat.digits 10 m).length < fuel := by
    intro m hm hmm
    rw [Nat.digits_len 10 m (by decide) (by omega)]
    have h1 : m < 10 ^ 39 := by
      have : (m : Int) < 10 ^ 39 := by omega
      exact_mod_cast this
    have h2 := Nat.log_lt_of_lt_pow (by omega) h1
    omega
  have hmin : int128_t.min = some (-int128_t.max - 1) := by
    norm_num [int128_t, IntType.min, IntType.max, Width.bits]
  rcases lt_trichotomy v 0 with hneg | hzero | hpos
  · obtain ⟨m, hm⟩ := Int.eq_ofNat_of_zero_le (by omega : 0 ≤ -v)
    have hv : v = -(m : Int) := by omega
    subst hv
    have hmpos : 0 < m := by omega
    have hmmax : (m : Int) ≤ int128_t.max := by omega
    have hnotmin : ¬ (some (-(m : Int)) = int128_t.min) := by
      rw [hmin]
      intro h
      injection h with h
      omega
    refine ⟨'-' :: ((Nat.digits 10 m).map (fun d => Char.ofNat (d + 48))).reverse, ?_,
      (operator_extract_int128_digits m hmpos hmmax).2⟩
    unfold operator_insert_int128
    rw [if_neg (by omega), if_neg hnotmin, if_pos hneg, neg_neg,
      IntType.wrap_natCast _ _ (fun _ => hmmax),
      operator_insert_int128_loop_spec fuel m [] hmmax (hlen m hmpos hmmax)]
    simp [hneg]
  · subst hzero
    refine ⟨['0'], ?_, ?_⟩
    · unfold operator_insert_int128
      rw [if_pos rfl]
    · exact operator_extract_int128_zero
  · obtain ⟨m, rfl⟩ := Int.eq_ofNat_of_zero_le (by omega : 0 ≤ v)
    have hmpos : 0 < m := by omega
    have hnotmin : ¬ (some (m : Int) = int128_t.min) := by
      rw [hmin]
      intro h
      injection h with h
      omega
    refine ⟨((Nat.digits 10 m).map (fun d => Char.ofNat (d + 48))).reverse, ?_,
      (operator_extract_int128_digits m hmpos hhi).1⟩
    unfold operator_insert_int128
    rw [if_neg (by omega), if_neg hnotmin, if_neg (by omega),
      operator_insert_int128_loop_spec fuel m [] hhi (hlen m hmpos hhi)]
    simp

set_option maxRecDepth 100000 in
/-- C39: the text round trip of `int128_t` fails at the least value and only
there: for `v = -2^127` the writer produces
`-170141183460469231731687303715884105728`, on which the reader sets
`failbit` (at the last digit, `val` is `17014118346046923173168730371588410572`
and exceeds `(max - 8) / 10`); for every other value of the type the reader
returns `v` from the text the writer produces (any fuel above 39 is enough
for the writer). -/
theorem int128_least_value_written_but_not_read_back :
    int128_t.min = some (-(2 ^ 127)) ∧
    (∀ fuel : Nat, operator_insert_int128 fuel (-(2 ^ 127))
      = some "-170141183460469231731687303715884105728".toList) ∧
    operator_extract_int128 "-170141183460469231731687303715884105728".toList = none ∧
    operator_extract_int128_loop "17014118346046923173168730371588410572".toList 0
      = some 17014118346046923173168730371588410572 ∧
    (17014118346046923173168730371588410572 : Int)
      > Int.tdiv (int128_t.max - (('8'.toNat : Int) - ('0'.toNat : Int))) 10 ∧
    (∀ (v : Int) (fuel : Nat), -(2 ^ 127) < v → v < 2 ^ 127 → 39 < fuel →
      ∃ text, operator_insert_int128 fuel v = some text ∧
        operator_extract_int128 text = some v) := by
  refine ⟨rfl, fun fuel => ?_, by decide, by decide, by decide,
    fun v fuel hlo hhi hfuel => ?_⟩
  · unfold operator_insert_int128
    rw [if_neg (by norm_num),
      if_pos (show some (-(2 : Int) ^ 127) = int128_t.min from rfl)]
  · have hmax : int128_t.max = 2 ^ 127 - 1 := rfl
    exact int128_round_trip_above_min v fuel (by rw [hmax]; omega) (by rw [hmax]; omega) hfuel

end numbers_calculations
